import Mathlib

/-!
Shallow embedding of the metadata broker core (`src/broker/store.rs`) of the
undermoon repository, together with proofs settling the frozen claims.

Modelling conventions:
* Rust `HashMap`/`HashSet` iteration order is unspecified; the embedding uses
  association lists iterated in insertion order (a fixed deterministic
  refinement).  Where a claim depends on a concrete run, the surrounding
  comments argue order-independence of the relevant outcome.
* `u64`/`usize` are modelled as `Nat`; the two subtractions performed by the
  source (`end - remove_num`, `end - 1`) are shown never to underflow on the
  paths the claims exercise, so `Nat` truncation coincides with `usize`.
* Wall-clock time is passed explicitly (`now : Int`, unix seconds).
* Rust `panic!`/`.expect` aborts the process, so a panicking path yields no
  store at all; mutators that can reach an `.expect` return
  `Option (MetaStore × Option MetaStoreError)` with `none` for a panic.
* The types `Range`, `RangeList`, `SlotRange`, `MigrationMeta`,
  `MigrationTaskMeta`, `DBName` and the constant `SLOT_NUM` live in
  `common/cluster.rs` / `common/utils.rs`, which are not part of the sources
  under verification; they are modelled from the spec where marked.
-/

namespace Broker

/-- Modelled from the spec: `SLOT_NUM = 16384` (`common/utils.rs`). -/
def SLOT_NUM : Nat := 16384

/-- Modelled from the spec: slot range `[start, end]`, both bounds inclusive
(`common/cluster.rs::Range`). -/
structure Range where
  start : Nat
  end_ : Nat
deriving DecidableEq, Repr

/-- Modelled from the spec: number of slots of one inclusive range. -/
def Range.slots (r : Range) : Nat := r.end_ + 1 - r.start

/-- Modelled from the spec: a range list is an ordered list of ranges
(`common/cluster.rs::RangeList`); its aggregate slot-count method. -/
def slotsNum (L : List Range) : Nat := (L.map Range.slots).sum

/-- How many times slot `s` is covered by range `r` (0 or 1). -/
def rangeCount (r : Range) (s : Nat) : Nat :=
  if r.start ≤ s ∧ s ≤ r.end_ then 1 else 0

/-- How many times slot `s` is covered by the range list `L`. -/
def listCount (L : List Range) (s : Nat) : Nat := (L.map (rangeCount · s)).sum

/-- Modelled from the spec: migration meta carried on the externally visible
slot range tags (`common/cluster.rs::MigrationMeta`). -/
structure MigrationMeta where
  epoch : Nat
  src_proxy_address : String
  src_node_address : String
  dst_proxy_address : String
  dst_node_address : String
deriving DecidableEq, Repr

/-- Modelled from the spec: tag of a slot range
(`common/cluster.rs::SlotRangeTag`). -/
inductive SlotRangeTag where
  | none
  | migrating (meta : MigrationMeta)
  | importing (meta : MigrationMeta)
deriving DecidableEq, Repr

/-- Modelled from the spec: a slot range with its tag
(`common/cluster.rs::SlotRange`). -/
structure SlotRange where
  range_list : List Range
  tag : SlotRangeTag
deriving DecidableEq, Repr

/-- Modelled from the spec: the task given to `commit_migration`
(`common/cluster.rs::MigrationTaskMeta`). -/
structure MigrationTaskMeta where
  db_name : String
  slot_range : SlotRange
deriving DecidableEq, Repr

/-- Insert a range into a list sorted by `start` (insertion sort step).
Part of the range-list merge, modelled from the spec (§4.6). -/
def insertRange (r : Range) : List Range → List Range
  | [] => [r]
  | x :: xs => if r.start ≤ x.start then r :: x :: xs else x :: insertRange r xs

/-- Sort ranges by their start slot. Modelled from the spec (§4.6). -/
def sortRanges : List Range → List Range
  | [] => []
  | x :: xs => insertRange x (sortRanges xs)

/-- Coalesce a start-sorted range list, merging adjacent/overlapping ranges.
Modelled from the spec (§4.6). -/
def coalesceFrom (cur : Range) : List Range → List Range
  | [] => [cur]
  | y :: ys =>
    if y.start ≤ cur.end_ + 1 then coalesceFrom ⟨cur.start, max cur.end_ y.end_⟩ ys
    else cur :: coalesceFrom y ys

/-- Coalesce a start-sorted range list. Modelled from the spec (§4.6). -/
def coalesceRanges : List Range → List Range
  | [] => []
  | x :: xs => coalesceFrom x xs

/-- Modelled from the spec (§4.6 "Range-list merge semantics"):
`RangeList::merge_another` appends the incoming ranges and re-normalises by
sorting and coalescing adjacent/overlapping ranges. -/
def mergeRangeLists (own incoming : List Range) : List Range :=
  coalesceRanges (sortRanges (own ++ incoming))

/-- `broker/store.rs::ProxyResource`. -/
structure ProxyResource where
  proxy_address : String
  node_addresses : String × String
deriving DecidableEq, Repr

/-- `broker/store.rs::ChunkRolePosition`. -/
inductive ChunkRolePosition where
  | Normal
  | FirstChunkMaster
  | SecondChunkMaster
deriving DecidableEq, Repr

/-- `broker/store.rs::MigrationMetaStore`. -/
structure MigrationMetaStore where
  epoch : Nat
  src_chunk_index : Nat
  src_chunk_part : Nat
  dst_chunk_index : Nat
  dst_chunk_part : Nat
deriving DecidableEq, Repr

/-- `broker/store.rs::MigrationSlotRangeStore`. -/
structure MigrationSlotRangeStore where
  range_list : List Range
  is_migrating : Bool
  meta : MigrationMetaStore
deriving DecidableEq, Repr

/-- `broker/store.rs::ChunkStore`; the two-element arrays are unrolled into
pairs of fields (suffix 0/1 = chunk part, node suffix 0..3 = node index). -/
structure ChunkStore where
  role_position : ChunkRolePosition
  stable_slots0 : Option SlotRange
  stable_slots1 : Option SlotRange
  migrating_slots0 : List MigrationSlotRangeStore
  migrating_slots1 : List MigrationSlotRangeStore
  proxy_addresses0 : String
  proxy_addresses1 : String
  node_addresses0 : String
  node_addresses1 : String
  node_addresses2 : String
  node_addresses3 : String
deriving DecidableEq, Repr

/-- `broker/store.rs::ClusterStore`. The `config : ClusterConfig` field is
omitted: it is opaque to every operation modelled here. -/
structure ClusterStore where
  name : String
  chunks : List ChunkStore
deriving DecidableEq, Repr

/-- `broker/store.rs::MigrationSlots` (intermediate planner output). -/
structure MigrationSlots where
  ranges : List Range
  meta : MigrationMetaStore
deriving DecidableEq, Repr

/-- `broker/store.rs::MetaStore`. `failures` maps proxy address to reporter id
to unix-seconds report time. -/
structure MetaStore where
  global_epoch : Nat
  cluster : Option ClusterStore
  all_proxies : List (String × ProxyResource)
  failed_proxies : List String
  failures : List (String × List (String × Int))
deriving DecidableEq, Repr

/-- `broker/store.rs::MetaStoreError`. -/
inductive MetaStoreError where
  | InUse
  | NotInUse
  | NoAvailableResource
  | ResourceNotBalance
  | AlreadyExisted
  | ClusterNotFound
  | HostNotFound
  | InvalidNodeNum
  | InvalidClusterName
  | InvalidMigrationTask
  | InvalidProxyAddress
  | MigrationTaskNotFound
  | OnlySupportOneCluster
  | MigrationRunning
  | NotSupported
deriving DecidableEq, Repr

end Broker

namespace Broker

/-! ### Association-list helpers (deterministic model of HashMap/HashSet) -/

/-- `HashMap::get` / `contains_key`. -/
def alGet? {V : Type} (l : List (String × V)) (k : String) : Option V :=
  match l.find? (fun e => e.1 = k) with
  | Option.some e => some e.2
  | Option.none => none

def alContains {V : Type} (l : List (String × V)) (k : String) : Bool :=
  (alGet? l k).isSome

/-- `HashMap::entry(k).or_insert_with(|| v)`: keep the stored value if `k` is
present, otherwise append `(k, v)`. -/
def alInsertIfAbsent {V : Type} (l : List (String × V)) (k : String) (v : V) :
    List (String × V) :=
  if alContains l k then l else l ++ [(k, v)]

/-- `HashMap::insert(k, v)`: replace in place, or append if absent. -/
def alSet {V : Type} (l : List (String × V)) (k : String) (v : V) :
    List (String × V) :=
  match l with
  | [] => [(k, v)]
  | e :: rest => if e.1 = k then (k, v) :: rest else e :: alSet rest k v

/-- Update the value stored at `k` (no-op when absent). -/
def alModify {V : Type} (l : List (String × V)) (k : String) (f : V → V) :
    List (String × V) :=
  l.map (fun e => if e.1 = k then (e.1, f e.2) else e)

/-- `HashMap::remove`. -/
def alRemove {V : Type} (l : List (String × V)) (k : String) :
    List (String × V) :=
  l.filter (fun e => ¬ e.1 = k)

/-- `HashSet::insert`. -/
def setIns (l : List String) (a : String) : List String :=
  if a ∈ l then l else l ++ [a]

/-- `HashSet::remove`. -/
def setDel (l : List String) (a : String) : List String :=
  l.filter (fun x => ¬ x = a)

/-- Host part of a `host:port` address: `addr.split(':').next()`, which always
yields the piece before the first `':'` (the whole string when there is no
`':'`). -/
def hostOf (a : String) : String := ⟨a.toList.takeWhile (fun c => ¬ c = ':')⟩

/-- `addr.split(':').count()` = number of `':'` occurrences plus one. -/
def splitColonCount (a : String) : Nat := a.toList.count ':' + 1

/-! ### MetaStore: epoch, registry, failures -/

/-- `MetaStore::default`. -/
def MetaStore.default : MetaStore :=
  { global_epoch := 0, cluster := none, all_proxies := [], failed_proxies := []
    failures := [] }

/-- `MetaStore::bump_global_epoch` (the state part; the returned counter is
not used by any claim). -/
def bump_global_epoch (s : MetaStore) : MetaStore :=
  { s with global_epoch := s.global_epoch + 1 }

/-- `MetaStore::add_proxy`. -/
def add_proxy (s : MetaStore) (proxy_address : String)
    (nodes : String × String) : MetaStore × Option MetaStoreError :=
  if ¬ splitColonCount proxy_address = 2 then
    (s, some MetaStoreError.InvalidProxyAddress)
  else
    let s1 := bump_global_epoch s
    let s2 := { s1 with
      all_proxies := alInsertIfAbsent s1.all_proxies proxy_address
        { proxy_address := proxy_address, node_addresses := nodes }
      failed_proxies := setDel s1.failed_proxies proxy_address
      failures := alRemove s1.failures proxy_address }
    (s2, none)

/-- The multiset of proxy addresses referenced by the cluster's nodes: the
`get_cluster` projection lists, per chunk, four nodes whose `proxy_address`
fields are `proxy_addresses[i / 2]`.  Only membership is ever consulted
(`remove_proxy`, `replace_failed_proxy`). -/
def clusterProxyAddresses (c : ClusterStore) : List String :=
  c.chunks.flatMap (fun ch =>
    [ch.proxy_addresses0, ch.proxy_addresses0,
     ch.proxy_addresses1, ch.proxy_addresses1])

/-- `MetaStore::remove_proxy`. -/
def remove_proxy (s : MetaStore) (proxy_address : String) :
    MetaStore × Option MetaStoreError :=
  let in_use : Bool := match s.cluster with
    | Option.some c => (clusterProxyAddresses c).contains proxy_address
    | Option.none => false
  if in_use then (s, some MetaStoreError.InUse)
  else
    (bump_global_epoch { s with
      all_proxies := alRemove s.all_proxies proxy_address
      failed_proxies := setDel s.failed_proxies proxy_address
      failures := alRemove s.failures proxy_address }, none)

/-- `MetaStore::add_failure`; `now` is the wall clock (unix seconds) that the
source reads via `Utc::now()`. -/
def add_failure (s : MetaStore) (now : Int) (address reporter_id : String) :
    MetaStore :=
  let s1 := bump_global_epoch s
  { s1 with
    failures :=
      if alContains s1.failures address then
        alModify s1.failures address (fun m => alSet m reporter_id now)
      else
        s1.failures ++ [(address, [(reporter_id, now)])] }

/-- `MetaStore::get_failures`; `now` is the wall clock (unix seconds); the
duration comparison `now - report_datetime < failure_ttl` is modelled at
second granularity. -/
def get_failures (s : MetaStore) (now : Int) (failure_ttl : Int)
    (failure_quorum : Nat) : List String × MetaStore :=
  let purged := s.failures.map (fun e =>
    (e.1, e.2.filter (fun r => now - r.2 < failure_ttl)))
  let nonEmpty := purged.filter (fun e => ¬ e.2.isEmpty)
  let addrs := (nonEmpty.filter (fun e => failure_quorum ≤ e.2.length)).map
    (fun e => e.1)
  (addrs, { s with failures := nonEmpty })

/-- `DBName::from` lives outside the verified sources.  Modelled from the
spec: the spec states only that the name must "parse as a cluster name" and
imposes no constraint, so parsing always succeeds in the model (none of the
claims exercises an invalid name). -/
def dbNameFrom (name : String) : Option String := some name

/-- `MetaStore::remove_cluster`. -/
def remove_cluster (s : MetaStore) (db_name : String) :
    MetaStore × Option MetaStoreError :=
  match dbNameFrom db_name with
  | Option.none => (s, some MetaStoreError.InvalidClusterName)
  | Option.some name =>
    match s.cluster with
    | Option.none => (s, some MetaStoreError.ClusterNotFound)
    | Option.some c =>
      if ¬ c.name = name then (s, some MetaStoreError.ClusterNotFound)
      else (bump_global_epoch { s with cluster := none }, none)

end Broker

namespace Broker

/-! ### Allocation stack -/

/-- `MetaStore::get_free_proxies`: known proxies that are not failed, not
reported, and not referenced by any chunk (iterated in registry order). -/
def get_free_proxies (s : MetaStore) : List String :=
  let occupied : List String := match s.cluster with
    | Option.some c => c.chunks.flatMap
        (fun ch => [ch.proxy_addresses0, ch.proxy_addresses1])
    | Option.none => []
  s.all_proxies.filterMap (fun e =>
    let pa := e.2.proxy_address
    if s.failed_proxies.contains pa then none
    else if alContains s.failures pa then none
    else if occupied.contains pa then none
    else some pa)

/-- The `host => proxies` partition built at the top of
`MetaStore::consume_proxy` (bucket order = first-appearance order, pushes at
the bucket end). -/
def buildHostProxies (free : List String) : List (String × List String) :=
  free.foldl (fun hp pa =>
    let h := hostOf pa
    if alContains hp h then alModify hp h (fun b => b ++ [pa])
    else hp ++ [(h, [pa])]) []

/-- The `while max_proxy_num * 2 > free_proxy_num` pop loop inside
`MetaStore::remove_redundant_chunks`; recursion is on the tracked
`max_proxy_num`, which the loop decrements. Returns the final
`free_proxy_num` and the pruned bucket. -/
def pruneLoop : Nat → Nat → List String → Nat × List String
  | 0, freeN, bucket => (freeN, bucket)
  | m + 1, freeN, bucket =>
    if 2 * (m + 1) > freeN then pruneLoop m (freeN - 1) bucket.dropLast
    else (freeN, bucket)

/-- The `for proxies in host_proxies.values_mut()` loop of
`remove_redundant_chunks`: the first bucket whose size equals
`max_proxy_num` is pruned, then the loop breaks. -/
def pruneFirst (maxN : Nat) : List (String × List String) → Nat →
    List (String × List String) × Nat
  | [], freeN => ([], freeN)
  | e :: rest, freeN =>
    if e.2.length = maxN then
      let r := pruneLoop e.2.length freeN e.2
      ((e.1, r.2) :: rest, r.1)
    else
      let r := pruneFirst maxN rest freeN
      (e :: r.1, r.2)

/-- Largest bucket size (`.max().unwrap_or(0)`). -/
def maxBucket (hp : List (String × List String)) : Nat :=
  (hp.map (fun e => e.2.length)).foldl max 0

/-- Total bucket size. -/
def sumBucket (hp : List (String × List String)) : Nat :=
  (hp.map (fun e => e.2.length)).sum

/-- `MetaStore::remove_redundant_chunks`. -/
def remove_redundant_chunks (hp : List (String × List String))
    (expected_num : Nat) :
    Except MetaStoreError (List (String × List String)) :=
  let r := pruneFirst (maxBucket hp) hp (sumBucket hp)
  if r.2 < expected_num then Except.error MetaStoreError.NoAvailableResource
  else Except.ok r.1

/-- `entry(a).or_insert_with(HashMap::new).entry(b).or_insert(0)`. -/
def ltInit0 (lt : List (String × List (String × Nat))) (a b : String) :
    List (String × List (String × Nat)) :=
  if alContains lt a then alModify lt a (fun row => alInsertIfAbsent row b 0)
  else lt ++ [(a, [(b, 0)])]

/-- `*entry(a)...entry(b).or_insert(0) += 1`. -/
def ltAdd1 (lt : List (String × List (String × Nat))) (a b : String) :
    List (String × List (String × Nat)) :=
  if alContains lt a then
    alModify lt a (fun row =>
      if alContains row b then alModify row b (fun n => n + 1)
      else row ++ [(b, 1)])
  else lt ++ [(a, [(b, 1)])]

/-- `MetaStore::build_link_table`: zero entries for every ordered pair of
distinct hosts of known proxies, then `+1` in both directions for every
chunk of the current cluster. -/
def build_link_table (s : MetaStore) : List (String × List (String × Nat)) :=
  let base := s.all_proxies.foldl (fun lt e1 =>
    let h1 := hostOf e1.2.proxy_address
    s.all_proxies.foldl (fun lt e2 =>
      let h2 := hostOf e2.2.proxy_address
      if h1 = h2 then lt else ltInit0 (ltInit0 lt h1 h2) h2 h1) lt) []
  match s.cluster with
  | Option.none => base
  | Option.some c =>
    c.chunks.foldl (fun lt ch =>
      let h1 := hostOf ch.proxy_addresses0
      let h2 := hostOf ch.proxy_addresses1
      ltAdd1 (ltAdd1 lt h1 h2) h2 h1) base

/-- `host_proxies.iter_mut().max_by_key(|(_, proxies)| proxies.len())`:
Rust's `max_by_key` returns the LAST maximal element of the iteration. -/
def pickMaxHost (hp : List (String × List String)) :
    Option (String × List String) :=
  hp.foldl (fun best e =>
    match best with
    | Option.none => some e
    | Option.some b => if b.2.length ≤ e.2.length then some e else some b)
    none

/-- The selection of `second_host` in `allocate_chunk`: among link-table
peers of `first_host` that are distinct from it and have a non-empty free
bucket, the one with minimal link count (`min_by_key` returns the FIRST
minimal element of the iteration). -/
def pickMinPeer (peers : List (String × Nat)) (first_host : String)
    (hp : List (String × List String)) : Option String :=
  (peers.filter (fun e =>
      decide (¬ e.1 = first_host) &&
        match alGet? hp e.1 with
        | Option.some b => decide (¬ b.length = 0)
        | Option.none => false)).foldl
    (fun best e =>
      match best with
      | Option.none => some e
      | Option.some b => if e.2 < b.2 then some e else some b) none
    |>.map (fun e => e.1)

/-- Replace the bucket stored for host `h`. -/
def setBucket (hp : List (String × List String)) (h : String)
    (b : List String) : List (String × List String) :=
  alModify hp h (fun _ => b)

/-- `link_table.get_mut(a)...get_mut(b) += 1`, with the source's `.expect`s
modelled as `none` (panic). -/
def ltBump? (lt : List (String × List (String × Nat))) (a b : String) :
    Option (List (String × List (String × Nat))) :=
  match alGet? lt a with
  | Option.none => none
  | Option.some row =>
    match alGet? row b with
    | Option.none => none
    | Option.some _ => some (alModify lt a (fun r => alModify r b (· + 1)))

/-- The `while new_proxy_pairs.len() * 2 < expected_num` loop of
`MetaStore::allocate_chunk`; `remaining` counts the pairs still to emit
(`⌈expected/2⌉` at the top call).  `none` = a source `.expect` panicked. -/
def allocLoop (hp : List (String × List String))
    (lt : List (String × List (String × Nat))) :
    Nat → Option (List (String × String))
  | 0 => some []
  | remaining + 1 =>
    match pickMaxHost hp with
    | Option.none => none
    | Option.some fe =>
      match (alGet? hp fe.1).getD [] |>.getLast? with
      | Option.none => none
      | Option.some fa =>
        let hp1 := setBucket hp fe.1 (((alGet? hp fe.1).getD []).dropLast)
        match alGet? lt fe.1 with
        | Option.none => none
        | Option.some peers =>
          match pickMinPeer peers fe.1 hp1 with
          | Option.none => none
          | Option.some sh =>
            match (alGet? hp1 sh).getD [] |>.getLast? with
            | Option.none => none
            | Option.some sa =>
              let hp2 := setBucket hp1 sh (((alGet? hp1 sh).getD []).dropLast)
              match ltBump? lt fe.1 sh with
              | Option.none => none
              | Option.some lt1 =>
                match ltBump? lt1 sh fe.1 with
                | Option.none => none
                | Option.some lt2 =>
                  (allocLoop hp2 lt2 remaining).map
                    (fun rest => (fa, sa) :: rest)

/-- `MetaStore::allocate_chunk`. -/
def allocate_chunk (hp : List (String × List String))
    (lt : List (String × List (String × Nat))) (expected_num : Nat) :
    Option (Except MetaStoreError (List (String × String))) :=
  if sumBucket hp < expected_num then
    some (Except.error MetaStoreError.NoAvailableResource)
  else if 2 * maxBucket hp > sumBucket hp then
    some (Except.error MetaStoreError.ResourceNotBalance)
  else
    match allocLoop hp lt ((expected_num + 1) / 2) with
    | Option.none => none
    | Option.some pairs => some (Except.ok pairs)

/-- The final lookup step of `consume_proxy`: each allocated address is
resolved through `all_proxies` (`.expect` panics modelled as `none`). -/
def resolvePairs (ap : List (String × ProxyResource)) :
    List (String × String) → Option (List (ProxyResource × ProxyResource))
  | [] => some []
  | p :: rest =>
    match alGet? ap p.1, alGet? ap p.2 with
    | Option.some r1, Option.some r2 =>
      (resolvePairs ap rest).map (fun t => (r1, r2) :: t)
    | _, _ => none

/-- `MetaStore::consume_proxy`. -/
def consume_proxy (s : MetaStore) (proxy_num : Nat) :
    Option (Except MetaStoreError (List (ProxyResource × ProxyResource))) :=
  let hp := buildHostProxies (get_free_proxies s)
  match remove_redundant_chunks hp proxy_num with
  | Except.error e => some (Except.error e)
  | Except.ok hp1 =>
    let lt := build_link_table s
    match allocate_chunk hp1 lt proxy_num with
    | Option.none => none
    | Option.some (Except.error e) => some (Except.error e)
    | Option.some (Except.ok pairs) =>
      match resolvePairs s.all_proxies pairs with
      | Option.none => none
      | Option.some resources => some (Except.ok resources)

end Broker

namespace Broker

/-! ### Cluster construction -/

/-- `MetaStore::proxy_resource_to_chunk_store`, unrolled: `i` is the chunk
index, `curr` the running slot cursor (`curr_slot`), `average`/`remainder`
are computed once at the top call.  The cursor only advances when the
closure `create_slots` is invoked, i.e. when `with_slots` is true. -/
def buildChunks (average remainder : Nat) (with_slots : Bool) :
    List (ProxyResource × ProxyResource) → Nat → Nat → List ChunkStore
  | [], _, _ => []
  | pr :: rest, i, curr =>
    let r_a : Nat := if 2 * i < remainder then 1 else 0
    let end_a := curr + average + r_a
    let r_b : Nat := if 2 * i + 1 < remainder then 1 else 0
    let end_b := end_a + average + r_b
    let stable : Option SlotRange × Option SlotRange :=
      if with_slots then
        (some { range_list := [⟨curr, end_a - 1⟩], tag := SlotRangeTag.none },
         some { range_list := [⟨end_a, end_b - 1⟩], tag := SlotRangeTag.none })
      else (none, none)
    { role_position := ChunkRolePosition.Normal
      stable_slots0 := stable.1
      stable_slots1 := stable.2
      migrating_slots0 := []
      migrating_slots1 := []
      proxy_addresses0 := pr.1.proxy_address
      proxy_addresses1 := pr.2.proxy_address
      node_addresses0 := pr.1.node_addresses.1
      node_addresses1 := pr.1.node_addresses.2
      node_addresses2 := pr.2.node_addresses.1
      node_addresses3 := pr.2.node_addresses.2 } ::
      buildChunks average remainder with_slots rest (i + 1)
        (if with_slots then end_b else curr)

/-- `MetaStore::proxy_resource_to_chunk_store`.  When the resource list is
empty the source divides by zero and panics; callers only pass non-empty
lists (`proxy_num ≥ 1`), and the model then uses `Nat` division. -/
def proxy_resource_to_chunk_store
    (proxy_resource_arr : List (ProxyResource × ProxyResource))
    (with_slots : Bool) : List ChunkStore :=
  let master_num := proxy_resource_arr.length * 2
  let average := SLOT_NUM / master_num
  let remainder := SLOT_NUM - average * master_num
  buildChunks average remainder with_slots proxy_resource_arr 0 0

/-- `MetaStore::add_cluster`. -/
def add_cluster (s : MetaStore) (db_name : String) (node_num : Nat) :
    Option (MetaStore × Option MetaStoreError) :=
  match dbNameFrom db_name with
  | Option.none => some (s, some MetaStoreError.InvalidClusterName)
  | Option.some name =>
    if s.cluster.isSome then some (s, some MetaStoreError.OnlySupportOneCluster)
    else if ¬ node_num % 4 = 0 then some (s, some MetaStoreError.InvalidNodeNum)
    else if node_num / 2 = 0 then some (s, some MetaStoreError.InvalidNodeNum)
    else
      match consume_proxy s (node_num / 2) with
      | Option.none => none
      | Option.some (Except.error e) => some (s, some e)
      | Option.some (Except.ok arr) =>
        let chunks := proxy_resource_to_chunk_store arr true
        some (bump_global_epoch
          { s with cluster := some { name := name, chunks := chunks } }, none)

/-- `MetaStore::auto_add_nodes` (the returned node projection is not modelled;
no claim consults it). -/
def auto_add_nodes (s : MetaStore) (db_name : String) (num? : Option Nat) :
    Option (MetaStore × Option MetaStoreError) :=
  match dbNameFrom db_name with
  | Option.none => some (s, some MetaStoreError.InvalidClusterName)
  | Option.some name =>
    match s.cluster with
    | Option.none => some (s, some MetaStoreError.ClusterNotFound)
    | Option.some c =>
      if ¬ c.name = name then some (s, some MetaStoreError.ClusterNotFound)
      else
        let num := match num? with
          | Option.none => c.chunks.length * 4
          | Option.some n => n
        if ¬ num % 4 = 0 then some (s, some MetaStoreError.InvalidNodeNum)
        else if num / 2 = 0 then some (s, some MetaStoreError.InvalidNodeNum)
        else
          match consume_proxy s (num / 2) with
          | Option.none => none
          | Option.some (Except.error e) => some (s, some e)
          | Option.some (Except.ok arr) =>
            let newChunks := proxy_resource_to_chunk_store arr false
            let c1 : ClusterStore := { c with chunks := c.chunks ++ newChunks }
            some (bump_global_epoch { s with cluster := some c1 }, none)

end Broker

namespace Broker

/-! ### Migration planner (`remove_slots_from_src` / `assign_dst_slots`) -/

/-- The loop-invariant parameters of `remove_slots_from_src`, computed once
at its top. -/
structure PlanParams where
  dst_master_num : Nat
  src_master_num : Nat
  src_chunk_num : Nat
  average : Nat
  remainder : Nat
  epoch : Nat
deriving DecidableEq, Repr

/-- The mutable state threaded through the `remove_slots_from_src` loops:
`curr_dst_master_index`, `curr_slots_num`, `curr_dst_slots` and the emitted
`migration_slots`. -/
structure PState where
  dstIdx : Nat
  accNum : Nat
  acc : List Range
  out : List MigrationSlots
deriving DecidableEq, Repr

/-- Final target of the source master with index `m` (`average + src_r`). -/
def srcFinal (p : PlanParams) (m : Nat) : Nat :=
  p.average + (if m < p.remainder then 1 else 0)

/-- Final target of the destination master at cursor `k`
(`average + dst_r`, with `dst_master_index = src_master_num + k`). -/
def dstFinal (p : PlanParams) (k : Nat) : Nat :=
  p.average + (if p.src_master_num + k < p.remainder then 1 else 0)

/-- Outcome of one pass through the body of the inner `while` loop of
`remove_slots_from_src`: either the loop exits (`done`) or continues
(`cont`) with the updated range list and state. -/
inductive StepRes where
  | done (L : List Range) (st : PState)
  | cont (L : List Range) (st : PState)
deriving DecidableEq, Repr

/-- The "reset current state" block at the bottom of the inner loop body:
when the destination is full or the source reached its final size, one
`MigrationSlots` is emitted from the accumulator (with the pre-advance
destination cursor in its meta), the cursor advances when the destination
is full, and the loop breaks when the source is done. -/
def flushCheck (p : PlanParams) (ci cj src_final dst_final : Nat)
    (L1 : List Range) (st1 : PState) : StepRes :=
  if dst_final ≤ st1.accNum ∨ slotsNum L1 ≤ src_final then
    let out1 := st1.out ++
      [{ ranges := st1.acc,
         meta := { epoch := p.epoch, src_chunk_index := ci,
                   src_chunk_part := cj,
                   dst_chunk_index := p.src_chunk_num + st1.dstIdx / 2,
                   dst_chunk_part := st1.dstIdx % 2 } }]
    let st2 : PState :=
      if dst_final ≤ st1.accNum then
        { dstIdx := st1.dstIdx + 1, accNum := 0, acc := [], out := out1 }
      else { st1 with acc := [], out := out1 }
    if slotsNum L1 ≤ src_final then StepRes.done L1 st2
    else StepRes.cont L1 st2
  else StepRes.cont L1 st1

/-- One iteration of the inner `while curr_dst_master_index != dst_master_num`
loop of `remove_slots_from_src`, for the source master at chunk index `ci`,
chunk part `cj`, currently holding range list `L`.

The two `.expect`s of the source are guarded: the loop body runs only when
`slotsNum L > src_final ≥ 0`, so the list has a last range.  In the
`remove_num = 0` sub-case of the shrink branch (reachable only when the
current destination target is already met, e.g. with `average = 0`) the
source pushes back the unchanged last range, accumulates the degenerate
range `⟨r.end_ + 1, r.end_⟩`, and the following flush emits it and advances
the destination cursor. -/
def innerStep (p : PlanParams) (ci cj : Nat) (L : List Range) (st : PState) :
    StepRes :=
  if st.dstIdx = p.dst_master_num then StepRes.done L st
  else
    let src_final := srcFinal p (ci * 2 + cj)
    let dst_final := dstFinal p st.dstIdx
    if slotsNum L ≤ src_final then StepRes.done L st
    else
      let need_num := dst_final - st.accNum
      let available_num := slotsNum L - src_final
      let remove_num := min need_num available_num
      match L.getLast? with
      | Option.none => StepRes.done L st
      | Option.some r =>
        let num := r.end_ + 1 - r.start
        if remove_num ≥ num then
          flushCheck p ci cj src_final dst_final L.dropLast
            { st with acc := st.acc ++ [r], accNum := st.accNum + num }
        else
          flushCheck p ci cj src_final dst_final
            (L.dropLast ++ [⟨r.start, r.end_ - remove_num⟩])
            { st with acc := st.acc ++ [⟨r.end_ - remove_num + 1, r.end_⟩],
                      accNum := st.accNum + remove_num }

/-- The inner `while` loop of `remove_slots_from_src`, driven by fuel.  Each
continuing iteration strictly decreases
`slotsNum L + L.length + (dst_master_num - dstIdx)` (a `remove_num = 0`
iteration leaves the range list untouched but advances the destination
cursor), so the fuel `slotsNum L + L.length + dst_master_num + 1` supplied
by `processSlot` never runs out (the lemmas below carry this bound). -/
def innerLoop (p : PlanParams) (ci cj : Nat) :
    Nat → List Range → PState → List Range × PState
  | 0, L, st => (L, st)
  | fuel + 1, L, st =>
    match innerStep p ci cj L st with
    | StepRes.done L1 st1 => (L1, st1)
    | StepRes.cont L1 st1 => innerLoop p ci cj fuel L1 st1

/-- Handling of one `stable_slots` entry of the outer
`for (src_chunk_part, slot_range)` loop: `None` entries are skipped, `Some`
range lists run the inner loop in place. -/
def processSlot (p : PlanParams) (ci cj : Nat) (oslot : Option SlotRange)
    (st : PState) : Option SlotRange × PState :=
  match oslot with
  | Option.none => (none, st)
  | Option.some sr =>
    let r := innerLoop p ci cj
      (slotsNum sr.range_list + sr.range_list.length + p.dst_master_num + 1)
      sr.range_list st
    (some { sr with range_list := r.1 }, r.2)

/-- The outer `for (src_chunk_index, src_chunk)` loop of
`remove_slots_from_src`, rebuilding the chunk list with the pulled-from
stable slots. -/
def processChunks (p : PlanParams) :
    List ChunkStore → Nat → PState → List ChunkStore × PState
  | [], _, st => ([], st)
  | ch :: rest, i, st =>
    let r0 := processSlot p i 0 ch.stable_slots0 st
    let r1 := processSlot p i 1 ch.stable_slots1 r0.2
    let rr := processChunks p rest (i + 1) r1.2
    ({ ch with stable_slots0 := r0.1, stable_slots1 := r1.1 } :: rr.1, rr.2)

/-- `MetaStore::remove_slots_from_src` (parameter computation; for an empty
chunk list the source divides by zero and panics — `migrate_slots` only
reaches this with the chunk list of an existing cluster). -/
def remove_slots_from_src (c : ClusterStore) (epoch : Nat) :
    ClusterStore × List MigrationSlots :=
  let dst_chunk_num := (c.chunks.filter (fun ch =>
    ch.stable_slots0.isNone && ch.stable_slots1.isNone)).length
  let master_num := c.chunks.length * 2
  let src_chunk_num := c.chunks.length - dst_chunk_num
  let average := SLOT_NUM / master_num
  let p : PlanParams :=
    { dst_master_num := dst_chunk_num * 2
      src_master_num := src_chunk_num * 2
      src_chunk_num := src_chunk_num
      average := average
      remainder := SLOT_NUM - average * master_num
      epoch := epoch }
  let r := processChunks p c.chunks 0
    { dstIdx := 0, accNum := 0, acc := [], out := [] }
  ({ c with chunks := r.1 }, r.2.out)

/-- Replace the chunk at position `i` (`get_mut(i).expect(..)`: out-of-range
would panic in the source; the planner only produces in-range indices and
the model leaves the list unchanged there). -/
def modifyChunk (chs : List ChunkStore) (i : Nat) (f : ChunkStore → ChunkStore) :
    List ChunkStore :=
  chs.modify f i

/-- Push a migration-slot-range store onto part `j` of a chunk (`j` is always
0 or 1 in the source). -/
def pushMigrating (ch : ChunkStore) (j : Nat) (e : MigrationSlotRangeStore) :
    ChunkStore :=
  if j = 0 then { ch with migrating_slots0 := ch.migrating_slots0 ++ [e] }
  else { ch with migrating_slots1 := ch.migrating_slots1 ++ [e] }

/-- One iteration of the `for migration_slot_range in migration_slots` loop
of `assign_dst_slots`: push the migrating copy onto the source part and the
importing copy onto the destination part. -/
def assignOne (c : ClusterStore) (ms : MigrationSlots) : ClusterStore :=
  let chunks1 := modifyChunk c.chunks ms.meta.src_chunk_index (fun ch =>
    pushMigrating ch ms.meta.src_chunk_part
      { range_list := ms.ranges, is_migrating := true, meta := ms.meta })
  let chunks2 := modifyChunk chunks1 ms.meta.dst_chunk_index (fun ch =>
    pushMigrating ch ms.meta.dst_chunk_part
      { range_list := ms.ranges, is_migrating := false, meta := ms.meta })
  { c with chunks := chunks2 }

/-- `MetaStore::assign_dst_slots`: record each planned migration twice, as a
migrating entry on the source part and an importing entry on the
destination part. -/
def assign_dst_slots (c : ClusterStore) (migration_slots : List MigrationSlots) :
    ClusterStore :=
  migration_slots.foldl assignOne c

/-- `MetaStore::migrate_slots`. -/
def migrate_slots (s : MetaStore) (db_name : String) :
    MetaStore × Option MetaStoreError :=
  match dbNameFrom db_name with
  | Option.none => (s, some MetaStoreError.InvalidClusterName)
  | Option.some name =>
    let new_epoch := s.global_epoch + 1
    match s.cluster with
    | Option.none => (s, some MetaStoreError.ClusterNotFound)
    | Option.some c =>
      if ¬ name = c.name then (s, some MetaStoreError.ClusterNotFound)
      else
        let running := c.chunks.any (fun ch =>
          ¬ (ch.migrating_slots0.isEmpty || ch.migrating_slots1.isEmpty))
        if running then (s, some MetaStoreError.MigrationRunning)
        else
          let r := remove_slots_from_src c new_epoch
          let c2 := assign_dst_slots r.1 r.2
          (bump_global_epoch { s with cluster := some c2 }, none)

end Broker

namespace Broker

/-! ### Migration commit -/

/-- The flattened search of `commit_migration`: first `(chunk index, part)`
holding an entry with the given range list, planned epoch, and direction
flag (chunk order, part 0 before part 1, entry list order).  `migrationHit`
is the per-entry-list match. -/
def migrationHit (rl : List Range) (epoch : Nat) (migFlag : Bool)
    (l : List MigrationSlotRangeStore) : Bool :=
  l.any (fun e =>
    decide (e.range_list = rl) && decide (e.meta.epoch = epoch) &&
      (e.is_migrating == migFlag))

/-- Search loop of `findMigrationPos`, carrying the running chunk index. -/
def findMigrationPosGo (rl : List Range) (epoch : Nat) (migFlag : Bool) :
    List ChunkStore → Nat → Option (Nat × Nat)
  | [], _ => none
  | ch :: rest, i =>
    if migrationHit rl epoch migFlag ch.migrating_slots0 then some (i, 0)
    else if migrationHit rl epoch migFlag ch.migrating_slots1 then some (i, 1)
    else findMigrationPosGo rl epoch migFlag rest (i + 1)

def findMigrationPos (chunks : List ChunkStore) (rl : List Range)
    (epoch : Nat) (migFlag : Bool) : Option (Nat × Nat) :=
  findMigrationPosGo rl epoch migFlag chunks 0

/-- Predicate of the `retain` pass of `commit_migration` (entries satisfying
it are removed). -/
def commitRemovePred (rl : List Range) (meta : MigrationMetaStore)
    (e : MigrationSlotRangeStore) : Bool :=
  e.is_migrating && decide (e.range_list = rl) && decide (e.meta = meta)

/-- Position of the first non-migrating entry matching the canonical meta
and range list, searched in part 0 then part 1 (`find_map` over the two
entry lists); removing it yields the folded range list. -/
def takeImporting (ch : ChunkStore) (rl : List Range)
    (meta : MigrationMetaStore) : Option (ChunkStore × Nat × List Range) :=
  let pred : MigrationSlotRangeStore → Bool := fun e =>
    (!e.is_migrating) && decide (e.meta = meta) && decide (e.range_list = rl)
  match ch.migrating_slots0.findIdx? pred with
  | Option.some idx =>
    match ch.migrating_slots0[idx]? with
    | Option.some e =>
      some ({ ch with migrating_slots0 := ch.migrating_slots0.eraseIdx idx },
        0, e.range_list)
    | Option.none => none
  | Option.none =>
    match ch.migrating_slots1.findIdx? pred with
    | Option.some idx =>
      match ch.migrating_slots1[idx]? with
      | Option.some e =>
        some ({ ch with migrating_slots1 := ch.migrating_slots1.eraseIdx idx },
          1, e.range_list)
      | Option.none => none
    | Option.none => none

/-- Fold the removed importing range list into `stable_slots[j]`: merge into
the existing stable range list, or install a fresh untagged slot range. -/
def foldIntoStable (ch : ChunkStore) (j : Nat) (ranges : List Range) :
    ChunkStore :=
  if j = 0 then
    match ch.stable_slots0 with
    | Option.some st =>
      let st1 : SlotRange := { st with range_list := mergeRangeLists st.range_list ranges }
      { ch with stable_slots0 := some st1 }
    | Option.none =>
      let st1 : SlotRange := { range_list := ranges, tag := SlotRangeTag.none }
      { ch with stable_slots0 := some st1 }
  else
    match ch.stable_slots1 with
    | Option.some st =>
      let st1 : SlotRange := { st with range_list := mergeRangeLists st.range_list ranges }
      { ch with stable_slots1 := some st1 }
    | Option.none =>
      let st1 : SlotRange := { range_list := ranges, tag := SlotRangeTag.none }
      { ch with stable_slots1 := some st1 }

/-- The second `for chunk in &mut cluster.chunks` loop of `commit_migration`:
the first chunk containing a matching non-migrating entry has it removed and
folded into its stable slots, then the loop breaks. -/
def commitFold (rl : List Range) (meta : MigrationMetaStore) :
    List ChunkStore → List ChunkStore
  | [] => []
  | ch :: rest =>
    match takeImporting ch rl meta with
    | Option.some r => foldIntoStable r.1 r.2.1 r.2.2 :: rest
    | Option.none => ch :: commitFold rl meta rest

/-- `MetaStore::commit_migration`. -/
def commit_migration (s : MetaStore) (task : MigrationTaskMeta) :
    MetaStore × Option MetaStoreError :=
  match s.cluster with
  | Option.none => (s, some MetaStoreError.ClusterNotFound)
  | Option.some c =>
    match task.slot_range.tag with
    | SlotRangeTag.none => (s, some MetaStoreError.InvalidMigrationTask)
    | tag =>
      let task_epoch := match tag with
        | SlotRangeTag.migrating meta => meta.epoch
        | SlotRangeTag.importing meta => meta.epoch
        | SlotRangeTag.none => 0
      let rl := task.slot_range.range_list
      match findMigrationPos c.chunks rl task_epoch true with
      | Option.none => (s, some MetaStoreError.MigrationTaskNotFound)
      | Option.some src =>
        match findMigrationPos c.chunks rl task_epoch false with
        | Option.none => (s, some MetaStoreError.MigrationTaskNotFound)
        | Option.some dst =>
          let meta : MigrationMetaStore :=
            { epoch := task_epoch, src_chunk_index := src.1
              src_chunk_part := src.2, dst_chunk_index := dst.1
              dst_chunk_part := dst.2 }
          let chunks1 := c.chunks.map (fun ch =>
            { ch with
              migrating_slots0 :=
                ch.migrating_slots0.filter (fun e => ¬ commitRemovePred rl meta e)
              migrating_slots1 :=
                ch.migrating_slots1.filter (fun e => ¬ commitRemovePred rl meta e) })
          let chunks2 := commitFold rl meta chunks1
          (bump_global_epoch { s with cluster := some { c with chunks := chunks2 } },
            none)

/-! ### Failure takeover and replacement -/

/-- The `for chunk in cluster.chunks.iter_mut()` loop of `takeover_master`:
flip the role position of the first chunk referencing the failed proxy. -/
def flipRole (addr : String) : List ChunkStore → List ChunkStore
  | [] => []
  | ch :: rest =>
    if ch.proxy_addresses0 = addr then
      { ch with role_position := ChunkRolePosition.SecondChunkMaster } :: rest
    else if ch.proxy_addresses1 = addr then
      { ch with role_position := ChunkRolePosition.FirstChunkMaster } :: rest
    else ch :: flipRole addr rest

/-- `MetaStore::takeover_master`.  Note the source bumps the epoch before
checking that a cluster exists. -/
def takeover_master (s : MetaStore) (failed_proxy_address : String) :
    MetaStore × Option MetaStoreError :=
  let s1 := bump_global_epoch s
  match s1.cluster with
  | Option.none => (s1, some MetaStoreError.ClusterNotFound)
  | Option.some c =>
    let c1 : ClusterStore := { c with chunks := flipRole failed_proxy_address c.chunks }
    ({ s1 with cluster := some c1 }, none)

/-- `MetaStore::consume_new_proxy` (reads only; `.expect` panics are `none`;
`failed_proxy_address.split(':').next()` always yields a piece, so the
source's `InvalidProxyAddress` branch is unreachable and not modelled). -/
def consume_new_proxy (s : MetaStore) (failed_proxy_address : String) :
    Option (Except MetaStoreError ProxyResource) :=
  let free := get_free_proxies s
  let free_hosts := free.map hostOf
  let lt := build_link_table s
  let failed_proxy_host := hostOf failed_proxy_address
  match alGet? lt failed_proxy_host with
  | Option.none => none
  | Option.some link_count_table =>
    let peer := (link_count_table.filter
        (fun e => free_hosts.contains e.1)).foldl
      (fun best e =>
        match best with
        | Option.none => some e
        | Option.some b => if e.2 < b.2 then some e else some b) none
    match peer with
    | Option.none => some (Except.error MetaStoreError.NoAvailableResource)
    | Option.some ph =>
      match free.find? (fun a => decide (ph.1 = hostOf a)) with
      | Option.none => none
      | Option.some peer_proxy =>
        match alGet? s.all_proxies peer_proxy with
        | Option.none => none
        | Option.some res => some (Except.ok res)

/-- The chunk-patching loop of `replace_failed_proxy`: the first chunk
referencing the failed proxy gets the replacement's proxy address and the
corresponding two node addresses. -/
def replaceChunkProxy (addr : String) (res : ProxyResource) :
    List ChunkStore → List ChunkStore
  | [] => []
  | ch :: rest =>
    if ch.proxy_addresses0 = addr then
      { ch with proxy_addresses0 := res.proxy_address
                node_addresses0 := res.node_addresses.1
                node_addresses1 := res.node_addresses.2 } :: rest
    else if ch.proxy_addresses1 = addr then
      { ch with proxy_addresses1 := res.proxy_address
                node_addresses2 := res.node_addresses.1
                node_addresses3 := res.node_addresses.2 } :: rest
    else ch :: replaceChunkProxy addr res rest

/-- `MetaStore::replace_failed_proxy` (the returned `Proxy` projection is not
modelled; the final `get_proxy_by_address(..).expect(..)` can only panic if
the replacement's address is unknown, modelled as `none`). -/
def replace_failed_proxy (s : MetaStore) (failed_proxy_address : String) :
    Option (MetaStore × Option MetaStoreError) :=
  if ¬ alContains s.all_proxies failed_proxy_address then
    some (s, some MetaStoreError.HostNotFound)
  else
    let not_in_use : Bool := match s.cluster with
      | Option.some c =>
        ¬ (clusterProxyAddresses c).contains failed_proxy_address
      | Option.none => true
    if not_in_use then
      some ({ s with
        failed_proxies := setIns s.failed_proxies failed_proxy_address },
        some MetaStoreError.NotInUse)
    else
      let tk := takeover_master s failed_proxy_address
      match tk.2 with
      | Option.some e => some (tk.1, some e)
      | Option.none =>
        let s1 := tk.1
        match consume_new_proxy s1 failed_proxy_address with
        | Option.none => none
        | Option.some (Except.error e) => some (s1, some e)
        | Option.some (Except.ok res) =>
          match s1.cluster with
          | Option.none => none
          | Option.some c =>
            let c1 : ClusterStore := { c with
              chunks := replaceChunkProxy failed_proxy_address res c.chunks }
            let s2 := bump_global_epoch { s1 with
              cluster := some c1
              failed_proxies := setIns s1.failed_proxies failed_proxy_address }
            if alContains s2.all_proxies res.proxy_address then some (s2, none)
            else none

end Broker

namespace Broker

/-! ### Claim C10 -/

/-- C10: `commit_migration` identifies the migration solely by the task's
range list and the epoch inside its `Migrating`/`Importing` tag; the
addresses inside the tag's meta and the task's `db_name` are ignored, so two
tasks agreeing on range list and epoch — one tagged `Migrating`, one tagged
`Importing`, with arbitrary addresses and database names — produce identical
results (same resulting store on success, same error on failure) from any
store. -/
theorem C10_commit_ignores_addresses :
    ∀ (s : MetaStore) (db1 db2 : String) (rl : List Range) (e : Nat)
      (a1 b1 c1 d1 a2 b2 c2 d2 : String),
      commit_migration s ⟨db1, ⟨rl, SlotRangeTag.migrating ⟨e, a1, b1, c1, d1⟩⟩⟩ =
        commit_migration s ⟨db2, ⟨rl, SlotRangeTag.importing ⟨e, a2, b2, c2, d2⟩⟩⟩ := by
  intro s db1 db2 rl e a1 b1 c1 d1 a2 b2 c2 d2
  rfl

/-! ### Claim C9 -/

/-- The effect on the `failures` map described by the claim: drop every
report whose age is not strictly below the TTL, then drop every proxy entry
whose reporter submap became empty. -/
def purgeFailures (f : List (String × List (String × Int))) (now ttl : Int) :
    List (String × List (String × Int)) :=
  (f.map (fun e => (e.1, e.2.filter (fun r => now - r.2 < ttl)))).filter
    (fun e => ¬ e.2.isEmpty)

/-- C9: `get_failures(ttl, quorum)` removes from the failures map every
report whose age is not strictly less than `ttl` and then removes every
proxy entry whose reporter submap became empty, but leaves `global_epoch`,
the cluster, `all_proxies` and `failed_proxies` unchanged: a store-mutating
read that never bumps the epoch. -/
theorem C9_get_failures_frame :
    ∀ (s : MetaStore) (now ttl : Int) (quorum : Nat),
      (get_failures s now ttl quorum).2.global_epoch = s.global_epoch ∧
      (get_failures s now ttl quorum).2.cluster = s.cluster ∧
      (get_failures s now ttl quorum).2.all_proxies = s.all_proxies ∧
      (get_failures s now ttl quorum).2.failed_proxies = s.failed_proxies ∧
      (get_failures s now ttl quorum).2.failures = purgeFailures s.failures now ttl := by
  intro s now ttl quorum
  exact ⟨rfl, rfl, rfl, rfl, rfl⟩

/-! ### Claim C3 -/

/-- The pool of the claimed scenario: three proxies on host `a`, one on host
`b`, no cluster, no failures. -/
def c3Store : MetaStore :=
  (add_proxy ((add_proxy ((add_proxy ((add_proxy MetaStore.default
    "a:1" ("a:4", "a:5")).1) "a:2" ("a:6", "a:7")).1) "a:3" ("a:8", "a:9")).1)
    "b:1" ("b:2", "b:3")).1

/-- C3 counterexample: with exactly 3 free proxies on host `a` and 1 on host
`b`, `add_cluster("x", 4)` does **not** return `ResourceNotBalance` — it
succeeds.  `remove_redundant_chunks` first pops host `a` down to one proxy
(6 > 4, then 4 > 3), leaving a balanced two-proxy pool, so the balance check
of `allocate_chunk` (which runs only after pruning) passes.  The outcome is
independent of hash-map iteration order: host `a` is the unique largest
bucket, so pruning always reduces it to one proxy, and pairing then has one
proxy per host left. -/
theorem C3_counterexample :
    (add_cluster c3Store "x" 4).map (fun r => r.2) = some none ∧
    ¬ (add_cluster c3Store "x" 4).map (fun r => r.2) =
        some (some MetaStoreError.ResourceNotBalance) := by
  exact ⟨rfl, by decide⟩

/-- C3 (amended): if the free proxy pool consists of exactly 3 proxies on
host A and 1 proxy on host B (no cluster, no failures), then
`add_cluster("x", 4)` succeeds: pruning reduces host A's bucket to one
proxy and a single chunk pairing hosts A and B is allocated. -/
theorem C3_amended :
    (add_cluster c3Store "x" 4).map (fun r => (r.2,
      r.1.cluster.map (fun c => c.chunks.map (fun ch =>
        (hostOf ch.proxy_addresses0, hostOf ch.proxy_addresses1))))) =
    some (none, some [("b", "a")]) := by
  rfl

end Broker

namespace Broker

/-! ### Claim C2 -/

/-- On a store whose cluster exists, `takeover_master` bumps the epoch and
flips the role position of the first chunk referencing the failed proxy,
and always succeeds. -/
theorem takeover_master_some {s : MetaStore} {c : ClusterStore} (a : String)
    (hc : s.cluster = some c) :
    takeover_master s a =
      ({ bump_global_epoch s with
          cluster := some { c with chunks := flipRole a c.chunks } }, none) := by
  simp only [takeover_master, bump_global_epoch]
  rw [show ({ s with global_epoch := s.global_epoch + 1 } : MetaStore).cluster
      = s.cluster from rfl, hc]

/-- The only error `consume_new_proxy` can return is
`NoAvailableResource`. -/
theorem consume_new_proxy_error {s : MetaStore} {a : String} {x : MetaStoreError}
    (h : consume_new_proxy s a = some (Except.error x)) :
    x = MetaStoreError.NoAvailableResource := by
  simp only [consume_new_proxy] at h
  split at h
  · cases h
  · split at h
    · simp at h; exact h.symm
    · split at h
      · cases h
      · split at h
        · cases h
        · simp at h

/-- A two-proxy store whose only proxies already form the single chunk of
cluster `d`, so that no free replacement exists. -/
def c2Pre : MetaStore :=
  match add_cluster ((add_proxy ((add_proxy MetaStore.default
      "a:1" ("a:2", "a:3")).1) "b:1" ("b:2", "b:3")).1) "d" 4 with
  | Option.some r => r.1
  | Option.none => MetaStore.default

/-- C2 counterexample: `replace_failed_proxy` can fail with
`NoAvailableResource` *after* the takeover step has already bumped
`global_epoch` (3 → 4) and flipped the affected chunk's `role_position`
(`Normal` → `FirstChunkMaster`); nothing is rolled back, contradicting the
claim that on this error the epoch and the chunk's role position are
unchanged. -/
theorem C2_counterexample :
    (replace_failed_proxy c2Pre "a:1").map (fun r => (r.2, r.1.global_epoch,
      r.1.cluster.map (fun c => c.chunks.map (fun ch => ch.role_position)))) =
    some (some MetaStoreError.NoAvailableResource, 4,
      some [ChunkRolePosition.FirstChunkMaster]) ∧
    c2Pre.global_epoch = 3 ∧
    c2Pre.cluster.map (fun c => c.chunks.map (fun ch => ch.role_position)) =
      some [ChunkRolePosition.Normal] := by
  exact ⟨rfl, rfl, rfl⟩

/-- C2 (amended): every MetaStore mutator that returns an error leaves the
store unchanged and does not bump `global_epoch`, with two exceptions in
`replace_failed_proxy`: returning `NotInUse` inserts the failed address
into `failed_proxies`, and returning `NoAvailableResource` (no free
replacement proxy found) leaves the takeover step in place — the store is
exactly the result of `takeover_master` (epoch bumped once and the affected
chunk's role position flipped); `HostNotFound` leaves the store unchanged,
and these three are the only errors `replace_failed_proxy` returns. -/
theorem C2_error_frame :
    (∀ s a n r e, add_proxy s a n = (r, some e) → r = s) ∧
    (∀ s a r e, remove_proxy s a = (r, some e) → r = s) ∧
    (∀ s nm r e, remove_cluster s nm = (r, some e) → r = s) ∧
    (∀ s nm k r e, add_cluster s nm k = some (r, some e) → r = s) ∧
    (∀ s nm k r e, auto_add_nodes s nm k = some (r, some e) → r = s) ∧
    (∀ s nm r e, migrate_slots s nm = (r, some e) → r = s) ∧
    (∀ s t r e, commit_migration s t = (r, some e) → r = s) ∧
    (∀ s a r e, replace_failed_proxy s a = some (r, some e) →
      (e = MetaStoreError.HostNotFound → r = s) ∧
      (e = MetaStoreError.NotInUse →
        r = { s with failed_proxies := setIns s.failed_proxies a }) ∧
      (e = MetaStoreError.NoAvailableResource → r = (takeover_master s a).1) ∧
      (e = MetaStoreError.HostNotFound ∨ e = MetaStoreError.NotInUse ∨
        e = MetaStoreError.NoAvailableResource)) := by
  refine ⟨?_, ?_, ?_, ?_, ?_, ?_, ?_, ?_⟩
  · intro s a n r e h
    simp only [add_proxy] at h
    split at h
    · exact (Prod.mk.injEq .. ▸ h).1.symm
    · simp at h
  · intro s a r e h
    simp only [remove_proxy] at h
    split at h
    · exact (Prod.mk.injEq .. ▸ h).1.symm
    · simp at h
  · intro s nm r e h
    simp only [remove_cluster, dbNameFrom] at h
    split at h
    · simp at h
      exact h.1.symm
    · split at h <;> simp at h
      exact h.1.symm
  · intro s nm k r e h
    simp only [add_cluster, dbNameFrom] at h
    split at h
    · simp at h; exact h.1.symm
    · split at h
      · simp at h; exact h.1.symm
      · split at h
        · simp at h; exact h.1.symm
        · split at h
          · simp at h
          · simp at h; exact h.1.symm
          · simp at h
  · intro s nm k r e h
    simp only [auto_add_nodes, dbNameFrom] at h
    split at h
    · simp at h; exact h.1.symm
    · split at h
      · simp at h; exact h.1.symm
      · split at h
        · simp at h; exact h.1.symm
        · split at h
          · simp at h; exact h.1.symm
          · split at h
            · simp at h
            · simp at h; exact h.1.symm
            · simp at h
  · intro s nm r e h
    simp only [migrate_slots, dbNameFrom] at h
    split at h
    · simp at h; exact h.1.symm
    · split at h
      · simp at h; exact h.1.symm
      · split at h
        · simp at h; exact h.1.symm
        · simp at h
  · intro s t r e h
    simp only [commit_migration] at h
    split at h
    · simp at h; exact h.1.symm
    · split at h
      · simp at h; exact h.1.symm
      · split at h
        · simp at h; exact h.1.symm
        · split at h
          · simp at h; exact h.1.symm
          · simp at h
  · intro s a r e h
    simp only [replace_failed_proxy] at h
    split at h
    · simp at h
      refine ⟨fun _ => h.1.symm, fun he => ?_, fun he => ?_, Or.inl h.2.symm⟩ <;>
        (rw [← h.2] at he; cases he)
    · rename_i h1
      split at h
      · simp at h
        refine ⟨fun he => ?_, fun _ => h.1.symm, fun he => ?_,
          Or.inr (Or.inl h.2.symm)⟩ <;> (rw [← h.2] at he; cases he)
      · rename_i h2
        obtain ⟨c, hc⟩ : ∃ c, s.cluster = some c := by
          rcases hcs : s.cluster with _ | c
          · rw [hcs] at h2; simp at h2
          · exact ⟨c, rfl⟩
        have h2n : (takeover_master s a).2 = none := by
          rw [takeover_master_some a hc]
        rw [h2n] at h
        simp only at h
        split at h
        · cases h
        · rename_i cr hcr
          have hx := consume_new_proxy_error hcr
          subst hx
          simp at h
          refine ⟨fun he => ?_, fun he => ?_, fun _ => h.1.symm,
            Or.inr (Or.inr h.2.symm)⟩ <;> (rw [← h.2] at he; cases he)
        · split at h
          · cases h
          · split at h
            · simp at h
            · cases h

/-- Witness for C2: the amended theorem applied at a concrete failing call
(`migrate_slots` on the empty store returns `ClusterNotFound` and leaves
the store untouched). -/
theorem C2_error_frame_witness :
    migrate_slots MetaStore.default "x" =
      (MetaStore.default, some MetaStoreError.ClusterNotFound) ∧
    (migrate_slots MetaStore.default "x").1 = MetaStore.default := by
  refine ⟨rfl, ?_⟩
  exact C2_error_frame.2.2.2.2.2.1 MetaStore.default "x"
    (migrate_slots MetaStore.default "x").1 MetaStoreError.ClusterNotFound rfl

end Broker

namespace Broker

/-! ### Claim C8 -/

/-- C8: `global_epoch` strictly increases across every successful mutator
(`add_proxy`, `remove_proxy`, `add_cluster`, `remove_cluster`,
`auto_add_nodes`, `migrate_slots`, `commit_migration`, `add_failure`,
`replace_failed_proxy`), no operation (including the mutating read
`get_failures` and every failing call) ever decreases it, and
`remove_proxy` of an unknown address (in particular one not referenced by
the cluster) succeeds and still bumps the epoch. -/
theorem C8_epoch_monotone :
    (∀ s a n, s.global_epoch ≤ (add_proxy s a n).1.global_epoch ∧
      ((add_proxy s a n).2 = none →
        s.global_epoch < (add_proxy s a n).1.global_epoch)) ∧
    (∀ s a, s.global_epoch ≤ (remove_proxy s a).1.global_epoch ∧
      ((remove_proxy s a).2 = none →
        s.global_epoch < (remove_proxy s a).1.global_epoch)) ∧
    (∀ s nm, s.global_epoch ≤ (remove_cluster s nm).1.global_epoch ∧
      ((remove_cluster s nm).2 = none →
        s.global_epoch < (remove_cluster s nm).1.global_epoch)) ∧
    (∀ s nm k r, add_cluster s nm k = some r →
      s.global_epoch ≤ r.1.global_epoch ∧
      (r.2 = none → s.global_epoch < r.1.global_epoch)) ∧
    (∀ s nm k r, auto_add_nodes s nm k = some r →
      s.global_epoch ≤ r.1.global_epoch ∧
      (r.2 = none → s.global_epoch < r.1.global_epoch)) ∧
    (∀ s nm, s.global_epoch ≤ (migrate_slots s nm).1.global_epoch ∧
      ((migrate_slots s nm).2 = none →
        s.global_epoch < (migrate_slots s nm).1.global_epoch)) ∧
    (∀ s t, s.global_epoch ≤ (commit_migration s t).1.global_epoch ∧
      ((commit_migration s t).2 = none →
        s.global_epoch < (commit_migration s t).1.global_epoch)) ∧
    (∀ s now a rid, s.global_epoch < (add_failure s now a rid).global_epoch) ∧
    (∀ s a r, replace_failed_proxy s a = some r →
      s.global_epoch ≤ r.1.global_epoch ∧
      (r.2 = none → s.global_epoch < r.1.global_epoch)) ∧
    (∀ s now ttl q, (get_failures s now ttl q).2.global_epoch = s.global_epoch) ∧
    (∀ s a, alContains s.all_proxies a = false →
      (∀ c, s.cluster = some c → (clusterProxyAddresses c).contains a = false) →
      (remove_proxy s a).2 = none ∧
      (remove_proxy s a).1.global_epoch = s.global_epoch + 1) := by
  refine ⟨?_, ?_, ?_, ?_, ?_, ?_, ?_, ?_, ?_, ?_, ?_⟩
  · intro s a n
    simp only [add_proxy]
    split <;> simp [bump_global_epoch]
  · intro s a
    simp only [remove_proxy]
    split <;> simp [bump_global_epoch]
  · intro s nm
    simp only [remove_cluster, dbNameFrom]
    split
    · simp
    · split <;> simp [bump_global_epoch]
  · intro s nm k r h
    simp only [add_cluster, dbNameFrom] at h
    split at h
    · injection h with h'; subst h'; simp
    · split at h
      · injection h with h'; subst h'; simp
      · split at h
        · injection h with h'; subst h'; simp
        · split at h
          · cases h
          · injection h with h'; subst h'; simp
          · injection h with h'; subst h'; simp [bump_global_epoch]
  · intro s nm k r h
    simp only [auto_add_nodes, dbNameFrom] at h
    split at h
    · injection h with h'; subst h'; simp
    · split at h
      · injection h with h'; subst h'; simp
      · split at h
        · injection h with h'; subst h'; simp
        · split at h
          · injection h with h'; subst h'; simp
          · split at h
            · cases h
            · injection h with h'; subst h'; simp
            · injection h with h'; subst h'; simp [bump_global_epoch]
  · intro s nm
    simp only [migrate_slots, dbNameFrom]
    split
    · simp
    · split
      · simp
      · split <;> simp [bump_global_epoch]
  · intro s t
    simp only [commit_migration]
    split
    · simp
    · split
      · simp
      · split
        · simp
        · split <;> simp [bump_global_epoch]
  · intro s now a rid
    simp only [add_failure, bump_global_epoch]
    omega
  · intro s a r h
    simp only [replace_failed_proxy] at h
    split at h
    · injection h with h'; subst h'; simp
    · rename_i h1
      split at h
      · injection h with h'; subst h'; simp
      · rename_i h2
        obtain ⟨c, hc⟩ : ∃ c, s.cluster = some c := by
          rcases hcs : s.cluster with _ | c
          · rw [hcs] at h2; simp at h2
          · exact ⟨c, rfl⟩
        have h2n : (takeover_master s a).2 = none := by
          rw [takeover_master_some a hc]
        have h1e : (takeover_master s a).1.global_epoch = s.global_epoch + 1 := by
          rw [takeover_master_some a hc]
          simp [bump_global_epoch]
        rw [h2n] at h
        simp only at h
        split at h
        · cases h
        · injection h with h'; subst h'
          simp [h1e]
        · split at h
          · cases h
          · split at h
            · injection h with h'; subst h'
              constructor
              · simp [bump_global_epoch, h1e]
                omega
              · intro
                simp [bump_global_epoch, h1e]
                omega
            · cases h
  · intro s now ttl q
    rfl
  · intro s a hu hcref
    simp only [remove_proxy]
    have : (match s.cluster with
        | Option.some c => (clusterProxyAddresses c).contains a
        | Option.none => false) = false := by
      rcases hcs : s.cluster with _ | c
      · rfl
      · exact hcref c hcs
    rw [this]
    simp [bump_global_epoch]

/-- Witness for C8: the unknown-address conjunct applied to the empty store
(epoch 0 → 1, success). -/
theorem C8_epoch_monotone_witness :
    (remove_proxy MetaStore.default "x:1").2 = none ∧
    (remove_proxy MetaStore.default "x:1").1.global_epoch =
      MetaStore.default.global_epoch + 1 :=
  C8_epoch_monotone.2.2.2.2.2.2.2.2.2.2 MetaStore.default "x:1" (by rfl)
    (by intro c hc; cases hc)

end Broker

namespace Broker

/-! ### Counting lemmas for the planner -/

def StepRes.list : StepRes → List Range
  | StepRes.done L _ => L
  | StepRes.cont L _ => L

def StepRes.state : StepRes → PState
  | StepRes.done _ st => st
  | StepRes.cont _ st => st

/-- Total per-slot count of the ranges of a planner output list. -/
def outCount (out : List MigrationSlots) (t : Nat) : Nat :=
  (out.map (fun ms => listCount ms.ranges t)).sum

theorem listCount_append (a b : List Range) (t : Nat) :
    listCount (a ++ b) t = listCount a t + listCount b t := by
  simp [listCount]

theorem outCount_append (a b : List MigrationSlots) (t : Nat) :
    outCount (a ++ b) t = outCount a t + outCount b t := by
  simp [outCount]

theorem slotsNum_append (a b : List Range) :
    slotsNum (a ++ b) = slotsNum a + slotsNum b := by
  simp [slotsNum]

theorem getLast?_decomp {L : List Range} {r : Range}
    (h : L.getLast? = some r) : L = L.dropLast ++ [r] := by
  have hne : L ≠ [] := by intro he; subst he; cases h
  have := List.dropLast_append_getLast hne
  rw [List.getLast?_eq_getLast L hne] at h
  injection h with h'
  rw [h'] at this
  exact this.symm

theorem slotsNum_dropLast {L : List Range} {r : Range}
    (h : L.getLast? = some r) :
    slotsNum L = slotsNum L.dropLast + (r.end_ + 1 - r.start) := by
  conv_lhs => rw [getLast?_decomp h]
  rw [slotsNum_append]
  simp [slotsNum, Range.slots]

theorem listCount_dropLast {L : List Range} {r : Range}
    (h : L.getLast? = some r) (t : Nat) :
    listCount L t = listCount L.dropLast t + rangeCount r t := by
  conv_lhs => rw [getLast?_decomp h]
  rw [listCount_append]
  simp [listCount]

/-- Splitting an inclusive range at `end_ - rm`: the two pieces cover each
slot exactly as often as the original when `rm < end_ + 1 - start` (for
`rm = 0` the second piece is the degenerate `⟨end_ + 1, end_⟩`, covering
nothing). -/
theorem rangeCount_split (r : Range) (rm : Nat)
    (h2 : rm < r.end_ + 1 - r.start) (t : Nat) :
    rangeCount r t =
      rangeCount ⟨r.start, r.end_ - rm⟩ t +
        rangeCount ⟨r.end_ - rm + 1, r.end_⟩ t := by
  simp only [rangeCount]
  split_ifs <;> simp_all <;> omega

theorem slots_split (r : Range) (rm : Nat)
    (h2 : rm < r.end_ + 1 - r.start) :
    (r.end_ - rm) + 1 - r.start = (r.end_ + 1 - r.start) - rm := by
  omega

end Broker


namespace Broker

/-! ### Planner loop lemmas -/

theorem flushCheck_list (p : PlanParams) (ci cj sf df : Nat) (L1 : List Range)
    (st1 : PState) : (flushCheck p ci cj sf df L1 st1).list = L1 := by
  simp only [flushCheck]
  split
  · split <;> rfl
  · rfl

theorem flushCheck_conserve (p : PlanParams) (ci cj sf df : Nat)
    (L1 : List Range) (st1 : PState) (t : Nat) :
    listCount (flushCheck p ci cj sf df L1 st1).state.acc t +
      outCount (flushCheck p ci cj sf df L1 st1).state.out t =
    listCount st1.acc t + outCount st1.out t := by
  simp only [flushCheck]
  split
  · split <;> (split <;> simp [StepRes.state, outCount_append, outCount, listCount] <;> omega)
  · rfl

theorem flushCheck_out (p : PlanParams) (ci cj sf df : Nat) (L1 : List Range)
    (st1 : PState) :
    ∀ m ∈ (flushCheck p ci cj sf df L1 st1).state.out,
      m ∈ st1.out ∨
        (m.meta.epoch = p.epoch ∧
          m.meta.dst_chunk_index = p.src_chunk_num + st1.dstIdx / 2) := by
  simp only [flushCheck]
  split
  · split <;>
      (split <;>
        (intro m hm
         simp only [StepRes.state] at hm
         rcases List.mem_append.mp hm with hm | hm
         · exact Or.inl hm
         · simp only [List.mem_singleton] at hm
           subst hm
           exact Or.inr ⟨rfl, rfl⟩))
  · intro m hm
    exact Or.inl hm

theorem flushCheck_dstIdx (p : PlanParams) (ci cj sf df : Nat) (L1 : List Range)
    (st1 : PState) :
    st1.dstIdx ≤ (flushCheck p ci cj sf df L1 st1).state.dstIdx ∧
      (flushCheck p ci cj sf df L1 st1).state.dstIdx ≤ st1.dstIdx + 1 := by
  simp only [flushCheck]
  split
  · split <;> (split <;> simp [StepRes.state])
  · simp [StepRes.state]

/-- The source accumulator discipline: between iterations the accumulator is
either empty or strictly below the current destination target with the loop
still running on this source. -/
def accOk (p : PlanParams) (ci cj : Nat) (L : List Range) (st : PState) : Prop :=
  st.acc = [] ∨
    (st.accNum < dstFinal p st.dstIdx ∧ st.dstIdx ≠ p.dst_master_num ∧
      srcFinal p (ci * 2 + cj) < slotsNum L)

theorem flushCheck_cases (p : PlanParams) (ci cj sf df : Nat)
    (L1 : List Range) (st1 : PState) :
    (flushCheck p ci cj sf df L1 st1).state.acc = [] ∨
      (flushCheck p ci cj sf df L1 st1 = StepRes.cont L1 st1 ∧
        st1.accNum < df ∧ sf < slotsNum L1) := by
  simp only [flushCheck]
  split
  · left
    split <;> (split <;> simp [StepRes.state])
  · right
    rename_i hno
    push_neg at hno
    exact ⟨rfl, hno.1, hno.2⟩

theorem innerStep_conserve (p : PlanParams) (ci cj : Nat) (L : List Range)
    (st : PState) (t : Nat) :
    listCount (innerStep p ci cj L st).list t +
      listCount (innerStep p ci cj L st).state.acc t +
      outCount (innerStep p ci cj L st).state.out t =
    listCount L t + listCount st.acc t + outCount st.out t := by
  simp only [innerStep]
  split
  · rfl
  · split
    · rfl
    · split
      · rfl
      · rename_i hslots r heq
        split
        · -- pop-whole branch
          rw [Nat.add_assoc, flushCheck_conserve, flushCheck_list]
          simp only [listCount_append]
          rw [listCount_dropLast heq t]
          simp [listCount]
          omega
        · -- shrink branch (covers `remove_num = 0`, whose second piece is
          -- the degenerate range)
          rename_i hge
          rw [Nat.add_assoc, flushCheck_conserve, flushCheck_list]
          simp only [listCount_append]
          rw [listCount_dropLast heq t]
          have h2 : min (dstFinal p st.dstIdx - st.accNum)
              (slotsNum L - srcFinal p (ci * 2 + cj)) < r.end_ + 1 - r.start :=
            Nat.lt_of_not_le hge
          rw [rangeCount_split r _ h2 t]
          simp [listCount]
          omega

theorem innerStep_out (p : PlanParams) (ci cj : Nat) (L : List Range)
    (st : PState) :
    ∀ m ∈ (innerStep p ci cj L st).state.out,
      m ∈ st.out ∨
        (m.meta.epoch = p.epoch ∧
          m.meta.dst_chunk_index = p.src_chunk_num + st.dstIdx / 2 ∧
          st.dstIdx ≠ p.dst_master_num) := by
  simp only [innerStep]
  split
  · intro m hm; exact Or.inl hm
  · rename_i hguard
    split
    · intro m hm; exact Or.inl hm
    · split
      · intro m hm; exact Or.inl hm
      · split
        · intro m hm
          rcases flushCheck_out p ci cj _ _ _ _ m hm with h | h
          · exact Or.inl h
          · exact Or.inr ⟨h.1, h.2, hguard⟩
        · intro m hm
          rcases flushCheck_out p ci cj _ _ _ _ m hm with h | h
          · exact Or.inl h
          · exact Or.inr ⟨h.1, h.2, hguard⟩

theorem innerStep_dstIdx (p : PlanParams) (ci cj : Nat) (L : List Range)
    (st : PState) :
    st.dstIdx ≤ (innerStep p ci cj L st).state.dstIdx ∧
      ((innerStep p ci cj L st).state.dstIdx ≤ st.dstIdx + 1) ∧
      (st.dstIdx = p.dst_master_num →
        (innerStep p ci cj L st).state.dstIdx = st.dstIdx) := by
  simp only [innerStep]
  split
  · exact ⟨le_refl _, Nat.le_succ _, fun _ => rfl⟩
  · rename_i hguard
    split
    · exact ⟨le_refl _, Nat.le_succ _, fun _ => rfl⟩
    · split
      · exact ⟨le_refl _, Nat.le_succ _, fun _ => rfl⟩
      · rename_i r heq
        split
        · have h := flushCheck_dstIdx p ci cj (srcFinal p (ci * 2 + cj))
            (dstFinal p st.dstIdx) L.dropLast
            { st with acc := st.acc ++ [r],
                      accNum := st.accNum + (r.end_ + 1 - r.start) }
          exact ⟨h.1, h.2, fun he => absurd he hguard⟩
        · have h := flushCheck_dstIdx p ci cj (srcFinal p (ci * 2 + cj))
            (dstFinal p st.dstIdx)
            (L.dropLast ++ [⟨r.start, r.end_ - min (dstFinal p st.dstIdx - st.accNum) (slotsNum L - srcFinal p (ci * 2 + cj))⟩])
            { st with acc := st.acc ++ [⟨r.end_ - min (dstFinal p st.dstIdx - st.accNum) (slotsNum L - srcFinal p (ci * 2 + cj)) + 1, r.end_⟩],
                      accNum := st.accNum + min (dstFinal p st.dstIdx - st.accNum) (slotsNum L - srcFinal p (ci * 2 + cj)) }
          exact ⟨h.1, h.2, fun he => absurd he hguard⟩

theorem flushCheck_cont_list {p : PlanParams} {ci cj sf df : Nat}
    {L1 : List Range} {st1 : PState} {L' : List Range} {st' : PState}
    (h : flushCheck p ci cj sf df L1 st1 = StepRes.cont L' st') : L' = L1 := by
  have := flushCheck_list p ci cj sf df L1 st1
  rw [h] at this
  exact this

theorem innerStep_acc (p : PlanParams) (ci cj : Nat) (L : List Range)
    (st : PState) (hok : accOk p ci cj L st) :
    (∀ L' st', innerStep p ci cj L st = StepRes.done L' st' → st'.acc = []) ∧
    (∀ L' st', innerStep p ci cj L st = StepRes.cont L' st' →
      accOk p ci cj L' st') := by
  have hacc : ∀ (X : Prop), (st.accNum < dstFinal p st.dstIdx ∧
      st.dstIdx ≠ p.dst_master_num ∧
      srcFinal p (ci * 2 + cj) < slotsNum L → X) → (st.acc = [] → X) → X := by
    intro X h1 h2
    rcases hok with h | h
    · exact h2 h
    · exact h1 h
  simp only [innerStep]
  split
  · rename_i hg
    refine ⟨fun L' st' h => ?_, fun L' st' h => ?_⟩
    · cases h
      rcases hok with h | h
      · exact h
      · exact absurd hg h.2.1
    · cases h
  · rename_i hg
    split
    · rename_i hsrc
      refine ⟨fun L' st' h => ?_, fun L' st' h => ?_⟩
      · cases h
        rcases hok with h | h
        · exact h
        · exact absurd hsrc (Nat.not_le_of_lt h.2.2)
      · cases h
    · rename_i hsrc
      split
      · rename_i heq
        exfalso
        have : L = [] := by
          cases L
          · rfl
          · rw [List.getLast?_eq_getLast _ (by simp)] at heq
            cases heq
        subst this
        exact hsrc (by simp [slotsNum])
      · rename_i r heq
        split
        · -- pop-whole
          rcases flushCheck_cases p ci cj (srcFinal p (ci * 2 + cj))
              (dstFinal p st.dstIdx) L.dropLast
              { st with acc := st.acc ++ [r],
                        accNum := st.accNum + (r.end_ + 1 - r.start) } with hc | hc
          · refine ⟨fun L' st' h => ?_, fun L' st' h => ?_⟩
            · rw [h] at hc; exact hc
            · rw [h] at hc; exact Or.inl hc
          · refine ⟨fun L' st' h => ?_, fun L' st' h => ?_⟩
            · rw [hc.1] at h; cases h
            · rw [hc.1] at h
              cases h
              exact Or.inr ⟨hc.2.1, hg, hc.2.2⟩
        · -- shrink (covers `remove_num = 0`)
          rename_i hge
          rcases flushCheck_cases p ci cj (srcFinal p (ci * 2 + cj))
              (dstFinal p st.dstIdx)
              (L.dropLast ++ [⟨r.start, r.end_ - min (dstFinal p st.dstIdx - st.accNum) (slotsNum L - srcFinal p (ci * 2 + cj))⟩])
              { st with acc := st.acc ++ [⟨r.end_ - min (dstFinal p st.dstIdx - st.accNum) (slotsNum L - srcFinal p (ci * 2 + cj)) + 1, r.end_⟩],
                        accNum := st.accNum + min (dstFinal p st.dstIdx - st.accNum) (slotsNum L - srcFinal p (ci * 2 + cj)) } with hc | hc
          · refine ⟨fun L' st' h => ?_, fun L' st' h => ?_⟩
            · rw [h] at hc; exact hc
            · rw [h] at hc; exact Or.inl hc
          · refine ⟨fun L' st' h => ?_, fun L' st' h => ?_⟩
            · rw [hc.1] at h; cases h
            · rw [hc.1] at h
              cases h
              exact Or.inr ⟨hc.2.1, hg, hc.2.2⟩

theorem flushCheck_cont_advance {p : PlanParams} {ci cj sf df : Nat}
    {L1 : List Range} {st1 : PState} {L' : List Range} {st' : PState}
    (h : flushCheck p ci cj sf df L1 st1 = StepRes.cont L' st')
    (hdf : df ≤ st1.accNum) :
    st'.dstIdx = st1.dstIdx + 1 := by
  simp only [flushCheck] at h
  rw [if_pos (Or.inl hdf)] at h
  split at h
  · cases h
  · try rw [if_pos hdf] at h
    injection h with h1 h2
    subst h2
    try rw [if_pos hdf]
    rfl

/-- Each continuing iteration strictly decreases the combined measure of the
source range list and the remaining destination cursor positions (a
`remove_num = 0` iteration changes neither the list nor its slot count, but
advances the cursor). -/
theorem innerStep_measure (p : PlanParams) (ci cj : Nat) (L : List Range)
    (st : PState) (L' : List Range) (st' : PState)
    (hb : st.dstIdx ≤ p.dst_master_num)
    (h : innerStep p ci cj L st = StepRes.cont L' st') :
    slotsNum L' + L'.length + (p.dst_master_num - st'.dstIdx) <
      slotsNum L + L.length + (p.dst_master_num - st.dstIdx) := by
  simp only [innerStep] at h
  split at h
  · cases h
  · rename_i hgN
    split at h
    · cases h
    · rename_i hsrc
      split at h
      · cases h
      · rename_i r heq
        have hne : L ≠ [] := by intro he; subst he; cases heq
        have hlen : L.dropLast.length + 1 = L.length := by
          cases L
          · exact absurd rfl hne
          · simp
        have hsl := slotsNum_dropLast heq
        split at h
        · -- pop-whole branch
          have hL := flushCheck_cont_list h
          subst hL
          have hd := flushCheck_dstIdx p ci cj (srcFinal p (ci * 2 + cj))
            (dstFinal p st.dstIdx) L.dropLast
            { st with acc := st.acc ++ [r],
                      accNum := st.accNum + (r.end_ + 1 - r.start) }
          rw [h] at hd
          simp only [StepRes.state] at hd
          have hd1 : st.dstIdx ≤ st'.dstIdx := hd.1
          omega
        · -- shrink branch (covers `remove_num = 0`)
          rename_i hge
          have hL := flushCheck_cont_list h
          subst hL
          have h2 : min (dstFinal p st.dstIdx - st.accNum)
              (slotsNum L - srcFinal p (ci * 2 + cj)) < r.end_ + 1 - r.start :=
            Nat.lt_of_not_le hge
          have hd := flushCheck_dstIdx p ci cj (srcFinal p (ci * 2 + cj))
            (dstFinal p st.dstIdx)
            (L.dropLast ++ [⟨r.start, r.end_ - min (dstFinal p st.dstIdx - st.accNum) (slotsNum L - srcFinal p (ci * 2 + cj))⟩])
            { st with acc := st.acc ++ [⟨r.end_ - min (dstFinal p st.dstIdx - st.accNum) (slotsNum L - srcFinal p (ci * 2 + cj)) + 1, r.end_⟩],
                      accNum := st.accNum + min (dstFinal p st.dstIdx - st.accNum) (slotsNum L - srcFinal p (ci * 2 + cj)) }
          rw [h] at hd
          simp only [StepRes.state] at hd
          have hd1 : st.dstIdx ≤ st'.dstIdx := hd.1
          rw [slotsNum_append]
          have hsx : slotsNum [(⟨r.start, r.end_ - min (dstFinal p st.dstIdx - st.accNum) (slotsNum L - srcFinal p (ci * 2 + cj))⟩ : Range)] =
              r.end_ - min (dstFinal p st.dstIdx - st.accNum) (slotsNum L - srcFinal p (ci * 2 + cj)) + 1 - r.start := by
            simp [slotsNum, Range.slots]
          have hlen3 : (L.dropLast ++ [(⟨r.start, r.end_ - min (dstFinal p st.dstIdx - st.accNum) (slotsNum L - srcFinal p (ci * 2 + cj))⟩ : Range)]).length =
              L.dropLast.length + 1 := by simp
          rw [hsx, hlen3]
          rcases Nat.eq_zero_or_pos (min (dstFinal p st.dstIdx - st.accNum)
              (slotsNum L - srcFinal p (ci * 2 + cj))) with hrm | hrm
          · have hadv0 := flushCheck_cont_advance h
            have hadv : st'.dstIdx = st.dstIdx + 1 :=
              hadv0 (by (try dsimp only); omega)
            omega
          · omega

theorem innerLoop_conserve (p : PlanParams) (ci cj : Nat) :
    ∀ (fuel : Nat) (L : List Range) (st : PState) (t : Nat),
      listCount (innerLoop p ci cj fuel L st).1 t +
        listCount (innerLoop p ci cj fuel L st).2.acc t +
        outCount (innerLoop p ci cj fuel L st).2.out t =
      listCount L t + listCount st.acc t + outCount st.out t := by
  intro fuel
  induction fuel with
  | zero => intro L st t; rfl
  | succ fuel ih =>
    intro L st t
    have hstep := innerStep_conserve p ci cj L st t
    simp only [innerLoop]
    rcases hs : innerStep p ci cj L st with ⟨L1, st1⟩ | ⟨L1, st1⟩ <;>
      rw [hs] at hstep
    · exact hstep
    · rw [← hstep]
      exact ih L1 st1 t

theorem innerLoop_dstIdx (p : PlanParams) (ci cj : Nat) :
    ∀ (fuel : Nat) (L : List Range) (st : PState),
      st.dstIdx ≤ p.dst_master_num →
      (innerLoop p ci cj fuel L st).2.dstIdx ≤ p.dst_master_num := by
  intro fuel
  induction fuel with
  | zero => intro L st hb; exact hb
  | succ fuel ih =>
    intro L st hb
    have hstep := innerStep_dstIdx p ci cj L st
    have hb1 : (innerStep p ci cj L st).state.dstIdx ≤ p.dst_master_num := by
      rcases Nat.lt_or_ge st.dstIdx p.dst_master_num with hlt | hge
      · exact le_trans hstep.2.1 hlt
      · have heq : st.dstIdx = p.dst_master_num := le_antisymm hb hge
        rw [hstep.2.2 heq]; exact hb
    rcases hs : innerStep p ci cj L st with ⟨L1, st1⟩ | ⟨L1, st1⟩ <;>
      rw [hs] at hb1 <;> simp only [innerLoop, hs]
    · exact hb1
    · exact ih L1 st1 hb1

theorem innerLoop_out (p : PlanParams) (ci cj : Nat) :
    ∀ (fuel : Nat) (L : List Range) (st : PState),
      st.dstIdx ≤ p.dst_master_num →
      ∀ m ∈ (innerLoop p ci cj fuel L st).2.out,
        m ∈ st.out ∨
          (m.meta.epoch = p.epoch ∧
            2 * m.meta.dst_chunk_index < 2 * p.src_chunk_num + p.dst_master_num) := by
  intro fuel
  induction fuel with
  | zero => intro L st hb m hm; exact Or.inl hm
  | succ fuel ih =>
    intro L st hb
    have hstep := innerStep_out p ci cj L st
    have hidx := innerStep_dstIdx p ci cj L st
    have hb1 : (innerStep p ci cj L st).state.dstIdx ≤ p.dst_master_num := by
      rcases Nat.lt_or_ge st.dstIdx p.dst_master_num with hlt | hge
      · exact le_trans hidx.2.1 hlt
      · have heq : st.dstIdx = p.dst_master_num := le_antisymm hb hge
        rw [hidx.2.2 heq]; exact hb
    have hconv : ∀ m, m ∈ (innerStep p ci cj L st).state.out →
        m ∈ st.out ∨
          (m.meta.epoch = p.epoch ∧
            2 * m.meta.dst_chunk_index < 2 * p.src_chunk_num + p.dst_master_num) := by
      intro m hm
      rcases hstep m hm with h | h
      · exact Or.inl h
      · refine Or.inr ⟨h.1, ?_⟩
        have hlt : st.dstIdx < p.dst_master_num :=
          Nat.lt_of_le_of_ne hb h.2.2
        rw [h.2.1]
        omega
    intro m hm
    rcases hs : innerStep p ci cj L st with ⟨L1, st1⟩ | ⟨L1, st1⟩ <;>
      rw [hs] at hb1 hconv <;> simp only [innerLoop, hs] at hm
    · exact hconv m hm
    · rcases ih L1 st1 hb1 m hm with h | h
      · exact hconv m h
      · exact Or.inr h

theorem innerLoop_acc (p : PlanParams) (ci cj : Nat) :
    ∀ (fuel : Nat) (L : List Range) (st : PState),
      slotsNum L + L.length + (p.dst_master_num - st.dstIdx) < fuel →
      st.dstIdx ≤ p.dst_master_num →
      accOk p ci cj L st →
      (innerLoop p ci cj fuel L st).2.acc = [] := by
  intro fuel
  induction fuel with
  | zero => intro L st hf _ _; omega
  | succ fuel ih =>
    intro L st hf hb hok
    have hacc := innerStep_acc p ci cj L st hok
    have hidx := innerStep_dstIdx p ci cj L st
    have hb1 : (innerStep p ci cj L st).state.dstIdx ≤ p.dst_master_num := by
      rcases Nat.lt_or_ge st.dstIdx p.dst_master_num with hlt | hge
      · exact le_trans hidx.2.1 hlt
      · have heq : st.dstIdx = p.dst_master_num := le_antisymm hb hge
        rw [hidx.2.2 heq]; exact hb
    simp only [innerLoop]
    rcases hs : innerStep p ci cj L st with ⟨L1, st1⟩ | ⟨L1, st1⟩
    · exact hacc.1 L1 st1 hs
    · have hm := innerStep_measure p ci cj L st L1 st1 hb hs
      rw [hs] at hb1
      exact ih L1 st1 (by omega) hb1 (hacc.2 L1 st1 hs)

end Broker


namespace Broker

/-! ### Planner aggregate lemmas -/

/-- Per-slot count of an optional stable slot range. -/
def oslotCount (o : Option SlotRange) (t : Nat) : Nat :=
  match o with
  | Option.some sr => listCount sr.range_list t
  | Option.none => 0

theorem processSlot_conserve (p : PlanParams) (ci cj : Nat)
    (o : Option SlotRange) (st : PState) (t : Nat) :
    oslotCount (processSlot p ci cj o st).1 t +
      listCount (processSlot p ci cj o st).2.acc t +
      outCount (processSlot p ci cj o st).2.out t =
    oslotCount o t + listCount st.acc t + outCount st.out t := by
  rcases o with _ | sr
  · rfl
  · simp only [processSlot, oslotCount]
    exact innerLoop_conserve p ci cj _ sr.range_list st t

theorem processSlot_dstIdx (p : PlanParams) (ci cj : Nat)
    (o : Option SlotRange) (st : PState)
    (hb : st.dstIdx ≤ p.dst_master_num) :
    (processSlot p ci cj o st).2.dstIdx ≤ p.dst_master_num := by
  rcases o with _ | sr
  · exact hb
  · exact innerLoop_dstIdx p ci cj _ sr.range_list st hb

theorem processSlot_out (p : PlanParams) (ci cj : Nat)
    (o : Option SlotRange) (st : PState)
    (hb : st.dstIdx ≤ p.dst_master_num) :
    ∀ m ∈ (processSlot p ci cj o st).2.out,
      m ∈ st.out ∨
        (m.meta.epoch = p.epoch ∧
          2 * m.meta.dst_chunk_index < 2 * p.src_chunk_num + p.dst_master_num) := by
  rcases o with _ | sr
  · intro m hm; exact Or.inl hm
  · exact innerLoop_out p ci cj _ sr.range_list st hb

theorem processSlot_acc (p : PlanParams) (ci cj : Nat)
    (o : Option SlotRange) (st : PState) (hb : st.dstIdx ≤ p.dst_master_num)
    (ha : st.acc = []) :
    (processSlot p ci cj o st).2.acc = [] := by
  rcases o with _ | sr
  · exact ha
  · exact innerLoop_acc p ci cj _ sr.range_list st (by omega) hb (Or.inl ha)

/-- `processSlot` only rewrites the range list inside a `Some` stable slot
(or keeps `None`); in particular the tag and the `Option` shape are kept. -/
theorem processSlot_shape (p : PlanParams) (ci cj : Nat)
    (o : Option SlotRange) (st : PState) :
    ((processSlot p ci cj o st).1.isSome = o.isSome) := by
  rcases o with _ | sr
  · rfl
  · rfl

end Broker

namespace Broker

def chunkStableCount (ch : ChunkStore) (t : Nat) : Nat :=
  oslotCount ch.stable_slots0 t + oslotCount ch.stable_slots1 t

def stableSum (chs : List ChunkStore) (t : Nat) : Nat :=
  (chs.map (chunkStableCount · t)).sum

/-- Per-slot count contributed by one migration entry to the invariant:
only importing (`is_migrating = false`) entries are counted. -/
def entryImportCount (e : MigrationSlotRangeStore) (t : Nat) : Nat :=
  if e.is_migrating then 0 else listCount e.range_list t

def chunkImportCount (ch : ChunkStore) (t : Nat) : Nat :=
  (ch.migrating_slots0.map (entryImportCount · t)).sum +
    (ch.migrating_slots1.map (entryImportCount · t)).sum

def importSum (chs : List ChunkStore) (t : Nat) : Nat :=
  (chs.map (chunkImportCount · t)).sum

/-- The per-slot count of the global slot invariant: stable ranges plus
importing migration ranges, over all chunks. -/
def clusterSlotCount (c : ClusterStore) (t : Nat) : Nat :=
  stableSum c.chunks t + importSum c.chunks t

theorem processChunks_conserve (p : PlanParams) :
    ∀ (chs : List ChunkStore) (i : Nat) (st : PState) (t : Nat),
      stableSum (processChunks p chs i st).1 t +
        listCount (processChunks p chs i st).2.acc t +
        outCount (processChunks p chs i st).2.out t =
      stableSum chs t + listCount st.acc t + outCount st.out t := by
  intro chs
  induction chs with
  | nil => intro i st t; rfl
  | cons ch rest ih =>
    intro i st t
    have h0 := processSlot_conserve p i 0 ch.stable_slots0 st t
    have h1 := processSlot_conserve p i 1 ch.stable_slots1
      (processSlot p i 0 ch.stable_slots0 st).2 t
    have h2 := ih (i + 1) (processSlot p i 1 ch.stable_slots1
      (processSlot p i 0 ch.stable_slots0 st).2).2 t
    simp only [processChunks, stableSum, List.map_cons, List.sum_cons,
      chunkStableCount] at h2 ⊢
    omega

theorem processChunks_migrating (p : PlanParams) :
    ∀ (chs : List ChunkStore) (i : Nat) (st : PState) (k : Nat),
      ((processChunks p chs i st).1[k]?).map
          (fun ch => (ch.migrating_slots0, ch.migrating_slots1)) =
        (chs[k]?).map (fun ch => (ch.migrating_slots0, ch.migrating_slots1)) := by
  intro chs
  induction chs with
  | nil => intro i st k; rfl
  | cons ch rest ih =>
    intro i st k
    rcases k with _ | k
    · simp [processChunks]
    · simp only [processChunks, List.getElem?_cons_succ]
      exact ih (i + 1) _ k

theorem processChunks_length (p : PlanParams) :
    ∀ (chs : List ChunkStore) (i : Nat) (st : PState),
      (processChunks p chs i st).1.length = chs.length := by
  intro chs
  induction chs with
  | nil => intro i st; rfl
  | cons ch rest ih =>
    intro i st
    simp only [processChunks, List.length_cons]
    rw [ih]

theorem processChunks_dstIdx (p : PlanParams) :
    ∀ (chs : List ChunkStore) (i : Nat) (st : PState),
      st.dstIdx ≤ p.dst_master_num →
      (processChunks p chs i st).2.dstIdx ≤ p.dst_master_num := by
  intro chs
  induction chs with
  | nil => intro i st hb; exact hb
  | cons ch rest ih =>
    intro i st hb
    exact ih (i + 1) _ (processSlot_dstIdx p i 1 _ _ (processSlot_dstIdx p i 0 _ _ hb))

theorem processChunks_out (p : PlanParams) :
    ∀ (chs : List ChunkStore) (i : Nat) (st : PState),
      st.dstIdx ≤ p.dst_master_num →
      ∀ m ∈ (processChunks p chs i st).2.out,
        m ∈ st.out ∨
          (m.meta.epoch = p.epoch ∧
            2 * m.meta.dst_chunk_index < 2 * p.src_chunk_num + p.dst_master_num) := by
  intro chs
  induction chs with
  | nil => intro i st hb m hm; exact Or.inl hm
  | cons ch rest ih =>
    intro i st hb m hm
    have hb0 := processSlot_dstIdx p i 0 ch.stable_slots0 st hb
    have hb1 := processSlot_dstIdx p i 1 ch.stable_slots1 _ hb0
    rcases ih (i + 1) _ hb1 m hm with h | h
    · rcases processSlot_out p i 1 ch.stable_slots1 _ hb0 m h with h' | h'
      · rcases processSlot_out p i 0 ch.stable_slots0 st hb m h' with h'' | h''
        · exact Or.inl h''
        · exact Or.inr h''
      · exact Or.inr h'
    · exact Or.inr h

theorem processChunks_acc (p : PlanParams) :
    ∀ (chs : List ChunkStore) (i : Nat) (st : PState),
      st.dstIdx ≤ p.dst_master_num →
      st.acc = [] → (processChunks p chs i st).2.acc = [] := by
  intro chs
  induction chs with
  | nil => intro i st _ ha; exact ha
  | cons ch rest ih =>
    intro i st hb ha
    have hb0 := processSlot_dstIdx p i 0 ch.stable_slots0 st hb
    have hb1 := processSlot_dstIdx p i 1 ch.stable_slots1 _ hb0
    exact ih (i + 1) _ hb1
      (processSlot_acc p i 1 _ _ hb0 (processSlot_acc p i 0 _ _ hb ha))

end Broker

namespace Broker

theorem processChunks_top (p : PlanParams) (chs : List ChunkStore)
    (hsum : 2 * p.src_chunk_num + p.dst_master_num ≤ 2 * chs.length) :
    (∀ t, stableSum (processChunks p chs 0
          { dstIdx := 0, accNum := 0, acc := [], out := [] }).1 t +
        outCount (processChunks p chs 0
          { dstIdx := 0, accNum := 0, acc := [], out := [] }).2.out t =
      stableSum chs t) ∧
    (processChunks p chs 0
        { dstIdx := 0, accNum := 0, acc := [], out := [] }).1.length =
      chs.length ∧
    (∀ k : Nat, ((processChunks p chs 0
          { dstIdx := 0, accNum := 0, acc := [], out := [] }).1[k]?).map
        (fun ch : ChunkStore => (ch.migrating_slots0, ch.migrating_slots1)) =
      (chs[k]?).map
        (fun ch : ChunkStore => (ch.migrating_slots0, ch.migrating_slots1))) ∧
    (∀ m ∈ (processChunks p chs 0
        { dstIdx := 0, accNum := 0, acc := [], out := [] }).2.out,
      m.meta.epoch = p.epoch ∧ m.meta.dst_chunk_index < chs.length) := by
  refine ⟨?_, processChunks_length p chs 0 _,
    fun k => processChunks_migrating p chs 0 _ k, ?_⟩
  · intro t
    have h := processChunks_conserve p chs 0
      { dstIdx := 0, accNum := 0, acc := [], out := [] } t
    have ha := processChunks_acc p chs 0
      { dstIdx := 0, accNum := 0, acc := [], out := [] } (Nat.zero_le _) rfl
    rw [ha] at h
    simpa [listCount, outCount] using h
  · intro m hm
    rcases processChunks_out p chs 0
        { dstIdx := 0, accNum := 0, acc := [], out := [] }
        (Nat.zero_le _) m hm with h | h
    · cases h
    · exact ⟨h.1, by omega⟩



theorem sum_map_modify_eq {g : ChunkStore → Nat} {f : ChunkStore → ChunkStore}
    (h : ∀ ch, g (f ch) = g ch) :
    ∀ (l : List ChunkStore) (i : Nat),
      ((List.modify f i l).map g).sum = (l.map g).sum := by
  intro l
  induction l with
  | nil => intro i; simp
  | cons a l ih =>
    intro i
    rcases i with _ | i
    · simp [List.modify, h]
    · simp only [List.modify_succ_cons, List.map_cons, List.sum_cons]
      rw [ih i]

theorem sum_map_modify_add {g : ChunkStore → Nat} {f : ChunkStore → ChunkStore}
    {d : Nat} (h : ∀ ch, g (f ch) = g ch + d) :
    ∀ (l : List ChunkStore) (i : Nat), i < l.length →
      ((List.modify f i l).map g).sum = (l.map g).sum + d := by
  intro l
  induction l with
  | nil => intro i hi; cases hi
  | cons a l ih =>
    intro i hi
    rcases i with _ | i
    · simp [List.modify, h]
      omega
    · simp only [List.modify_succ_cons, List.map_cons, List.sum_cons]
      rw [ih i (by simpa using hi)]
      omega

theorem chunkImportCount_push_migrating (ch : ChunkStore) (j : Nat)
    (e : MigrationSlotRangeStore) (he : e.is_migrating = true) (t : Nat) :
    chunkImportCount (pushMigrating ch j e) t = chunkImportCount ch t := by
  simp only [pushMigrating]
  split <;> simp [chunkImportCount, entryImportCount, he]

theorem chunkImportCount_push_importing (ch : ChunkStore) (j : Nat)
    (e : MigrationSlotRangeStore) (he : e.is_migrating = false) (t : Nat) :
    chunkImportCount (pushMigrating ch j e) t =
      chunkImportCount ch t + listCount e.range_list t := by
  simp only [pushMigrating]
  split <;> (simp [chunkImportCount, entryImportCount, he]; omega)

theorem chunkStableCount_push (ch : ChunkStore) (j : Nat)
    (e : MigrationSlotRangeStore) (t : Nat) :
    chunkStableCount (pushMigrating ch j e) t = chunkStableCount ch t := by
  simp only [pushMigrating]
  split <;> rfl

theorem assignOne_len (c : ClusterStore) (ms : MigrationSlots) :
    (assignOne c ms).chunks.length = c.chunks.length := by
  simp [assignOne, modifyChunk, List.length_modify]

theorem assignOne_stable (c : ClusterStore) (ms : MigrationSlots) (t : Nat) :
    stableSum (assignOne c ms).chunks t = stableSum c.chunks t := by
  simp only [assignOne, stableSum, modifyChunk]
  rw [sum_map_modify_eq (fun ch => chunkStableCount_push ch _ _ t),
    sum_map_modify_eq (fun ch => chunkStableCount_push ch _ _ t)]

theorem assignOne_import (c : ClusterStore) (ms : MigrationSlots)
    (hv : ms.meta.dst_chunk_index < c.chunks.length) (t : Nat) :
    importSum (assignOne c ms).chunks t =
      importSum c.chunks t + listCount ms.ranges t := by
  simp only [assignOne, importSum, modifyChunk]
  rw [sum_map_modify_add (fun ch =>
      chunkImportCount_push_importing ch _ _ rfl t) _ _
      (by simpa [List.length_modify] using hv),
    sum_map_modify_eq (fun ch =>
      chunkImportCount_push_migrating ch _ _ rfl t)]

theorem assignOne_name (c : ClusterStore) (ms : MigrationSlots) :
    (assignOne c ms).name = c.name := rfl

theorem assign_dst_slots_counts (out : List MigrationSlots) :
    ∀ (c : ClusterStore),
      (∀ m ∈ out, m.meta.dst_chunk_index < c.chunks.length) →
      (∀ t, stableSum (assign_dst_slots c out).chunks t = stableSum c.chunks t) ∧
      (∀ t, importSum (assign_dst_slots c out).chunks t =
        importSum c.chunks t + outCount out t) ∧
      (assign_dst_slots c out).chunks.length = c.chunks.length ∧
      (assign_dst_slots c out).name = c.name := by
  induction out with
  | nil =>
    intro c hv
    exact ⟨fun t => rfl, fun t => by simp [outCount, assign_dst_slots], rfl, rfl⟩
  | cons ms rest ih =>
    intro c hv
    have hvm := hv ms (List.mem_cons_self _ _)
    have hstep : assign_dst_slots c (ms :: rest) =
        assign_dst_slots (assignOne c ms) rest := rfl
    have hrest := ih (assignOne c ms) (by
      intro m hm
      have := hv m (List.mem_cons_of_mem _ hm)
      rw [assignOne_len]
      exact this)
    rw [hstep]
    refine ⟨?_, ?_, ?_, ?_⟩
    · intro t
      rw [hrest.1 t, assignOne_stable]
    · intro t
      rw [hrest.2.1 t, assignOne_import c ms hvm t]
      simp only [outCount, List.map_cons, List.sum_cons]
      omega
    · rw [hrest.2.2.1, assignOne_len]
    · rw [hrest.2.2.2, assignOne_name]

end Broker


namespace Broker

/-! ### Planner recording lemmas -/

/-- A placeholder chunk used for positional statements via `List.getD`. -/
def emptyChunk : ChunkStore :=
  { role_position := ChunkRolePosition.Normal, stable_slots0 := none
    stable_slots1 := none, migrating_slots0 := [], migrating_slots1 := []
    proxy_addresses0 := "", proxy_addresses1 := "", node_addresses0 := ""
    node_addresses1 := "", node_addresses2 := "", node_addresses3 := "" }

theorem pushMigrating_mem0 {ch : ChunkStore} {j : Nat}
    {x e : MigrationSlotRangeStore}
    (h : e ∈ (pushMigrating ch j x).migrating_slots0) :
    e ∈ ch.migrating_slots0 ∨ e = x := by
  simp only [pushMigrating] at h
  split at h
  · simp at h
    exact h
  · exact Or.inl h

theorem pushMigrating_mem1 {ch : ChunkStore} {j : Nat}
    {x e : MigrationSlotRangeStore}
    (h : e ∈ (pushMigrating ch j x).migrating_slots1) :
    e ∈ ch.migrating_slots1 ∨ e = x := by
  simp only [pushMigrating] at h
  split at h
  · exact Or.inl h
  · simp at h
    exact h

theorem modifyChunk_getD (chs : List ChunkStore) (i : Nat)
    (f : ChunkStore → ChunkStore) (k : Nat) :
    (modifyChunk chs i f).getD k emptyChunk =
      if i = k ∧ k < chs.length then f (chs.getD k emptyChunk)
      else chs.getD k emptyChunk := by
  simp only [modifyChunk, List.getD_eq_getElem?_getD, List.getElem?_modify]
  rcases Nat.lt_or_ge k chs.length with hk | hk
  · rcases List.getElem?_eq_some_iff.mpr ⟨hk, rfl⟩ with h
    rw [h]
    by_cases hik : i = k
    · simp [hik, hk, List.getD_eq_getElem?_getD, h]
    · simp [hik, hk, List.getD_eq_getElem?_getD, h]
  · have h : chs[k]? = none := List.getElem?_eq_none hk
    rw [h]
    simp [Nat.not_lt_of_ge hk]

theorem assignOne_mem0 (c : ClusterStore) (ms : MigrationSlots) (k : Nat)
    (e : MigrationSlotRangeStore)
    (h : e ∈ ((assignOne c ms).chunks.getD k emptyChunk).migrating_slots0) :
    e ∈ (c.chunks.getD k emptyChunk).migrating_slots0 ∨ e.meta = ms.meta := by
  simp only [assignOne] at h
  rw [modifyChunk_getD] at h
  split at h
  · rcases pushMigrating_mem0 h with h' | h'
    · rw [modifyChunk_getD] at h'
      split at h'
      · rcases pushMigrating_mem0 h' with h'' | h''
        · exact Or.inl h''
        · subst h''; exact Or.inr rfl
      · exact Or.inl h'
    · subst h'; exact Or.inr rfl
  · rw [modifyChunk_getD] at h
    split at h
    · rcases pushMigrating_mem0 h with h' | h'
      · exact Or.inl h'
      · subst h'; exact Or.inr rfl
    · exact Or.inl h

theorem assignOne_mem1 (c : ClusterStore) (ms : MigrationSlots) (k : Nat)
    (e : MigrationSlotRangeStore)
    (h : e ∈ ((assignOne c ms).chunks.getD k emptyChunk).migrating_slots1) :
    e ∈ (c.chunks.getD k emptyChunk).migrating_slots1 ∨ e.meta = ms.meta := by
  simp only [assignOne] at h
  rw [modifyChunk_getD] at h
  split at h
  · rcases pushMigrating_mem1 h with h' | h'
    · rw [modifyChunk_getD] at h'
      split at h'
      · rcases pushMigrating_mem1 h' with h'' | h''
        · exact Or.inl h''
        · subst h''; exact Or.inr rfl
      · exact Or.inl h'
    · subst h'; exact Or.inr rfl
  · rw [modifyChunk_getD] at h
    split at h
    · rcases pushMigrating_mem1 h with h' | h'
      · exact Or.inl h'
      · subst h'; exact Or.inr rfl
    · exact Or.inl h

theorem assign_dst_slots_mem (out : List MigrationSlots) :
    ∀ (c : ClusterStore) (k : Nat) (e : MigrationSlotRangeStore),
      (e ∈ ((assign_dst_slots c out).chunks.getD k emptyChunk).migrating_slots0 →
        e ∈ (c.chunks.getD k emptyChunk).migrating_slots0 ∨
          (∃ m ∈ out, e.meta = m.meta)) ∧
      (e ∈ ((assign_dst_slots c out).chunks.getD k emptyChunk).migrating_slots1 →
        e ∈ (c.chunks.getD k emptyChunk).migrating_slots1 ∨
          (∃ m ∈ out, e.meta = m.meta)) := by
  induction out with
  | nil =>
    intro c k e
    exact ⟨fun h => Or.inl h, fun h => Or.inl h⟩
  | cons ms rest ih =>
    intro c k e
    have hstep : assign_dst_slots c (ms :: rest) =
        assign_dst_slots (assignOne c ms) rest := rfl
    rw [hstep]
    constructor
    · intro h
      rcases (ih (assignOne c ms) k e).1 h with h' | h'
      · rcases assignOne_mem0 c ms k e h' with h'' | h''
        · exact Or.inl h''
        · exact Or.inr ⟨ms, List.mem_cons_self _ _, h''⟩
      · rcases h' with ⟨m, hm, he⟩
        exact Or.inr ⟨m, List.mem_cons_of_mem _ hm, he⟩
    · intro h
      rcases (ih (assignOne c ms) k e).2 h with h' | h'
      · rcases assignOne_mem1 c ms k e h' with h'' | h''
        · exact Or.inl h''
        · exact Or.inr ⟨ms, List.mem_cons_self _ _, h''⟩
      · rcases h' with ⟨m, hm, he⟩
        exact Or.inr ⟨m, List.mem_cons_of_mem _ hm, he⟩

end Broker


namespace Broker

/-! ### Claim C6 -/

theorem mig_getD_of_map_eq {chs' chs : List ChunkStore} {k : Nat}
    (h : (chs'[k]?).map
        (fun ch : ChunkStore => (ch.migrating_slots0, ch.migrating_slots1)) =
      (chs[k]?).map
        (fun ch : ChunkStore => (ch.migrating_slots0, ch.migrating_slots1))) :
    (chs'.getD k emptyChunk).migrating_slots0 =
        (chs.getD k emptyChunk).migrating_slots0 ∧
      (chs'.getD k emptyChunk).migrating_slots1 =
        (chs.getD k emptyChunk).migrating_slots1 := by
  rcases h1 : chs'[k]? with _ | ch1 <;> rcases h2 : chs[k]? with _ | ch2 <;>
    rw [h1, h2] at h
  · simp [List.getD_eq_getElem?_getD, h1, h2]
  · exact absurd h (by simp)
  · exact absurd h (by simp)
  · simp only [Option.map] at h
    injection h with h3
    have e0 : ch1.migrating_slots0 = ch2.migrating_slots0 :=
      congrArg Prod.fst h3
    have e1 : ch1.migrating_slots1 = ch2.migrating_slots1 :=
      congrArg Prod.snd h3
    simp only [List.getD_eq_getElem?_getD, h1, h2, Option.getD_some]
    exact ⟨e0, e1⟩

/-- C6: on an existing cluster named `name`, `migrate_slots(name)` returns
`MigrationRunning` iff some chunk has both of its migrating-slot lists
non-empty; on success the call sets `global_epoch` to exactly the pre-call
epoch plus one, and every migration entry of the resulting cluster either
already existed at the same position or carries exactly that planned epoch
(both the migrating and the importing copy are so stamped). -/
theorem C6_migrate_slots :
    ∀ (s : MetaStore) (c : ClusterStore) (name : String),
      s.cluster = some c → c.name = name →
      (((migrate_slots s name).2 = some MetaStoreError.MigrationRunning) ↔
        ∃ ch ∈ c.chunks, ¬ ch.migrating_slots0 = [] ∧ ¬ ch.migrating_slots1 = []) ∧
      ((migrate_slots s name).2 = none →
        (migrate_slots s name).1.global_epoch = s.global_epoch + 1 ∧
        ∀ c', (migrate_slots s name).1.cluster = some c' →
          ∀ (k : Nat) (e : MigrationSlotRangeStore),
            (e ∈ (c'.chunks.getD k emptyChunk).migrating_slots0 →
              e ∈ (c.chunks.getD k emptyChunk).migrating_slots0 ∨
                e.meta.epoch = s.global_epoch + 1) ∧
            (e ∈ (c'.chunks.getD k emptyChunk).migrating_slots1 →
              e ∈ (c.chunks.getD k emptyChunk).migrating_slots1 ∨
                e.meta.epoch = s.global_epoch + 1)) := by
  intro s c name hc hn
  have hnm : (¬ name = c.name) = False := by simp [hn]
  simp only [migrate_slots, dbNameFrom, hc, hnm, if_false]
  by_cases hrun : c.chunks.any (fun ch =>
      ¬ (ch.migrating_slots0.isEmpty || ch.migrating_slots1.isEmpty))
  · rw [if_pos hrun]
    constructor
    · constructor
      · intro _
        rcases List.any_eq_true.mp hrun with ⟨ch, hch, hb⟩
        refine ⟨ch, hch, ?_⟩
        simp only [decide_eq_true_eq, Bool.or_eq_true, List.isEmpty_iff] at hb
        push_neg at hb
        exact hb
      · intro _; rfl
    · intro h; cases h
  · rw [if_neg hrun]
    constructor
    · constructor
      · intro h; cases h
      · intro ⟨ch, hch, h0, h1⟩
        exfalso
        apply hrun
        refine List.any_eq_true.mpr ⟨ch, hch, ?_⟩
        simp [List.isEmpty_iff, h0, h1]
    · intro _
      refine ⟨rfl, ?_⟩
      intro c' hc' k e
      simp only [bump_global_epoch, remove_slots_from_src] at hc'
      injection hc' with hc2
      subst hc2
      have hfil : (c.chunks.filter (fun ch =>
          ch.stable_slots0.isNone && ch.stable_slots1.isNone)).length ≤
            c.chunks.length := List.length_filter_le _ _
      have htop := processChunks_top
        { dst_master_num := (c.chunks.filter (fun ch =>
            ch.stable_slots0.isNone && ch.stable_slots1.isNone)).length * 2
          src_master_num := (c.chunks.length - (c.chunks.filter (fun ch =>
            ch.stable_slots0.isNone && ch.stable_slots1.isNone)).length) * 2
          src_chunk_num := c.chunks.length - (c.chunks.filter (fun ch =>
            ch.stable_slots0.isNone && ch.stable_slots1.isNone)).length
          average := SLOT_NUM / (c.chunks.length * 2)
          remainder := SLOT_NUM - SLOT_NUM / (c.chunks.length * 2) * (c.chunks.length * 2)
          epoch := s.global_epoch + 1 } c.chunks (by dsimp only; omega)
      constructor
      · intro hm
        rcases (assign_dst_slots_mem _ _ k e).1 hm with h' | h'
        · have hbr := mig_getD_of_map_eq (htop.2.2.1 k)
          rw [show ({ c with chunks := (processChunks
              { dst_master_num := (c.chunks.filter (fun ch =>
                  ch.stable_slots0.isNone && ch.stable_slots1.isNone)).length * 2
                src_master_num := (c.chunks.length - (c.chunks.filter (fun ch =>
                  ch.stable_slots0.isNone && ch.stable_slots1.isNone)).length) * 2
                src_chunk_num := c.chunks.length - (c.chunks.filter (fun ch =>
                  ch.stable_slots0.isNone && ch.stable_slots1.isNone)).length
                average := SLOT_NUM / (c.chunks.length * 2)
                remainder := SLOT_NUM - SLOT_NUM / (c.chunks.length * 2) * (c.chunks.length * 2)
                epoch := s.global_epoch + 1 } c.chunks 0
              { dstIdx := 0, accNum := 0, acc := [], out := [] }).1 } : ClusterStore).chunks
            = (processChunks
              { dst_master_num := (c.chunks.filter (fun ch =>
                  ch.stable_slots0.isNone && ch.stable_slots1.isNone)).length * 2
                src_master_num := (c.chunks.length - (c.chunks.filter (fun ch =>
                  ch.stable_slots0.isNone && ch.stable_slots1.isNone)).length) * 2
                src_chunk_num := c.chunks.length - (c.chunks.filter (fun ch =>
                  ch.stable_slots0.isNone && ch.stable_slots1.isNone)).length
                average := SLOT_NUM / (c.chunks.length * 2)
                remainder := SLOT_NUM - SLOT_NUM / (c.chunks.length * 2) * (c.chunks.length * 2)
                epoch := s.global_epoch + 1 } c.chunks 0
              { dstIdx := 0, accNum := 0, acc := [], out := [] }).1 from rfl] at h'
          rw [hbr.1] at h'
          exact Or.inl h'
        · rcases h' with ⟨m, hmo, hme⟩
          have := (htop.2.2.2 m hmo).1
          rw [hme]
          exact Or.inr this
      · intro hm
        rcases (assign_dst_slots_mem _ _ k e).2 hm with h' | h'
        · have hbr := mig_getD_of_map_eq (htop.2.2.1 k)
          rw [hbr.2] at h'
          exact Or.inl h'
        · rcases h' with ⟨m, hmo, hme⟩
          have := (htop.2.2.2 m hmo).1
          rw [hme]
          exact Or.inr this


/-- Witness for C6: a two-chunk cluster (one stable chunk, one freshly added
empty chunk) on which `migrate_slots` succeeds and bumps the epoch from 6
to 7. -/
def c6Store : MetaStore :=
  match auto_add_nodes (match add_cluster ((add_proxy ((add_proxy ((add_proxy
      ((add_proxy MetaStore.default "a:1" ("a:2", "a:3")).1)
      "b:1" ("b:2", "b:3")).1) "c:1" ("c:2", "c:3")).1)
      "e:1" ("e:2", "e:3")).1) "d" 4 with
    | Option.some r => r.1
    | Option.none => MetaStore.default) "d" (some 4) with
  | Option.some r => r.1
  | Option.none => MetaStore.default

def c6Cluster : ClusterStore :=
  match c6Store.cluster with
  | Option.some c => c
  | Option.none => { name := "", chunks := [] }

theorem C6_migrate_slots_witness :
    (migrate_slots c6Store "d").2 = none ∧
    (migrate_slots c6Store "d").1.global_epoch = c6Store.global_epoch + 1 := by
  refine ⟨rfl, ?_⟩
  exact ((C6_migrate_slots c6Store c6Cluster "d" rfl rfl).2 rfl).1

end Broker
namespace Broker

/-- `allocLoop` returns exactly as many host pairs as it was asked for. -/
theorem allocLoop_length :
    ∀ (k : Nat) (hp : List (String × List String))
      (lt : List (String × List (String × Nat))) (l : List (String × String)),
      allocLoop hp lt k = some l → l.length = k := by
  intro k
  induction k with
  | zero =>
    intro hp lt l h
    simp only [allocLoop] at h
    injection h with h'
    rw [← h']
    rfl
  | succ k ih =>
    intro hp lt l h
    simp only [allocLoop] at h
    split at h
    · cases h
    · split at h
      · cases h
      · split at h
        · cases h
        · split at h
          · cases h
          · split at h
            · cases h
            · split at h
              · cases h
              · split at h
                · cases h
                · rcases ho : allocLoop _ _ k with _ | rest
                  · rw [ho] at h; cases h
                  · rw [ho] at h
                    simp only [Option.map_some'] at h
                    injection h with h'
                    rw [← h']
                    simp [ih _ _ rest ho]

/-- `resolvePairs` preserves the number of pairs. -/
theorem resolvePairs_length {ap : List (String × ProxyResource)} :
    ∀ {pairs : List (String × String)}
      {l : List (ProxyResource × ProxyResource)},
      resolvePairs ap pairs = some l → l.length = pairs.length := by
  intro pairs
  induction pairs with
  | nil =>
    intro l h
    injection h with h'
    rw [← h']
    rfl
  | cons p rest ih =>
    intro l h
    simp only [resolvePairs] at h
    split at h
    · rcases ho : resolvePairs ap rest with _ | tl
      · rw [ho] at h; cases h
      · rw [ho] at h
        simp only [Option.map_some'] at h
        injection h with h'
        rw [← h']
        simp [ih ho]
    · cases h

/-- `allocate_chunk` returns `(proxy_num + 1) / 2` pairs on success. -/
theorem allocate_chunk_length {hp : List (String × List String)}
    {lt : List (String × List (String × Nat))} {k : Nat}
    {pairs : List (String × String)}
    (h : allocate_chunk hp lt k = some (Except.ok pairs)) :
    pairs.length = (k + 1) / 2 := by
  simp only [allocate_chunk] at h
  split at h
  · cases h
  · split at h
    · cases h
    · split at h
      · cases h
      · rename_i l hl
        injection h with h'
        injection h' with h''
        subst h''
        exact allocLoop_length _ _ _ _ hl
/-- `consume_proxy` returns `(proxy_num + 1) / 2` chunk resources on
success. -/
theorem consume_proxy_length {s : MetaStore} {k : Nat}
    {arr : List (ProxyResource × ProxyResource)}
    (h : consume_proxy s k = some (Except.ok arr)) :
    arr.length = (k + 1) / 2 := by
  simp only [consume_proxy] at h
  split at h
  · cases h
  · split at h
    · cases h
    · simp at h
    · rename_i pairs hpairs
      split at h
      · cases h
      · rename_i res hres
        injection h with h'
        injection h' with h''
        subst h''
        rw [resolvePairs_length hres]
        exact allocate_chunk_length hpairs



/-- Target size of master `m` under the even-split rule for `M` masters. -/
def evenTarget (M m : Nat) : Nat :=
  SLOT_NUM / M + (if m < SLOT_NUM - SLOT_NUM / M * M then 1 else 0)

/-- First slot of master `m` under the even-split rule: the sum of the
targets of all earlier masters. -/
def evenStart (M m : Nat) : Nat :=
  ((List.range m).map (evenTarget M)).sum

/-- Consecutive masters receive contiguous ranges. -/
theorem evenStart_succ (M m : Nat) :
    evenStart M (m + 1) = evenStart M m + evenTarget M m := by
  simp [evenStart, List.range_succ]

/-- The first master always receives at least one slot. -/
theorem evenTarget_zero_pos (M : Nat) : 1 ≤ evenTarget M 0 := by
  have hq : SLOT_NUM / M * M ≤ SLOT_NUM := Nat.div_mul_le_self _ _
  simp only [evenTarget]
  rcases Nat.eq_zero_or_pos (SLOT_NUM / M) with h | h
  · rw [h]
    have : 0 < SLOT_NUM - 0 * M := by simp [SLOT_NUM]
    simp_all
  · omega

/-- Every master after the first starts strictly right of slot `0`. -/
theorem evenStart_pos (M m : Nat) (hm : 1 ≤ m) : 1 ≤ evenStart M m := by
  induction m with
  | zero => cases hm
  | succ m ih =>
    rw [evenStart_succ]
    rcases Nat.eq_zero_or_pos m with h | h
    · subst h
      simpa [evenStart] using evenTarget_zero_pos M
    · have := ih h
      omega

/-- The single range of master `m` holds exactly `evenTarget M m`
slots. -/
theorem evenRange_slots (M m : Nat) :
    slotsNum [(⟨evenStart M m, evenStart M m + evenTarget M m - 1⟩ : Range)] =
      evenTarget M m := by
  have h0 : 1 ≤ evenTarget M 0 := evenTarget_zero_pos M
  rcases Nat.eq_zero_or_pos m with h | h
  · subst h
    simp only [slotsNum, Range.slots, List.map_cons, List.map_nil,
      List.sum_cons, List.sum_nil]
    omega
  · have := evenStart_pos M m h
    simp only [slotsNum, Range.slots, List.map_cons, List.map_nil,
      List.sum_cons, List.sum_nil]
    omega

/-- The slot range assigned to master index m under the even split. -/
def evenSlotRange (M m : Nat) : SlotRange :=
  { range_list := [⟨evenStart M m, evenStart M m + evenTarget M m - 1⟩],
    tag := SlotRangeTag.none }

/-- Layout of `buildChunks` with slots: starting chunk `k` at cursor
`evenStart M (2 * k)`, the chunk at offset `i` is `Normal`, has empty
migrating lists, and its two stable halves are exactly the even-split
ranges of masters `2 * (k + i)` and `2 * (k + i) + 1`. -/
theorem buildChunks_get (M : Nat) :
    ∀ (arr : List (ProxyResource × ProxyResource)) (k i : Nat)
      (ch : ChunkStore),
      (buildChunks (SLOT_NUM / M) (SLOT_NUM - SLOT_NUM / M * M) true arr k
          (evenStart M (2 * k)))[i]? = some ch →
      ch.role_position = ChunkRolePosition.Normal ∧
      ch.migrating_slots0 = [] ∧ ch.migrating_slots1 = [] ∧
      ch.stable_slots0 = some (evenSlotRange M (2 * (k + i))) ∧
      ch.stable_slots1 = some (evenSlotRange M (2 * (k + i) + 1)) := by
  intro arr
  induction arr with
  | nil => intro k i ch h; cases h
  | cons pr rest ih =>
    intro k i ch h
    have hta : evenTarget M (2 * k) = SLOT_NUM / M +
        (if 2 * k < SLOT_NUM - SLOT_NUM / M * M then 1 else 0) := rfl
    have htb : evenTarget M (2 * k + 1) = SLOT_NUM / M +
        (if 2 * k + 1 < SLOT_NUM - SLOT_NUM / M * M then 1 else 0) := rfl
    rcases i with _ | i
    · simp only [buildChunks, List.getElem?_cons_zero, if_true] at h
      injection h with h'
      subst h'
      refine ⟨rfl, rfl, rfl, ?_, ?_⟩
      · simp only [Nat.add_zero, evenSlotRange, hta, Option.some.injEq,
          SlotRange.mk.injEq, List.cons.injEq, Range.mk.injEq, and_true,
          true_and]
        split_ifs <;> omega
      · simp only [Nat.add_zero, evenSlotRange, evenStart_succ, hta, htb,
          Option.some.injEq, SlotRange.mk.injEq, List.cons.injEq,
          Range.mk.injEq, and_true, true_and]
        split_ifs <;> omega
    · simp only [buildChunks, List.getElem?_cons_succ, if_true] at h
      have hcur : evenStart M (2 * k) + SLOT_NUM / M +
          (if 2 * k < SLOT_NUM - SLOT_NUM / M * M then 1 else 0) +
          SLOT_NUM / M +
          (if 2 * k + 1 < SLOT_NUM - SLOT_NUM / M * M then 1 else 0) =
          evenStart M (2 * (k + 1)) := by
        have e1 : 2 * (k + 1) = 2 * k + 1 + 1 := by ring
        rw [e1, evenStart_succ, evenStart_succ, hta, htb]
        split_ifs <;> omega
      rw [hcur] at h
      have := ih (k + 1) i ch h
      have e2 : k + 1 + i = k + (i + 1) := by ring
      rw [e2] at this
      exact this

/-- `buildChunks` produces one chunk per proxy-resource pair. -/
theorem buildChunks_length (average remainder : Nat) (with_slots : Bool) :
    ∀ (arr : List (ProxyResource × ProxyResource)) (i curr : Nat),
      (buildChunks average remainder with_slots arr i curr).length =
        arr.length := by
  intro arr
  induction arr with
  | nil => intro i curr; rfl
  | cons pr rest ih => intro i curr; simp [buildChunks, ih]

/-- C5: for every successful `add_cluster(name, node_num)` the cluster has
`node_num / 4` chunks; the chunk at index `j` has role `Normal`, empty
migrating lists, and stable halves equal to the even-split ranges of
masters `2 * j` and `2 * j + 1` for `M = node_num / 2` masters; each such
range is a single contiguous range of `avg + (1 if i < rem else 0)` slots
(`avg = SLOT_NUM / M`, `rem = SLOT_NUM - avg * M`), and the ranges are laid
out left-to-right starting at slot `0` in master-index order. -/
theorem C5_even_split (s : MetaStore) (db_name : String)
    (node_num : Nat) (r : MetaStore)
    (h : add_cluster s db_name node_num = some (r, Option.none)) :
    ∃ c, r.cluster = some c ∧
      c.chunks.length = node_num / 4 ∧
      (∀ j ch, c.chunks[j]? = some ch →
        ch.role_position = ChunkRolePosition.Normal ∧
        ch.migrating_slots0 = [] ∧ ch.migrating_slots1 = [] ∧
        ch.stable_slots0 = some (evenSlotRange (node_num / 2) (2 * j)) ∧
        ch.stable_slots1 = some (evenSlotRange (node_num / 2) (2 * j + 1))) ∧
      (∀ i, slotsNum (evenSlotRange (node_num / 2) i).range_list =
        SLOT_NUM / (node_num / 2) +
          (if i < SLOT_NUM - SLOT_NUM / (node_num / 2) * (node_num / 2)
           then 1 else 0)) ∧
      (∀ i, (evenSlotRange (node_num / 2) i).range_list =
        [⟨evenStart (node_num / 2) i,
          evenStart (node_num / 2) i + evenTarget (node_num / 2) i - 1⟩]) ∧
      evenStart (node_num / 2) 0 = 0 ∧
      (∀ i, evenStart (node_num / 2) (i + 1) =
        evenStart (node_num / 2) i + evenTarget (node_num / 2) i) := by
  simp only [add_cluster, dbNameFrom] at h
  split_ifs at h with h1 h2 h3
  all_goals try exact absurd h (by simp [Prod.ext_iff])
  rcases hc : consume_proxy s (node_num / 2) with _ | e | arr
  · rw [hc] at h; cases h
  · rw [hc] at h; simp at h
  · rw [hc] at h
    injection h with h'
    have hr : r = bump_global_epoch { s with cluster := some { name := db_name, chunks := proxy_resource_to_chunk_store arr true } } := by
      have := congrArg Prod.fst h'
      exact this.symm
    have hnum : node_num % 4 = 0 := h2
    have hlen : arr.length = (node_num / 2 + 1) / 2 :=
      consume_proxy_length hc
    have harr2 : arr.length * 2 = node_num / 2 := by omega
    have hlen4 : arr.length = node_num / 4 := by omega
    refine ⟨{ name := db_name, chunks := proxy_resource_to_chunk_store arr true }, ?_, ?_, ?_, ?_, ?_, rfl, fun i => evenStart_succ _ i⟩
    · rw [hr]; rfl
    · simp only [proxy_resource_to_chunk_store, buildChunks_length, hlen4]
    · intro j ch hj
      simp only [proxy_resource_to_chunk_store, harr2] at hj
      have hz : evenStart (node_num / 2) 0 = 0 := rfl
      rw [← hz] at hj
      have hmul : (0 : Nat) = 2 * 0 := rfl
      rw [hmul] at hj
      have := buildChunks_get (node_num / 2) arr 0 j ch hj
      simpa using this
    · intro i
      exact evenRange_slots (node_num / 2) i
    · intro i
      rfl

/-- A pool of two free proxies on distinct hosts. -/
def c5Store : MetaStore :=
  (add_proxy ((add_proxy MetaStore.default "a:1" ("a:2", "a:3")).1)
    "b:1" ("b:2", "b:3")).1

/-- The store after `add_cluster("x", 4)` on that pool. -/
def c5Result : MetaStore :=
  ((add_cluster c5Store "x" 4).getD (MetaStore.default, Option.none)).1


/-- Witness for C5 on the concrete two-proxy pool. -/
theorem C5_even_split_witness :
    ∃ c, c5Result.cluster = some c ∧
      c.chunks.length = 4 / 4 ∧
      (∀ j ch, c.chunks[j]? = some ch →
        ch.role_position = ChunkRolePosition.Normal ∧
        ch.migrating_slots0 = [] ∧ ch.migrating_slots1 = [] ∧
        ch.stable_slots0 = some (evenSlotRange (4 / 2) (2 * j)) ∧
        ch.stable_slots1 = some (evenSlotRange (4 / 2) (2 * j + 1))) ∧
      (∀ i, slotsNum (evenSlotRange (4 / 2) i).range_list =
        SLOT_NUM / (4 / 2) +
          (if i < SLOT_NUM - SLOT_NUM / (4 / 2) * (4 / 2)
           then 1 else 0)) ∧
      (∀ i, (evenSlotRange (4 / 2) i).range_list =
        [⟨evenStart (4 / 2) i,
          evenStart (4 / 2) i + evenTarget (4 / 2) i - 1⟩]) ∧
      evenStart (4 / 2) 0 = 0 ∧
      (∀ i, evenStart (4 / 2) (i + 1) =
        evenStart (4 / 2) i + evenTarget (4 / 2) i) :=
  C5_even_split c5Store "x" 4 c5Result rfl

end Broker


namespace Broker

/-- Well-formed host buckets: every address stored under a host key lives
on that host. -/
def WFhp (hp : List (String × List String)) : Prop :=
  ∀ e ∈ hp, ∀ a ∈ e.2, hostOf a = e.1

/-- A successful association-list lookup returns a stored entry. -/
theorem alGet?_mem {V : Type} {l : List (String × V)} {k : String} {v : V}
    (h : alGet? l k = some v) : (k, v) ∈ l := by
  simp only [alGet?] at h
  split at h
  · rename_i e he
    injection h with h'
    have hm := List.mem_of_find?_eq_some he
    have hp := List.find?_some he
    simp only [decide_eq_true_eq] at hp
    have : (k, v) = e := by
      cases e
      simp_all
    rw [this]
    exact hm
  · cases h

/-- Looked-up buckets of a well-formed table only hold addresses of the
looked-up host. -/
theorem WFhp_bucket {hp : List (String × List String)} (hwf : WFhp hp)
    {h : String} {b : List String} (hb : alGet? hp h = some b) :
    ∀ a ∈ b, hostOf a = h :=
  hwf (h, b) (alGet?_mem hb)

/-- Replacing one bucket by addresses of its own host keeps the table
well-formed. -/
theorem setBucket_WF {hp : List (String × List String)} (hwf : WFhp hp)
    {h : String} {nb : List String} (hnb : ∀ a ∈ nb, hostOf a = h) :
    WFhp (setBucket hp h nb) := by
  intro e he a ha
  simp only [setBucket, alModify, List.mem_map] at he
  rcases he with ⟨e0, he0, heq⟩
  by_cases hk : e0.1 = h
  · rw [if_pos hk] at heq
    rw [← heq] at ha ⊢
    simp only at ha ⊢
    rw [hk]
    exact hnb a ha
  · rw [if_neg hk] at heq
    rw [← heq] at ha ⊢
    exact hwf e0 he0 a ha

/-- Popping the last address of a bucket yields addresses of that host. -/
theorem dropLast_bucket_WF {hp : List (String × List String)} (hwf : WFhp hp)
    (h : String) :
    ∀ a ∈ ((alGet? hp h).getD []).dropLast, hostOf a = h := by
  intro a ha
  rcases hb : alGet? hp h with _ | b
  · rw [hb] at ha; cases ha
  · rw [hb] at ha
    exact WFhp_bucket hwf hb a ((List.dropLast_sublist b).subset ha)

/-- The `min_by_key` fold returns an element of its input (or its seed). -/
theorem minFold_mem (l : List (String × Nat)) :
    ∀ (init : Option (String × Nat)) (e : String × Nat),
      l.foldl (fun best e =>
        match best with
        | Option.none => some e
        | Option.some b => if e.2 < b.2 then some e else some b) init =
          some e →
      e ∈ l ∨ init = some e := by
  induction l with
  | nil => intro init e h; exact Or.inr h
  | cons x rest ih =>
    intro init e h
    simp only [List.foldl_cons] at h
    rcases ih _ e h with hm | hi
    · exact Or.inl (List.mem_cons_of_mem _ hm)
    · rcases init with _ | b
      · injection hi with hi'
        exact Or.inl (hi' ▸ List.mem_cons_self x rest)
      · simp only at hi
        split at hi
        · injection hi with hi'
          exact Or.inl (hi' ▸ List.mem_cons_self x rest)
        · exact Or.inr hi

/-- The second host chosen by `allocate_chunk` differs from the first: the
source filters the candidates by `peer_host != first_host`. -/
theorem pickMinPeer_ne {peers : List (String × Nat)} {first_host : String}
    {hp : List (String × List String)} {sh : String}
    (h : pickMinPeer peers first_host hp = some sh) : ¬ sh = first_host := by
  simp only [pickMinPeer, Option.map_eq_some'] at h
  rcases h with ⟨e, he, heq⟩
  rcases minFold_mem _ _ _ he with hm | hi
  · have := List.of_mem_filter hm
    simp only [Bool.and_eq_true, decide_eq_true_eq] at this
    rw [← heq]
    exact this.1
  · cases hi

/-- `getLast?` returns a member of the list. -/
theorem mem_of_getLast?_some {α : Type} {l : List α} {a : α}
    (h : l.getLast? = some a) : a ∈ l := by
  rcases List.mem_getLast?_eq_getLast (l := l) (x := a) (by rw [h]; rfl)
    with ⟨hne, heq⟩
  rw [heq]
  exact List.getLast_mem hne

/-- Every pair emitted by the allocation loop joins two distinct hosts,
provided the bucket table is well-formed. -/
theorem allocLoop_hosts :
    ∀ (k : Nat) (hp : List (String × List String))
      (lt : List (String × List (String × Nat)))
      (l : List (String × String)), WFhp hp →
      allocLoop hp lt k = some l →
      ∀ p ∈ l, ¬ hostOf p.1 = hostOf p.2 := by
  intro k
  induction k with
  | zero =>
    intro hp lt l hwf h p hp'
    simp only [allocLoop] at h
    injection h with h'
    rw [← h'] at hp'
    cases hp'
  | succ k ih =>
    intro hp lt l hwf h p hpl
    simp only [allocLoop] at h
    split at h
    · cases h
    · rename_i fe hfe
      split at h
      · cases h
      · rename_i fa hb1
        split at h
        · cases h
        · rename_i peers hpeers
          split at h
          · cases h
          · rename_i sh hsh
            split at h
            · cases h
            · rename_i sa hb2
              split at h
              · cases h
              · rename_i lt1 hlt1
                split at h
                · cases h
                · rename_i lt2 hlt2
                  rcases ho : allocLoop _ _ k with _ | rest
                  · rw [ho] at h; cases h
                  · rw [ho] at h
                    simp only [Option.map_some'] at h
                    injection h with h'
                    rw [← h'] at hpl
                    have hwf1 : WFhp (setBucket hp fe.1
                        (((alGet? hp fe.1).getD []).dropLast)) :=
                      setBucket_WF hwf (dropLast_bucket_WF hwf fe.1)
                    have hfa : hostOf fa = fe.1 := by
                      rcases hg : alGet? hp fe.1 with _ | b
                      · rw [hg] at hb1
                        cases hb1
                      · rw [hg] at hb1
                        exact WFhp_bucket hwf hg fa
                          (mem_of_getLast?_some hb1)
                    have hsa : hostOf sa = sh := by
                      rcases hg : alGet? (setBucket hp fe.1
                          (((alGet? hp fe.1).getD []).dropLast)) sh with _ | b
                      · rw [hg] at hb2
                        cases hb2
                      · rw [hg] at hb2
                        exact WFhp_bucket hwf1 hg sa
                          (mem_of_getLast?_some hb2)
                    rcases List.mem_cons.mp hpl with hph | hpr
                    · rw [hph]
                      simp only [hfa, hsa]
                      intro hcontra
                      exact pickMinPeer_ne hsh hcontra.symm
                    · have hwf2 : WFhp (setBucket (setBucket hp fe.1
                          (((alGet? hp fe.1).getD []).dropLast)) sh
                          (((alGet? (setBucket hp fe.1
                            (((alGet? hp fe.1).getD []).dropLast)) sh).getD
                              []).dropLast)) :=
                        setBucket_WF hwf1 (dropLast_bucket_WF hwf1 sh)
                      exact ih _ _ _ hwf2 ho p hpr

/-- The host partition built from the free-proxy list is well-formed. -/
theorem buildHostProxies_WF (free : List String) :
    WFhp (buildHostProxies free) := by
  simp only [buildHostProxies]
  have main : ∀ (l : List String) (hp : List (String × List String)),
      WFhp hp →
      WFhp (l.foldl (fun hp pa =>
        let h := hostOf pa
        if alContains hp h then alModify hp h (fun b => b ++ [pa])
        else hp ++ [(h, [pa])]) hp) := by
    intro l
    induction l with
    | nil => intro hp hwf; exact hwf
    | cons pa rest ih =>
      intro hp hwf
      simp only [List.foldl_cons]
      apply ih
      by_cases hc : alContains hp (hostOf pa)
      · rw [if_pos hc]
        intro e he a ha
        simp only [alModify, List.mem_map] at he
        rcases he with ⟨e0, he0, heq⟩
        by_cases hk : e0.1 = hostOf pa
        · rw [if_pos hk] at heq
          rw [← heq] at ha ⊢
          simp only at ha ⊢
          rcases List.mem_append.mp ha with h1 | h2
          · exact hwf e0 he0 a h1
          · rw [List.mem_singleton.mp h2, hk]
        · rw [if_neg hk] at heq
          rw [← heq] at ha ⊢
          exact hwf e0 he0 a ha
      · rw [if_neg hc]
        intro e he a ha
        rcases List.mem_append.mp he with h1 | h2
        · exact hwf e h1 a ha
        · rw [List.mem_singleton.mp h2] at ha ⊢
          rw [List.mem_singleton.mp ha]
  exact main free [] (fun e he => absurd he (List.not_mem_nil e))

/-- Pruning only drops addresses from a bucket. -/
theorem pruneLoop_subset :
    ∀ (m freeN : Nat) (b : List String) (a : String),
      a ∈ (pruneLoop m freeN b).2 → a ∈ b := by
  intro m
  induction m with
  | zero => intro freeN b a h; exact h
  | succ m ih =>
    intro freeN b a h
    simp only [pruneLoop] at h
    split at h
    · exact (List.dropLast_sublist b).subset (ih _ _ _ h)
    · exact h

/-- Pruning the dominant bucket keeps the table well-formed. -/
theorem pruneFirst_WF (maxN : Nat) :
    ∀ (hp : List (String × List String)) (freeN : Nat), WFhp hp →
      WFhp (pruneFirst maxN hp freeN).1 := by
  intro hp
  induction hp with
  | nil => intro freeN hwf; exact hwf
  | cons e rest ih =>
    intro freeN hwf
    simp only [pruneFirst]
    split
    · intro e' he' a ha
      rcases List.mem_cons.mp he' with h1 | h2
      · rw [h1] at ha ⊢
        simp only at ha ⊢
        exact hwf e (List.mem_cons_self e rest) a (pruneLoop_subset _ _ _ _ ha)
      · exact hwf e' (List.mem_cons_of_mem e h2) a ha
    · intro e' he' a ha
      rcases List.mem_cons.mp he' with h1 | h2
      · rw [h1] at ha ⊢
        exact hwf e (List.mem_cons_self e rest) a ha
      · exact ih freeN (fun x hx => hwf x (List.mem_cons_of_mem e hx)) e' h2 a ha

/-- `remove_redundant_chunks` keeps the table well-formed. -/
theorem remove_redundant_chunks_WF {hp hp1 : List (String × List String)}
    {n : Nat} (hwf : WFhp hp)
    (h : remove_redundant_chunks hp n = Except.ok hp1) : WFhp hp1 := by
  simp only [remove_redundant_chunks] at h
  split at h
  · cases h
  · injection h with h'
    rw [← h']
    exact pruneFirst_WF _ hp _ hwf

/-- Well-formed registry: `all_proxies` binds each address to a resource
carrying that address (every `add_proxy` insertion has this shape). -/
def WFProxies (ap : List (String × ProxyResource)) : Prop :=
  ∀ e ∈ ap, e.2.proxy_address = e.1

/-- Resolving address pairs through a well-formed registry preserves
host distinctness. -/
theorem resolvePairs_hosts {ap : List (String × ProxyResource)}
    (hap : WFProxies ap) :
    ∀ {pairs : List (String × String)}
      {l : List (ProxyResource × ProxyResource)},
      resolvePairs ap pairs = some l →
      (∀ p ∈ pairs, ¬ hostOf p.1 = hostOf p.2) →
      ∀ q ∈ l, ¬ hostOf q.1.proxy_address = hostOf q.2.proxy_address := by
  intro pairs
  induction pairs with
  | nil =>
    intro l h hd q hq
    injection h with h'
    rw [← h'] at hq
    cases hq
  | cons p rest ih =>
    intro l h hd q hq
    simp only [resolvePairs] at h
    split at h
    · rename_i r1 r2 h1 h2
      rcases ho : resolvePairs ap rest with _ | t
      · rw [ho] at h; cases h
      · rw [ho] at h
        simp only [Option.map_some'] at h
        injection h with h'
        rw [← h'] at hq
        rcases List.mem_cons.mp hq with hqh | hqt
        · rw [hqh]
          have e1 : r1.proxy_address = p.1 := hap _ (alGet?_mem h1)
          have e2 : r2.proxy_address = p.2 := hap _ (alGet?_mem h2)
          simp only [e1, e2]
          exact hd p (List.mem_cons_self p rest)
        · exact ih ho (fun x hx => hd x (List.mem_cons_of_mem p hx)) q hqt
    · cases h

/-- Every chunk resource pair returned by `consume_proxy` joins two
distinct hosts. -/
theorem consume_proxy_hosts {s : MetaStore} {k : Nat}
    {arr : List (ProxyResource × ProxyResource)}
    (hap : WFProxies s.all_proxies)
    (h : consume_proxy s k = some (Except.ok arr)) :
    ∀ pr ∈ arr, ¬ hostOf pr.1.proxy_address = hostOf pr.2.proxy_address := by
  simp only [consume_proxy] at h
  split at h
  · cases h
  · rename_i hp1 hok
    have hwf1 : WFhp hp1 :=
      remove_redundant_chunks_WF (buildHostProxies_WF _) hok
    split at h
    · cases h
    · simp at h
    · rename_i pairs hpairs
      split at h
      · cases h
      · rename_i res hres
        injection h with h'
        injection h' with h''
        subst h''
        have hpd : ∀ p ∈ pairs, ¬ hostOf p.1 = hostOf p.2 := by
          simp only [allocate_chunk] at hpairs
          split at hpairs
          · cases hpairs
          · split at hpairs
            · cases hpairs
            · rcases hl : allocLoop hp1 (build_link_table s) ((k + 1) / 2)
                  with _ | l0
              · rw [hl] at hpairs; cases hpairs
              · rw [hl] at hpairs
                injection hpairs with hp'
                injection hp' with hp''
                subst hp''
                exact allocLoop_hosts _ _ _ _ hwf1 hl
        exact resolvePairs_hosts hap hres hpd

/-- Every chunk built by `buildChunks` takes its two proxy addresses from
some input resource pair. -/
theorem buildChunks_mem (average remainder : Nat) (with_slots : Bool) :
    ∀ (arr : List (ProxyResource × ProxyResource)) (i curr : Nat)
      (ch : ChunkStore),
      ch ∈ buildChunks average remainder with_slots arr i curr →
      ∃ pr ∈ arr, ch.proxy_addresses0 = pr.1.proxy_address ∧
        ch.proxy_addresses1 = pr.2.proxy_address := by
  intro arr
  induction arr with
  | nil => intro i curr ch h; cases h
  | cons pr rest ih =>
    intro i curr ch h
    simp only [buildChunks] at h
    rcases List.mem_cons.mp h with h1 | h2
    · exact ⟨pr, List.mem_cons_self pr rest, by rw [h1], by rw [h1]⟩
    · rcases ih _ _ _ h2 with ⟨pr', hm, h1', h2'⟩
      exact ⟨pr', List.mem_cons_of_mem pr hm, h1', h2'⟩

/-- C7 (amended): for every store whose proxy registry is well-formed,
every chunk of a cluster created by a successful `add_cluster` has its two
proxies on distinct hosts, and a successful `auto_add_nodes` preserves
that property of all chunks.  (The original claim extends this to
`replace_failed_proxy`, which is refuted by `C7_counterexample`.) -/
theorem C7_alloc_distinct_hosts (s : MetaStore)
    (hap : WFProxies s.all_proxies) :
    (∀ db n r, add_cluster s db n = some (r, Option.none) →
      ∀ c, r.cluster = some c →
      ∀ ch ∈ c.chunks,
        ¬ hostOf ch.proxy_addresses0 = hostOf ch.proxy_addresses1) ∧
    (∀ db num? r c0, s.cluster = some c0 →
      (∀ ch ∈ c0.chunks,
        ¬ hostOf ch.proxy_addresses0 = hostOf ch.proxy_addresses1) →
      auto_add_nodes s db num? = some (r, Option.none) →
      ∀ c, r.cluster = some c →
      ∀ ch ∈ c.chunks,
        ¬ hostOf ch.proxy_addresses0 = hostOf ch.proxy_addresses1) := by
  constructor
  · intro db n r h c hc ch hch
    simp only [add_cluster, dbNameFrom] at h
    split_ifs at h with h1 h2 h3
    all_goals try exact absurd h (by simp [Prod.ext_iff])
    rcases hcp : consume_proxy s (n / 2) with _ | e | arr
    · rw [hcp] at h; cases h
    · rw [hcp] at h; simp at h
    · rw [hcp] at h
      injection h with h'
      have hr : r = bump_global_epoch { s with cluster := some { name := db, chunks := proxy_resource_to_chunk_store arr true } } :=
        (congrArg Prod.fst h').symm
      rw [hr] at hc
      simp only [bump_global_epoch, Option.some.injEq] at hc
      rw [← hc] at hch
      simp only [proxy_resource_to_chunk_store] at hch
      rcases buildChunks_mem _ _ _ _ _ _ _ hch with ⟨pr, hm, e0, e1⟩
      rw [e0, e1]
      exact consume_proxy_hosts hap hcp pr hm
  · intro db num? r c0 hc0 hold h c hc ch hch
    have key : ∀ (k : Nat),
        (match consume_proxy s k with
          | Option.none => none
          | Option.some (Except.error e) => some (s, some e)
          | Option.some (Except.ok arr) =>
            some (bump_global_epoch { s with cluster := some { c0 with chunks := c0.chunks ++ proxy_resource_to_chunk_store arr false } }, Option.none)) =
          some (r, Option.none) →
        ¬ hostOf ch.proxy_addresses0 = hostOf ch.proxy_addresses1 := by
      intro k hk
      rcases hcp : consume_proxy s k with _ | e | arr
      · rw [hcp] at hk; cases hk
      · rw [hcp] at hk; simp at hk
      · rw [hcp] at hk
        injection hk with hk'
        have hr : r = bump_global_epoch { s with cluster := some { c0 with chunks := c0.chunks ++ proxy_resource_to_chunk_store arr false } } :=
          (congrArg Prod.fst hk').symm
        rw [hr] at hc
        simp only [bump_global_epoch, Option.some.injEq] at hc
        rw [← hc] at hch
        simp only at hch
        rcases List.mem_append.mp hch with hm1 | hm2
        · exact hold ch hm1
        · simp only [proxy_resource_to_chunk_store] at hm2
          rcases buildChunks_mem _ _ _ _ _ _ _ hm2 with ⟨pr, hm, e0, e1⟩
          rw [e0, e1]
          exact consume_proxy_hosts hap hcp pr hm
    rcases num? with _ | n
    all_goals
      simp only [auto_add_nodes, dbNameFrom, hc0] at h
    · split_ifs at h with h1 h2 h3
      all_goals try exact absurd h (by simp [Prod.ext_iff])
      exact key _ h
    · split_ifs at h with h1 h2 h3
      all_goals try exact absurd h (by simp [Prod.ext_iff])
      exact key _ h

/-- A pool of one proxy on host `a` and two proxies on host `b`. -/
def c7Pool : MetaStore :=
  (add_proxy ((add_proxy ((add_proxy MetaStore.default
    "a:1" ("a:2", "a:3")).1) "b:1" ("b:4", "b:5")).1)
    "b:2" ("b:6", "b:7")).1

/-- The store after `add_cluster("d", 4)` on that pool: one chunk pairing
hosts `b` and `a`, with `b:2` left free. -/
def c7Store : MetaStore :=
  ((add_cluster c7Pool "d" 4).getD (MetaStore.default, Option.none)).1

/-- C7 counterexample: from the empty store, the successful mutator
sequence `add_proxy a:1 / b:1 / b:2`, `add_cluster("d", 4)`,
`replace_failed_proxy("a:1")` ends with the cluster's only chunk holding
proxies `b:1` and `b:2` — both on host `b`.  `consume_new_proxy` picks the
replacement among free hosts linked to the failed proxy's host only; it
never excludes the surviving partner's host. -/
theorem C7_counterexample :
    (add_proxy MetaStore.default "a:1" ("a:2", "a:3")).2 = Option.none ∧
    (add_proxy (add_proxy MetaStore.default "a:1" ("a:2", "a:3")).1
      "b:1" ("b:4", "b:5")).2 = Option.none ∧
    (add_proxy (add_proxy (add_proxy MetaStore.default
      "a:1" ("a:2", "a:3")).1 "b:1" ("b:4", "b:5")).1
      "b:2" ("b:6", "b:7")).2 = Option.none ∧
    (add_cluster c7Pool "d" 4).map (fun p => p.2) = some Option.none ∧
    c7Store.cluster.map (fun c => c.chunks.map (fun ch =>
      (hostOf ch.proxy_addresses0, hostOf ch.proxy_addresses1))) =
      some [("b", "a")] ∧
    (replace_failed_proxy c7Store "a:1").map (fun p => (p.2,
      p.1.cluster.map (fun c => c.chunks.map (fun ch =>
        (hostOf ch.proxy_addresses0, hostOf ch.proxy_addresses1))))) =
      some (Option.none, some [("b", "b")]) :=
  ⟨rfl, rfl, rfl, rfl, rfl, rfl⟩

/-- Witness for the amended C7 on the concrete pool. -/
theorem C7_alloc_distinct_hosts_witness :
    WFProxies c7Pool.all_proxies ∧
    ((∀ db n r, add_cluster c7Pool db n = some (r, Option.none) →
      ∀ c, r.cluster = some c →
      ∀ ch ∈ c.chunks,
        ¬ hostOf ch.proxy_addresses0 = hostOf ch.proxy_addresses1) ∧
    (∀ db num? r c0, c7Pool.cluster = some c0 →
      (∀ ch ∈ c0.chunks,
        ¬ hostOf ch.proxy_addresses0 = hostOf ch.proxy_addresses1) →
      auto_add_nodes c7Pool db num? = some (r, Option.none) →
      ∀ c, r.cluster = some c →
      ∀ ch ∈ c.chunks,
        ¬ hostOf ch.proxy_addresses0 = hostOf ch.proxy_addresses1)) :=
  ⟨by unfold WFProxies; decide, C7_alloc_distinct_hosts c7Pool (by unfold WFProxies; decide)⟩

end Broker

namespace Broker

/-- Inserting a range adds its per-slot count. -/
theorem insertRange_count (r : Range) :
    ∀ (l : List Range) (t : Nat),
      listCount (insertRange r l) t = rangeCount r t + listCount l t := by
  intro l
  induction l with
  | nil => intro t; simp [insertRange, listCount]
  | cons x xs ih =>
    intro t
    simp only [insertRange]
    split
    · rfl
    · simp only [listCount, List.map_cons, List.sum_cons] at ih ⊢
      rw [ih t]
      omega

/-- Sorting preserves per-slot counts. -/
theorem sortRanges_count :
    ∀ (l : List Range) (t : Nat), listCount (sortRanges l) t = listCount l t := by
  intro l
  induction l with
  | nil => intro t; rfl
  | cons x xs ih =>
    intro t
    simp only [sortRanges]
    rw [insertRange_count x (sortRanges xs) t, ih t]
    rfl

/-- Members of an insertion are the inserted range or old members. -/
theorem mem_insertRange {r x : Range} :
    ∀ {l : List Range}, x ∈ insertRange r l → x = r ∨ x ∈ l := by
  intro l
  induction l with
  | nil =>
    intro h
    simp only [insertRange] at h
    rcases List.mem_singleton.mp h with h'
    exact Or.inl h'
  | cons y ys ih =>
    intro h
    simp only [insertRange] at h
    split at h
    · rcases List.mem_cons.mp h with h' | h'
      · exact Or.inl h'
      · exact Or.inr h'
    · rcases List.mem_cons.mp h with h' | h'
      · exact Or.inr (h' ▸ List.mem_cons_self y ys)
      · rcases ih h' with h'' | h''
        · exact Or.inl h''
        · exact Or.inr (List.mem_cons_of_mem y h'')

/-- Insertion keeps the list sorted by start. -/
theorem insertRange_pairwise {r : Range} :
    ∀ {l : List Range},
      l.Pairwise (fun a b => a.start ≤ b.start) →
      (insertRange r l).Pairwise (fun a b => a.start ≤ b.start) := by
  intro l
  induction l with
  | nil => intro _; simp [insertRange]
  | cons x xs ih =>
    intro h
    rcases List.pairwise_cons.mp h with ⟨hx, hxs⟩
    simp only [insertRange]
    split
    · rename_i hle
      refine List.pairwise_cons.mpr ⟨?_, h⟩
      intro y hy
      rcases List.mem_cons.mp hy with h' | h'
      · rw [h']; exact hle
      · exact Nat.le_trans hle (hx y h')
    · rename_i hgt
      refine List.pairwise_cons.mpr ⟨?_, ih hxs⟩
      intro y hy
      rcases mem_insertRange hy with h' | h'
      · rw [h']; omega
      · exact hx y h'

/-- The sort produces a list sorted by start. -/
theorem sortRanges_pairwise :
    ∀ (l : List Range),
      (sortRanges l).Pairwise (fun a b => a.start ≤ b.start) := by
  intro l
  induction l with
  | nil => exact List.Pairwise.nil
  | cons x xs ih => exact insertRange_pairwise ih

/-- Per-slot count of a cons. -/
theorem listCount_cons (x : Range) (xs : List Range) (t : Nat) :
    listCount (x :: xs) t = rangeCount x t + listCount xs t := rfl

/-- Merging an adjacent or overlapping range into the current one keeps
the per-slot count when the total count is at most one (no true overlap
can exist then). -/
theorem coalesce_merge_count {cur y : Range} {rest : Nat} {t : Nat}
    (hc : rangeCount cur t + rangeCount y t + rest ≤ 1)
    (hs : cur.start ≤ y.start) (hm : y.start ≤ cur.end_ + 1) :
    rangeCount ⟨cur.start, max cur.end_ y.end_⟩ t =
      rangeCount cur t + rangeCount y t := by
  simp only [rangeCount] at hc ⊢
  split_ifs at hc ⊢ <;> simp_all <;> omega

/-- Coalescing a sorted, at-most-once range list preserves per-slot
counts. -/
theorem coalesceFrom_count :
    ∀ (rest : List Range) (cur : Range),
      ((cur :: rest).Pairwise (fun a b => a.start ≤ b.start)) →
      (∀ t, rangeCount cur t + listCount rest t ≤ 1) →
      ∀ t, listCount (coalesceFrom cur rest) t =
        rangeCount cur t + listCount rest t := by
  intro rest
  induction rest with
  | nil =>
    intro cur _ _ t
    simp [coalesceFrom, listCount]
  | cons y ys ih =>
    intro cur hp hb t
    rcases List.pairwise_cons.mp hp with ⟨hcur, hyys⟩
    rcases List.pairwise_cons.mp hyys with ⟨hy, hys⟩
    simp only [coalesceFrom]
    split
    · rename_i hmerge
      have hkey : ∀ u, rangeCount ⟨cur.start, max cur.end_ y.end_⟩ u =
          rangeCount cur u + rangeCount y u := by
        intro u
        have hbu := hb u
        rw [listCount_cons] at hbu
        exact @coalesce_merge_count cur y (listCount ys u) u (by omega)
          (hcur y (List.mem_cons_self y ys)) hmerge
      have hp' : ((⟨cur.start, max cur.end_ y.end_⟩ : Range) :: ys).Pairwise
          (fun a b => a.start ≤ b.start) := by
        refine List.pairwise_cons.mpr ⟨?_, hys⟩
        intro z hz
        exact hcur z (List.mem_cons_of_mem y hz)
      have hb' : ∀ u, rangeCount ⟨cur.start, max cur.end_ y.end_⟩ u +
          listCount ys u ≤ 1 := by
        intro u
        rw [hkey u]
        have hbu := hb u
        rw [listCount_cons] at hbu
        omega
      rw [ih _ hp' hb' t, hkey t, listCount_cons]
      omega
    · rename_i hnom
      have hb' : ∀ u, rangeCount y u + listCount ys u ≤ 1 := by
        intro u
        have hbu := hb u
        rw [listCount_cons] at hbu
        omega
      rw [listCount_cons, listCount_cons, ih y hyys hb' t]

/-- Coalescing preserves per-slot counts on sorted, at-most-once
lists. -/
theorem coalesceRanges_count (l : List Range)
    (hp : l.Pairwise (fun a b => a.start ≤ b.start))
    (hb : ∀ t, listCount l t ≤ 1) :
    ∀ t, listCount (coalesceRanges l) t = listCount l t := by
  rcases l with _ | ⟨x, xs⟩
  · intro t; rfl
  · intro t
    rcases List.pairwise_cons.mp hp with ⟨hx, hxs⟩
    have hb' : ∀ u, rangeCount x u + listCount xs u ≤ 1 := by
      intro u
      have := hb u
      rw [listCount_cons] at this
      omega
    simp only [coalesceRanges]
    rw [coalesceFrom_count xs x hp hb' t, listCount_cons]

/-- The range-list merge is count-preserving whenever the merged lists
cover each slot at most once in total. -/
theorem mergeRangeLists_count (a b : List Range)
    (h : ∀ t, listCount a t + listCount b t ≤ 1) (t : Nat) :
    listCount (mergeRangeLists a b) t = listCount a t + listCount b t := by
  have hsorted := sortRanges_pairwise (a ++ b)
  have hb : ∀ u, listCount (sortRanges (a ++ b)) u ≤ 1 := by
    intro u
    rw [sortRanges_count, listCount_append]
    exact h u
  simp only [mergeRangeLists]
  rw [coalesceRanges_count _ hsorted hb t, sortRanges_count, listCount_append]

end Broker

namespace Broker

/-- Filtering away zero-weight elements keeps a weighted sum. -/
theorem sum_map_filter_of_zero {α : Type} (g : α → Nat) (p : α → Bool) :
    ∀ l : List α, (∀ e ∈ l, p e = false → g e = 0) →
      ((l.filter p).map g).sum = (l.map g).sum := by
  intro l
  induction l with
  | nil => intro _; rfl
  | cons x xs ih =>
    intro h
    by_cases hp : p x = true
    · rw [List.filter_cons, if_pos hp]
      simp only [List.map_cons, List.sum_cons]
      rw [ih (fun e he hpe => h e (List.mem_cons_of_mem x he) hpe)]
    · rw [List.filter_cons, if_neg hp]
      simp only [List.map_cons, List.sum_cons]
      rw [ih (fun e he hpe => h e (List.mem_cons_of_mem x he) hpe)]
      rw [h x (List.mem_cons_self x xs) (Bool.not_eq_true _ ▸ hp)]
      omega

/-- The found index holds an element satisfying the predicate. -/
theorem findIdx?_spec {α : Type} (p : α → Bool) :
    ∀ (l : List α) (i : Nat), l.findIdx? p = some i →
      ∃ e, l[i]? = some e ∧ p e = true := by
  intro l
  induction l with
  | nil => intro i h; cases h
  | cons x xs ih =>
    intro i h
    rw [List.findIdx?_cons] at h
    by_cases hp : p x = true
    · rw [if_pos hp] at h
      injection h with h'
      exact ⟨x, by rw [← h']; simp, hp⟩
    · rw [if_neg hp, List.findIdx?_succ] at h
      rcases ho : xs.findIdx? p with _ | j
      · rw [ho] at h; cases h
      · rw [ho] at h
        simp only [Option.map_some'] at h
        injection h with h'
        rcases ih j ho with ⟨e, he, hpe⟩
        exact ⟨e, by rw [← h']; simpa using he, hpe⟩

/-- Erasing an element splits a weighted sum. -/
theorem eraseIdx_sum {α : Type} (g : α → Nat) :
    ∀ (l : List α) (i : Nat) (e : α), l[i]? = some e →
      ((l.eraseIdx i).map g).sum + g e = (l.map g).sum := by
  intro l
  induction l with
  | nil => intro i e h; cases h
  | cons x xs ih =>
    intro i e h
    rcases i with _ | i
    · simp only [List.getElem?_cons_zero] at h
      injection h with h'
      rw [← h']
      simp [List.eraseIdx]
      omega
    · simp only [List.getElem?_cons_succ] at h
      simp only [List.eraseIdx_cons_succ, List.map_cons, List.sum_cons]
      have := ih i e h
      omega

/-- Removing the found importing entry moves exactly its per-slot count
out of the chunk import count and leaves the stable slots untouched. -/
theorem takeImporting_counts {ch ch' : ChunkStore} {rl : List Range}
    {meta : MigrationMetaStore} {j : Nat} {ranges : List Range}
    (h : takeImporting ch rl meta = some (ch', j, ranges)) :
    (∀ t, chunkImportCount ch' t + listCount ranges t = chunkImportCount ch t) ∧
    ch'.stable_slots0 = ch.stable_slots0 ∧
    ch'.stable_slots1 = ch.stable_slots1 := by
  simp only [takeImporting] at h
  split at h
  · rename_i idx hidx
    split at h
    · rename_i e he
      injection h with h'
      injection h' with h1 h2
      injection h2 with h2 h3
      rcases findIdx?_spec _ _ _ hidx with ⟨e2, he2, hpe⟩
      rw [he] at he2
      injection he2 with he3
      subst he3
      simp only [Bool.and_eq_true, Bool.not_eq_true', decide_eq_true_eq] at hpe
      refine ⟨?_, by rw [← h1], by rw [← h1]⟩
      intro t
      have h2b : (List.map (fun x => entryImportCount x t)
          (ch.migrating_slots0.eraseIdx idx)).sum + entryImportCount e t =
          (List.map (fun x => entryImportCount x t)
            ch.migrating_slots0).sum :=
        eraseIdx_sum (entryImportCount · t) ch.migrating_slots0 idx e he
      rw [← h1]
      simp only [chunkImportCount]
      rw [← h3]
      have hval : entryImportCount e t = listCount e.range_list t := by
        simp [entryImportCount, hpe.1.1]
      omega
    · cases h
  · split at h
    · rename_i idx hidx
      split at h
      · rename_i e he
        injection h with h'
        injection h' with h1 h2
        injection h2 with h2 h3
        rcases findIdx?_spec _ _ _ hidx with ⟨e2, he2, hpe⟩
        rw [he] at he2
        injection he2 with he3
        subst he3
        simp only [Bool.and_eq_true, Bool.not_eq_true', decide_eq_true_eq] at hpe
        refine ⟨?_, by rw [← h1], by rw [← h1]⟩
        intro t
        have h2b : (List.map (fun x => entryImportCount x t)
            (ch.migrating_slots1.eraseIdx idx)).sum + entryImportCount e t =
            (List.map (fun x => entryImportCount x t)
              ch.migrating_slots1).sum :=
          eraseIdx_sum (entryImportCount · t) ch.migrating_slots1 idx e he
        rw [← h1]
        simp only [chunkImportCount]
        rw [← h3]
        have hval : entryImportCount e t = listCount e.range_list t := by
          simp [entryImportCount, hpe.1.1]
        omega
      · cases h
    · cases h

end Broker

namespace Broker

/-- Stable count of a cons. -/
theorem stableSum_cons (ch : ChunkStore) (chs : List ChunkStore) (t : Nat) :
    stableSum (ch :: chs) t = chunkStableCount ch t + stableSum chs t := rfl

/-- Import count of a cons. -/
theorem importSum_cons (ch : ChunkStore) (chs : List ChunkStore) (t : Nat) :
    importSum (ch :: chs) t = chunkImportCount ch t + importSum chs t := rfl

/-- Folding a range list into a stable half adds exactly its per-slot
count, provided the combined count stays at most one. -/
theorem foldIntoStable_counts (ch : ChunkStore) (j : Nat) (ranges : List Range)
    (hb : ∀ t, chunkStableCount ch t + listCount ranges t ≤ 1) :
    (∀ t, chunkStableCount (foldIntoStable ch j ranges) t =
      chunkStableCount ch t + listCount ranges t) ∧
    (∀ t, chunkImportCount (foldIntoStable ch j ranges) t =
      chunkImportCount ch t) := by
  by_cases hj : j = 0
  · rcases hst : ch.stable_slots0 with _ | st
    · refine ⟨?_, ?_⟩ <;> intro t <;>
        simp only [foldIntoStable, hj, if_true, hst, chunkStableCount,
          chunkImportCount, oslotCount]
      omega
    · have hmb : ∀ t, listCount st.range_list t + listCount ranges t ≤ 1 := by
        intro t
        have := hb t
        simp only [chunkStableCount, hst, oslotCount] at this
        omega
      refine ⟨?_, ?_⟩ <;> intro t <;>
        simp only [foldIntoStable, hj, if_true, hst, chunkStableCount,
          chunkImportCount, oslotCount]
      rw [mergeRangeLists_count st.range_list ranges hmb t]
      omega
  · rcases hst : ch.stable_slots1 with _ | st
    · refine ⟨?_, ?_⟩ <;> intro t <;>
        simp only [foldIntoStable, hj, if_false, hst, chunkStableCount,
          chunkImportCount, oslotCount]
      omega
    · have hmb : ∀ t, listCount st.range_list t + listCount ranges t ≤ 1 := by
        intro t
        have := hb t
        simp only [chunkStableCount, hst, oslotCount] at this
        omega
      refine ⟨?_, ?_⟩ <;> intro t <;>
        simp only [foldIntoStable, hj, if_false, hst, chunkStableCount,
          chunkImportCount, oslotCount]
      rw [mergeRangeLists_count st.range_list ranges hmb t]
      omega

/-- The commit fold conserves the combined stable plus importing per-slot
count whenever that count is at most one. -/
theorem commitFold_counts (rl : List Range) (meta : MigrationMetaStore) :
    ∀ (chs : List ChunkStore),
      (∀ t, stableSum chs t + importSum chs t ≤ 1) →
      ∀ t, stableSum (commitFold rl meta chs) t +
          importSum (commitFold rl meta chs) t =
        stableSum chs t + importSum chs t := by
  intro chs
  induction chs with
  | nil => intro _ t; rfl
  | cons ch rest ih =>
    intro hb t
    simp only [commitFold]
    split
    · rename_i r hr
      rcases r with ⟨ch', j, ranges⟩
      rcases takeImporting_counts hr with ⟨him, hs0, hs1⟩
      have hstq : ∀ u, chunkStableCount ch' u = chunkStableCount ch u := by
        intro u
        simp only [chunkStableCount, hs0, hs1]
      have hfb : ∀ u, chunkStableCount ch' u + listCount ranges u ≤ 1 := by
        intro u
        have hbu := hb u
        rw [stableSum_cons, importSum_cons] at hbu
        have := him u
        rw [hstq u]
        omega
      rcases foldIntoStable_counts ch' j ranges hfb with ⟨hfs, hfi⟩
      rw [stableSum_cons, importSum_cons, stableSum_cons, importSum_cons,
        hfs t, hfi t, hstq t]
      have := him t
      omega
    · rw [stableSum_cons, importSum_cons, stableSum_cons, importSum_cons]
      have hb' : ∀ u, stableSum rest u + importSum rest u ≤ 1 := by
        intro u
        have := hb u
        rw [stableSum_cons, importSum_cons] at this
        omega
      have := ih hb' t
      omega

end Broker

namespace Broker

/-- Entries removed by the commit retain pass are migrating and carry no
importing count. -/
theorem commitRemovePred_import {rl : List Range} {meta : MigrationMetaStore}
    {e : MigrationSlotRangeStore}
    (h : commitRemovePred rl meta e = true) (t : Nat) :
    entryImportCount e t = 0 := by
  simp only [commitRemovePred, Bool.and_eq_true] at h
  simp [entryImportCount, h.1.1]

/-- The retain pass of the commit preserves both counts. -/
theorem commitFilter_counts (rl : List Range) (meta : MigrationMetaStore) :
    ∀ (chs : List ChunkStore) (t : Nat),
      stableSum (chs.map (fun ch =>
        { ch with
          migrating_slots0 :=
            ch.migrating_slots0.filter (fun e => ¬ commitRemovePred rl meta e)
          migrating_slots1 :=
            ch.migrating_slots1.filter (fun e => ¬ commitRemovePred rl meta e) })) t
        = stableSum chs t ∧
      importSum (chs.map (fun ch =>
        { ch with
          migrating_slots0 :=
            ch.migrating_slots0.filter (fun e => ¬ commitRemovePred rl meta e)
          migrating_slots1 :=
            ch.migrating_slots1.filter (fun e => ¬ commitRemovePred rl meta e) })) t
        = importSum chs t := by
  intro chs
  induction chs with
  | nil => intro t; exact ⟨rfl, rfl⟩
  | cons ch rest ih =>
    intro t
    rcases ih t with ⟨ihs, ihi⟩
    constructor
    · simp only [List.map_cons, stableSum_cons, ihs]
      rfl
    · simp only [List.map_cons, importSum_cons, ihi]
      have hzero : ∀ (l : List MigrationSlotRangeStore),
          (List.map (fun x => entryImportCount x t)
            (l.filter (fun e => ¬ commitRemovePred rl meta e))).sum =
          (List.map (fun x => entryImportCount x t) l).sum := by
        intro l
        apply sum_map_filter_of_zero
        intro e _ hpe
        simp only [decide_eq_false_iff_not, Decidable.not_not] at hpe
        exact commitRemovePred_import hpe t
      simp only [chunkImportCount]
      rw [hzero ch.migrating_slots0, hzero ch.migrating_slots1]

/-- A successful commit conserves the per-slot count of the cluster,
provided each slot was covered at most once before. -/
theorem commit_migration_counts {s : MetaStore} {task : MigrationTaskMeta}
    {c : ClusterStore} (hc : s.cluster = some c)
    (hinv : ∀ t, clusterSlotCount c t ≤ 1)
    (h : (commit_migration s task).2 = Option.none) :
    ∃ c2, (commit_migration s task).1.cluster = some c2 ∧
      ∀ t, clusterSlotCount c2 t = clusterSlotCount c t := by
  rcases htag : task.slot_range.tag with _ | meta0 | meta0
  · simp only [commit_migration, hc, htag] at h
    exact absurd h (by simp)
  · simp only [commit_migration, hc, htag] at h
    rcases hsrc : findMigrationPos c.chunks task.slot_range.range_list
        meta0.epoch true with _ | src
    · rw [hsrc] at h
      exact absurd h (by simp)
    · rw [hsrc] at h
      rcases hdst : findMigrationPos c.chunks task.slot_range.range_list
          meta0.epoch false with _ | dst
      · rw [hdst] at h
        exact absurd h (by simp)
      · rw [hdst] at h
        simp only [commit_migration, hc, htag, hsrc, hdst, bump_global_epoch]
        refine ⟨_, rfl, ?_⟩
        intro t
        simp only [clusterSlotCount]
        rw [commitFold_counts _ _ _ (fun u => by
          rcases commitFilter_counts _ _ c.chunks u with ⟨hs, hi⟩
          rw [hs, hi]
          exact hinv u) t]
        rcases commitFilter_counts _ _ c.chunks t with ⟨hs, hi⟩
        rw [hs, hi]
  · simp only [commit_migration, hc, htag] at h
    rcases hsrc : findMigrationPos c.chunks task.slot_range.range_list
        meta0.epoch true with _ | src
    · rw [hsrc] at h
      exact absurd h (by simp)
    · rw [hsrc] at h
      rcases hdst : findMigrationPos c.chunks task.slot_range.range_list
          meta0.epoch false with _ | dst
      · rw [hdst] at h
        exact absurd h (by simp)
      · rw [hdst] at h
        simp only [commit_migration, hc, htag, hsrc, hdst, bump_global_epoch]
        refine ⟨_, rfl, ?_⟩
        intro t
        simp only [clusterSlotCount]
        rw [commitFold_counts _ _ _ (fun u => by
          rcases commitFilter_counts _ _ c.chunks u with ⟨hs, hi⟩
          rw [hs, hi]
          exact hinv u) t]
        rcases commitFilter_counts _ _ c.chunks t with ⟨hs, hi⟩
        rw [hs, hi]

end Broker

namespace Broker

/-- Chunk lists with pointwise equal migrating lists have equal import
counts. -/
theorem importSum_congr :
    ∀ (l1 l2 : List ChunkStore),
      (∀ k : Nat, (l1[k]?).map
          (fun ch : ChunkStore => (ch.migrating_slots0, ch.migrating_slots1)) =
        (l2[k]?).map
          (fun ch : ChunkStore => (ch.migrating_slots0, ch.migrating_slots1))) →
      ∀ t, importSum l1 t = importSum l2 t := by
  intro l1
  induction l1 with
  | nil =>
    intro l2 h t
    rcases l2 with _ | ⟨y, ys⟩
    · rfl
    · exact absurd (h 0) (by simp)
  | cons x xs ih =>
    intro l2 h t
    rcases l2 with _ | ⟨y, ys⟩
    · exact absurd (h 0) (by simp)
    · have h0 := h 0
      simp only [List.getElem?_cons_zero, Option.map_some'] at h0
      injection h0 with h0'
      have e0 : x.migrating_slots0 = y.migrating_slots0 :=
        congrArg Prod.fst h0'
      have e1 : x.migrating_slots1 = y.migrating_slots1 :=
        congrArg Prod.snd h0'
      rw [importSum_cons, importSum_cons, ih ys (fun k => by
        have := h (k + 1)
        simpa using this) t]
      simp only [chunkImportCount, e0, e1]

/-- A successful `migrate_slots` conserves the per-slot count of the
cluster unconditionally: the slots removed from stable sources are
exactly the slots recorded as importing. -/
theorem migrate_slots_counts {s : MetaStore} {db : String} {c : ClusterStore}
    (hc : s.cluster = some c)
    (h : (migrate_slots s db).2 = Option.none) :
    ∃ c2, (migrate_slots s db).1.cluster = some c2 ∧
      ∀ t, clusterSlotCount c2 t = clusterSlotCount c t := by
  simp only [migrate_slots, dbNameFrom, hc] at h ⊢
  by_cases hname : ¬ db = c.name
  · rw [if_pos hname] at h
    exact absurd h (by simp)
  · rw [if_neg hname] at h ⊢
    by_cases hrun : c.chunks.any (fun ch =>
        ¬ (ch.migrating_slots0.isEmpty || ch.migrating_slots1.isEmpty))
    · rw [if_pos hrun] at h
      exact absurd h (by simp)
    · rw [if_neg hrun] at h ⊢
      simp only [bump_global_epoch, remove_slots_from_src]
      refine ⟨_, rfl, ?_⟩
      intro t
      have hfil : (c.chunks.filter (fun ch =>
          ch.stable_slots0.isNone && ch.stable_slots1.isNone)).length ≤
            c.chunks.length := List.length_filter_le _ _
      have htop := processChunks_top
        { dst_master_num := (c.chunks.filter (fun ch =>
            ch.stable_slots0.isNone && ch.stable_slots1.isNone)).length * 2
          src_master_num := (c.chunks.length - (c.chunks.filter (fun ch =>
            ch.stable_slots0.isNone && ch.stable_slots1.isNone)).length) * 2
          src_chunk_num := c.chunks.length - (c.chunks.filter (fun ch =>
            ch.stable_slots0.isNone && ch.stable_slots1.isNone)).length
          average := SLOT_NUM / (c.chunks.length * 2)
          remainder := SLOT_NUM - SLOT_NUM / (c.chunks.length * 2) *
            (c.chunks.length * 2)
          epoch := s.global_epoch + 1 } c.chunks (by dsimp only; omega)
      rcases htop with ⟨hstable, hlen, hmig, hout⟩
      have himp := importSum_congr _ _ hmig
      have hval : ∀ m ∈ (processChunks
          { dst_master_num := (c.chunks.filter (fun ch =>
              ch.stable_slots0.isNone && ch.stable_slots1.isNone)).length * 2
            src_master_num := (c.chunks.length - (c.chunks.filter (fun ch =>
              ch.stable_slots0.isNone && ch.stable_slots1.isNone)).length) * 2
            src_chunk_num := c.chunks.length - (c.chunks.filter (fun ch =>
              ch.stable_slots0.isNone && ch.stable_slots1.isNone)).length
            average := SLOT_NUM / (c.chunks.length * 2)
            remainder := SLOT_NUM - SLOT_NUM / (c.chunks.length * 2) *
              (c.chunks.length * 2)
            epoch := s.global_epoch + 1 } c.chunks 0
          { dstIdx := 0, accNum := 0, acc := [], out := [] }).2.out,
          m.meta.dst_chunk_index <
            (({ c with chunks := (processChunks
              { dst_master_num := (c.chunks.filter (fun ch =>
                  ch.stable_slots0.isNone && ch.stable_slots1.isNone)).length * 2
                src_master_num := (c.chunks.length - (c.chunks.filter (fun ch =>
                  ch.stable_slots0.isNone && ch.stable_slots1.isNone)).length) * 2
                src_chunk_num := c.chunks.length - (c.chunks.filter (fun ch =>
                  ch.stable_slots0.isNone && ch.stable_slots1.isNone)).length
                average := SLOT_NUM / (c.chunks.length * 2)
                remainder := SLOT_NUM - SLOT_NUM / (c.chunks.length * 2) *
                  (c.chunks.length * 2)
                epoch := s.global_epoch + 1 } c.chunks 0
              { dstIdx := 0, accNum := 0, acc := [], out := [] }).1 } :
              ClusterStore)).chunks.length := by
        intro m hm
        have := (hout m hm).2
        simp only
        omega
      have hassign := assign_dst_slots_counts _ _ hval
      simp only [clusterSlotCount]
      rw [hassign.1 t, (hassign.2.1 t)]
      have hs := hstable t
      have hi := himp t
      simp only at hs hi ⊢
      omega

end Broker

namespace Broker

/-- The start offset grows along the master index. -/
theorem evenStart_add_le (M m : Nat) :
    ∀ d, evenStart M m ≤ evenStart M (m + d) := by
  intro d
  induction d with
  | zero => exact Nat.le_refl _
  | succ d ih =>
    have hstep : evenStart M (m + (d + 1)) =
        evenStart M (m + d) + evenTarget M (m + d) := by
      have := evenStart_succ M (m + d)
      rw [show m + (d + 1) = (m + d) + 1 from rfl]
      exact this
    omega

/-- Monotonicity of the start offset. -/
theorem evenStart_mono {M m n : Nat} (h : m ≤ n) :
    evenStart M m ≤ evenStart M n := by
  have := evenStart_add_le M m (n - m)
  rw [show m + (n - m) = n from by omega] at this
  exact this

/-- Either a master receives at least one slot, or it starts past slot
zero (this excludes the degenerate inclusive range on slot 0). -/
theorem evenTarget_or_start (M m : Nat) :
    1 ≤ evenTarget M m ∨ 1 ≤ evenStart M m := by
  rcases m with _ | n
  · exact Or.inl (evenTarget_zero_pos M)
  · exact Or.inr (evenStart_pos M (n + 1) (by omega))

/-- The per-slot count of a master range is the characteristic function
of the half-open interval between consecutive start offsets. -/
theorem evenRange_count (M m t : Nat) :
    rangeCount ⟨evenStart M m, evenStart M m + evenTarget M m - 1⟩ t =
      if evenStart M m ≤ t ∧ t < evenStart M (m + 1) then 1 else 0 := by
  have hkey : 1 ≤ evenTarget M m ∨ 1 ≤ evenStart M m := by
    rcases m with _ | n
    · exact Or.inl (evenTarget_zero_pos M)
    · exact Or.inr (evenStart_pos M (n + 1) (by omega))
  rw [evenStart_succ]
  simp only [rangeCount]
  split_ifs <;> omega

/-- Freshly built chunks carry no migration entries. -/
theorem buildChunks_import0 (average remainder : Nat) (with_slots : Bool) :
    ∀ (arr : List (ProxyResource × ProxyResource)) (i curr t : Nat),
      importSum (buildChunks average remainder with_slots arr i curr) t = 0 := by
  intro arr
  induction arr with
  | nil => intro i curr t; rfl
  | cons pr rest ih =>
    intro i curr t
    simp only [buildChunks, importSum_cons]
    rw [ih]
    rfl

/-- The chunks built from chunk index `k` cover exactly the slot interval
between the start offsets of masters `2k` and `2(k + len)`, once each. -/
theorem buildChunks_stableCount (M : Nat) :
    ∀ (arr : List (ProxyResource × ProxyResource)) (k t : Nat),
      stableSum (buildChunks (SLOT_NUM / M) (SLOT_NUM - SLOT_NUM / M * M) true
        arr k (evenStart M (2 * k))) t =
      if evenStart M (2 * k) ≤ t ∧ t < evenStart M (2 * (k + arr.length))
      then 1 else 0 := by
  intro arr
  induction arr with
  | nil =>
    intro k t
    simp only [buildChunks, stableSum, List.map_nil, List.sum_nil,
      List.length_nil, Nat.add_zero]
    split_ifs <;> omega
  | cons pr rest ih =>
    intro k t
    simp only [buildChunks, stableSum_cons, if_true]
    have hta : evenTarget M (2 * k) = SLOT_NUM / M +
        (if 2 * k < SLOT_NUM - SLOT_NUM / M * M then 1 else 0) := rfl
    have htb : evenTarget M (2 * k + 1) = SLOT_NUM / M +
        (if 2 * k + 1 < SLOT_NUM - SLOT_NUM / M * M then 1 else 0) := rfl
    have hcur : evenStart M (2 * k) + SLOT_NUM / M +
        (if 2 * k < SLOT_NUM - SLOT_NUM / M * M then 1 else 0) +
        SLOT_NUM / M +
        (if 2 * k + 1 < SLOT_NUM - SLOT_NUM / M * M then 1 else 0) =
        evenStart M (2 * (k + 1)) := by
      have e1 : 2 * (k + 1) = 2 * k + 1 + 1 := by ring
      rw [e1, evenStart_succ, evenStart_succ, hta, htb]
      split_ifs <;> omega
    rw [hcur, ih (k + 1) t]
    have h3 : evenStart M (2 * (k + 1)) ≤
        evenStart M (2 * (k + 1 + rest.length)) := evenStart_mono (by omega)
    have h5 : 2 * (k + (rest.length + 1)) = 2 * (k + 1 + rest.length) := by
      ring
    rw [List.length_cons, h5]
    simp only [chunkStableCount, oslotCount, listCount_cons, listCount,
      List.map_cons, List.map_nil, List.sum_cons, List.sum_nil, rangeCount]
    have hd1 : 1 ≤ SLOT_NUM / M +
        (if 2 * k < SLOT_NUM - SLOT_NUM / M * M then 1 else 0) ∨
        1 ≤ evenStart M (2 * k) := by
      rw [← hta]
      exact evenTarget_or_start M (2 * k)
    have hd2 : 1 ≤ SLOT_NUM / M +
        (if 2 * k + 1 < SLOT_NUM - SLOT_NUM / M * M then 1 else 0) ∨
        1 ≤ evenStart M (2 * k + 1) := by
      rw [← htb]
      exact evenTarget_or_start M (2 * k + 1)
    have hsa : evenStart M (2 * k) + (SLOT_NUM / M +
        (if 2 * k < SLOT_NUM - SLOT_NUM / M * M then 1 else 0)) =
        evenStart M (2 * k + 1) := by
      rw [← hta]
      exact (evenStart_succ M (2 * k)).symm
    clear hta htb
    generalize SLOT_NUM - SLOT_NUM / M * M = R at hcur hd1 hd2 hsa ⊢
    generalize SLOT_NUM / M = A at hcur hd1 hd2 hsa ⊢
    split_ifs at hcur hd1 hd2 hsa ⊢ <;> omega

end Broker

namespace Broker

/-- Closed form of the start offset. -/
theorem evenStart_formula (M : Nat) :
    ∀ n, evenStart M n = SLOT_NUM / M * n +
      min n (SLOT_NUM - SLOT_NUM / M * M) := by
  intro n
  induction n with
  | zero => simp [evenStart]
  | succ n ih =>
    rw [evenStart_succ, ih]
    simp only [evenTarget]
    generalize SLOT_NUM - SLOT_NUM / M * M = R
    generalize SLOT_NUM / M = A
    split_ifs <;> rw [Nat.mul_succ] <;> omega

/-- All `M` masters together receive exactly the full slot space. -/
theorem evenStart_top (M : Nat) (hM : 1 ≤ M) : evenStart M M = SLOT_NUM := by
  have hf := evenStart_formula M M
  have hdm : M * (SLOT_NUM / M) + SLOT_NUM % M = SLOT_NUM :=
    Nat.div_add_mod _ _
  have hcm : SLOT_NUM / M * M = M * (SLOT_NUM / M) := Nat.mul_comm _ _
  have hlt : SLOT_NUM % M < M := Nat.mod_lt _ (by omega)
  generalize hB : SLOT_NUM / M * M = B at hf hcm
  generalize M * (SLOT_NUM / M) = B2 at hdm hcm
  omega

/-- A cluster created by `add_cluster` covers every slot exactly once. -/
theorem add_cluster_inv {s : MetaStore} {db : String} {n : Nat} {r : MetaStore}
    (h : add_cluster s db n = some (r, Option.none)) :
    ∀ c, r.cluster = some c →
      ∀ t, clusterSlotCount c t = if t < SLOT_NUM then 1 else 0 := by
  intro c hc t
  simp only [add_cluster, dbNameFrom] at h
  split_ifs at h with h1 h2 h3
  all_goals try exact absurd h (by simp [Prod.ext_iff])
  rcases hcp : consume_proxy s (n / 2) with _ | e | arr
  · rw [hcp] at h; cases h
  · rw [hcp] at h; simp at h
  · rw [hcp] at h
    injection h with h'
    have hr : r = bump_global_epoch { s with cluster := some { name := db, chunks := proxy_resource_to_chunk_store arr true } } :=
      (congrArg Prod.fst h').symm
    rw [hr] at hc
    simp only [bump_global_epoch, Option.some.injEq] at hc
    rw [← hc]
    have hlen : arr.length = (n / 2 + 1) / 2 := consume_proxy_length hcp
    have hpos : 1 ≤ arr.length := by omega
    simp only [clusterSlotCount, proxy_resource_to_chunk_store]
    rw [buildChunks_import0]
    have hz : evenStart (arr.length * 2) 0 = 0 := rfl
    have hcount := buildChunks_stableCount (arr.length * 2) arr 0 t
    rw [show (2 : Nat) * 0 = 0 from rfl, hz] at hcount
    rw [hcount]
    have hmul : 2 * (0 + arr.length) = arr.length * 2 := by ring
    rw [hmul, evenStart_top (arr.length * 2) (by omega)]
    split_ifs <;> omega

/-- Chunks built without slots carry no stable ranges. -/
theorem buildChunks_noslots_stable (average remainder : Nat) :
    ∀ (arr : List (ProxyResource × ProxyResource)) (i curr t : Nat),
      stableSum (buildChunks average remainder false arr i curr) t = 0 := by
  intro arr
  induction arr with
  | nil => intro i curr t; rfl
  | cons pr rest ih =>
    intro i curr t
    simp only [buildChunks, stableSum_cons]
    rw [ih]
    rfl

/-- Stable count of an append. -/
theorem stableSum_append (l1 l2 : List ChunkStore) (t : Nat) :
    stableSum (l1 ++ l2) t = stableSum l1 t + stableSum l2 t := by
  simp [stableSum]

/-- Import count of an append. -/
theorem importSum_append (l1 l2 : List ChunkStore) (t : Nat) :
    importSum (l1 ++ l2) t = importSum l1 t + importSum l2 t := by
  simp [importSum]

/-- Appending slot-less chunks keeps the per-slot count of the
cluster. -/
theorem auto_add_nodes_inv {s : MetaStore} {db : String} {num? : Option Nat}
    {r : MetaStore} {c0 : ClusterStore} (hc0 : s.cluster = some c0)
    (h : auto_add_nodes s db num? = some (r, Option.none)) :
    ∀ c, r.cluster = some c →
      ∀ t, clusterSlotCount c t = clusterSlotCount c0 t := by
  intro c hc t
  have key : ∀ (k : Nat),
      (match consume_proxy s k with
        | Option.none => none
        | Option.some (Except.error e) => some (s, some e)
        | Option.some (Except.ok arr) =>
          some (bump_global_epoch { s with cluster := some { c0 with chunks := c0.chunks ++ proxy_resource_to_chunk_store arr false } }, Option.none)) =
        some (r, Option.none) →
      clusterSlotCount c t = clusterSlotCount c0 t := by
    intro k hk
    rcases hcp : consume_proxy s k with _ | e | arr
    · rw [hcp] at hk; cases hk
    · rw [hcp] at hk; simp at hk
    · rw [hcp] at hk
      injection hk with hk'
      have hr : r = bump_global_epoch { s with cluster := some { c0 with chunks := c0.chunks ++ proxy_resource_to_chunk_store arr false } } :=
        (congrArg Prod.fst hk').symm
      rw [hr] at hc
      simp only [bump_global_epoch, Option.some.injEq] at hc
      rw [← hc]
      simp only [clusterSlotCount, proxy_resource_to_chunk_store,
        stableSum_append, importSum_append]
      rw [buildChunks_noslots_stable, buildChunks_import0]
      omega
  rcases num? with _ | n
  all_goals
    simp only [auto_add_nodes, dbNameFrom, hc0] at h
  · split_ifs at h with h1 h2 h3
    all_goals try exact absurd h (by simp [Prod.ext_iff])
    exact key _ h
  · split_ifs at h with h1 h2 h3
    all_goals try exact absurd h (by simp [Prod.ext_iff])
    exact key _ h

end Broker

namespace Broker

/-- The takeover role flip keeps both counts. -/
theorem flipRole_counts (addr : String) :
    ∀ (chs : List ChunkStore) (t : Nat),
      stableSum (flipRole addr chs) t = stableSum chs t ∧
      importSum (flipRole addr chs) t = importSum chs t := by
  intro chs
  induction chs with
  | nil => intro t; exact ⟨rfl, rfl⟩
  | cons ch rest ih =>
    intro t
    simp only [flipRole]
    split_ifs with h1 h2
    · exact ⟨rfl, rfl⟩
    · exact ⟨rfl, rfl⟩
    · rw [stableSum_cons, stableSum_cons, importSum_cons, importSum_cons,
        (ih t).1, (ih t).2]
      exact ⟨rfl, rfl⟩

/-- The proxy replacement patch keeps both counts. -/
theorem replaceChunkProxy_counts (addr : String) (res : ProxyResource) :
    ∀ (chs : List ChunkStore) (t : Nat),
      stableSum (replaceChunkProxy addr res chs) t = stableSum chs t ∧
      importSum (replaceChunkProxy addr res chs) t = importSum chs t := by
  intro chs
  induction chs with
  | nil => intro t; exact ⟨rfl, rfl⟩
  | cons ch rest ih =>
    intro t
    simp only [replaceChunkProxy]
    split_ifs with h1 h2
    · exact ⟨rfl, rfl⟩
    · exact ⟨rfl, rfl⟩
    · rw [stableSum_cons, stableSum_cons, importSum_cons, importSum_cons,
        (ih t).1, (ih t).2]
      exact ⟨rfl, rfl⟩

/-- A successful proxy replacement conserves the per-slot count. -/
theorem replace_failed_proxy_inv {s r : MetaStore} {a : String}
    (h : replace_failed_proxy s a = some (r, Option.none)) :
    ∃ c0 c2, s.cluster = some c0 ∧ r.cluster = some c2 ∧
      ∀ t, clusterSlotCount c2 t = clusterSlotCount c0 t := by
  simp only [replace_failed_proxy] at h
  split_ifs at h with h1 h2
  · exact absurd h (by simp [Prod.ext_iff])
  · rcases hc0 : s.cluster with _ | c0
    · rw [hc0] at h2
      simp at h2
    · have htk2 : (takeover_master s a).2 = Option.none := by
        simp [takeover_master, bump_global_epoch, hc0]
      have htk1 : (takeover_master s a).1.cluster = some { name := c0.name, chunks := flipRole a c0.chunks } := by
        simp [takeover_master, hc0, bump_global_epoch]
      refine ⟨c0, ?_⟩
      split at h
      · rename_i e htke
        rw [htk2] at htke
        cases htke
      · split at h
        · cases h
        · exact absurd h (by simp [Prod.ext_iff])
        · rename_i res hcn
          split at h
          · rename_i hclnone
            rw [htk1] at hclnone
            cases hclnone
          · rename_i c hcl
            rw [htk1] at hcl
            injection hcl with hceq
            subst hceq
            split_ifs at h with hcont
            · injection h with h'
              have hr : r = bump_global_epoch { (takeover_master s a).1 with cluster := some { name := c0.name, chunks := replaceChunkProxy a res (flipRole a c0.chunks) }, failed_proxies := setIns (takeover_master s a).1.failed_proxies a } := by
                have := (congrArg Prod.fst h').symm
                simpa using this
              refine ⟨{ name := c0.name, chunks := replaceChunkProxy a res (flipRole a c0.chunks) }, rfl, by rw [hr]; rfl, ?_⟩
              intro t
              simp only [clusterSlotCount]
              rw [(replaceChunkProxy_counts a res _ t).1,
                (replaceChunkProxy_counts a res _ t).2,
                (flipRole_counts a _ t).1, (flipRole_counts a _ t).2]
  · exact absurd h (by simp [Prod.ext_iff])

end Broker

namespace Broker

/-- The global slot invariant: whenever a cluster exists, the union of
stable ranges and importing migration ranges covers each slot below
`SLOT_NUM` exactly once and no other slot. -/
def SlotInv (s : MetaStore) : Prop :=
  ∀ c, s.cluster = some c →
    ∀ t, clusterSlotCount c t = if t < SLOT_NUM then 1 else 0

/-- States reachable from the default store by successful mutators. -/
inductive Reachable : MetaStore → Prop where
  | start : Reachable MetaStore.default
  | stepAddProxy (s : MetaStore) (a : String) (nodes : String × String) :
      Reachable s → (add_proxy s a nodes).2 = Option.none →
      Reachable (add_proxy s a nodes).1
  | stepRemoveProxy (s : MetaStore) (a : String) :
      Reachable s → (remove_proxy s a).2 = Option.none →
      Reachable (remove_proxy s a).1
  | stepAddCluster (s : MetaStore) (db : String) (n : Nat) (r : MetaStore) :
      Reachable s → add_cluster s db n = some (r, Option.none) → Reachable r
  | stepRemoveCluster (s : MetaStore) (db : String) :
      Reachable s → (remove_cluster s db).2 = Option.none →
      Reachable (remove_cluster s db).1
  | stepAutoAddNodes (s : MetaStore) (db : String) (num? : Option Nat)
      (r : MetaStore) :
      Reachable s → auto_add_nodes s db num? = some (r, Option.none) →
      Reachable r
  | stepMigrateSlots (s : MetaStore) (db : String) :
      Reachable s → (migrate_slots s db).2 = Option.none →
      Reachable (migrate_slots s db).1
  | stepCommitMigration (s : MetaStore) (task : MigrationTaskMeta) :
      Reachable s → (commit_migration s task).2 = Option.none →
      Reachable (commit_migration s task).1
  | stepAddFailure (s : MetaStore) (now : Int) (a rid : String) :
      Reachable s → Reachable (add_failure s now a rid)
  | stepGetFailures (s : MetaStore) (now ttl : Int) (q : Nat) :
      Reachable s → Reachable (get_failures s now ttl q).2
  | stepReplaceFailedProxy (s : MetaStore) (a : String) (r : MetaStore) :
      Reachable s → replace_failed_proxy s a = some (r, Option.none) →
      Reachable r

/-- C1: for every store reachable from the default store by a sequence of
successful mutators, whenever a cluster exists the union over all chunks
of the stable range lists and the importing (`is_migrating = false`)
migration range lists covers every slot in `[0, SLOT_NUM)` exactly once
and no slot outside it; in particular `migrate_slots` and
`commit_migration` preserve this invariant (their induction cases rest on
`migrate_slots_counts` and `commit_migration_counts`). -/
theorem C1_slot_invariant (s : MetaStore) (h : Reachable s) :
    SlotInv s := by
  induction h with
  | start => intro c hc t; cases hc
  | stepAddProxy s a nodes hr hok ih =>
    intro c hc t
    have hcl : (add_proxy s a nodes).1.cluster = s.cluster := by
      simp only [add_proxy, bump_global_epoch]
      split_ifs <;> rfl
    rw [hcl] at hc
    exact ih c hc t
  | stepRemoveProxy s a hr hok ih =>
    intro c hc t
    have hcl : (remove_proxy s a).1.cluster = s.cluster := by
      simp only [remove_proxy, bump_global_epoch]
      split_ifs <;> rfl
    rw [hcl] at hc
    exact ih c hc t
  | stepAddCluster s db n r hr hok ih =>
    intro c hc t
    exact add_cluster_inv hok c hc t
  | stepRemoveCluster s db hr hok ih =>
    intro c hc t
    simp only [remove_cluster, dbNameFrom] at hc
    rcases hs : s.cluster with _ | c0
    · rw [hs] at hc
      simp only at hc
      rw [hs] at hc
      cases hc
    · rw [hs] at hc
      simp only at hc
      split_ifs at hc
      · simp [bump_global_epoch] at hc
      · exact ih c hc t
  | stepAutoAddNodes s db num? r hr hok ih =>
    intro c hc t
    rcases hs : s.cluster with _ | c0
    · exfalso
      rcases num? with _ | n <;>
        simp [auto_add_nodes, dbNameFrom, hs, Prod.ext_iff] at hok
    · rw [auto_add_nodes_inv hs hok c hc t]
      exact ih c0 hs t
  | stepMigrateSlots s db hr hok ih =>
    intro c hc t
    rcases hs : s.cluster with _ | c0
    · exfalso
      simp [migrate_slots, dbNameFrom, hs, Prod.ext_iff] at hok
    · rcases migrate_slots_counts hs hok with ⟨c2, hc2, hcnt⟩
      rw [hc2] at hc
      injection hc with hce
      rw [← hce, hcnt t]
      exact ih c0 hs t
  | stepCommitMigration s task hr hok ih =>
    intro c hc t
    rcases hs : s.cluster with _ | c0
    · exfalso
      simp [commit_migration, hs, Prod.ext_iff] at hok
    · rcases commit_migration_counts hs (fun u => by
        rw [ih c0 hs u]
        split_ifs <;> omega) hok with ⟨c2, hc2, hcnt⟩
      rw [hc2] at hc
      injection hc with hce
      rw [← hce, hcnt t]
      exact ih c0 hs t
  | stepAddFailure s now a rid hr ih =>
    intro c hc t
    have hcl : (add_failure s now a rid).cluster = s.cluster := rfl
    rw [hcl] at hc
    exact ih c hc t
  | stepGetFailures s now ttl q hr ih =>
    intro c hc t
    have hcl : (get_failures s now ttl q).2.cluster = s.cluster := rfl
    rw [hcl] at hc
    exact ih c hc t
  | stepReplaceFailedProxy s a r hr hok ih =>
    intro c hc t
    rcases replace_failed_proxy_inv hok with ⟨c0, c2, hc0, hc2, hcnt⟩
    rw [hc2] at hc
    injection hc with hce
    rw [← hce, hcnt t]
    exact ih c0 hc0 t

end Broker

namespace Broker

/-- A two-host proxy pool reachable from the default store. -/
def c1Pool : MetaStore :=
  (add_proxy ((add_proxy MetaStore.default "a:1" ("a:2", "a:3")).1)
    "b:1" ("b:2", "b:3")).1

/-- The reachable store after a four-node cluster creation on that
pool. -/
def c1Store : MetaStore :=
  ((add_cluster c1Pool "x" 4).getD (MetaStore.default, Option.none)).1

/-- Witness for C1 on a concrete reachable store. -/
theorem C1_slot_invariant_witness : SlotInv c1Store :=
  C1_slot_invariant c1Store
    (Reachable.stepAddCluster c1Pool "x" 4 c1Store
      (Reachable.stepAddProxy _ "b:1" ("b:2", "b:3")
        (Reachable.stepAddProxy _ "a:1" ("a:2", "a:3") Reachable.start rfl)
        rfl)
      rfl)

end Broker
